import Mathlib

/-!
# Verification of the CoNLL-U parser/serializer (`conllu/parser.py`)

A shallow embedding of the parser/serializer core.  Python strings are
modelled as `List Char`; Python `None`/`int`/`str`/tuple/`OrderedDict`/list
field values as the closed union `PyVal`; raising as `Except PyErr`.
`re.fullmatch` against the (star-free, alternation-of-character-classes)
regular expressions of the source is modelled by total language-membership
functions (`matchPos`, `matchRange`, ...): each regex denotes a language in
which the separator characters (`-`, `.`, `:`, `|`) cannot occur inside the
surrounding pieces, so membership is decided by deterministic splitting.
`conllu.compat.text` is the identity on Python 3 and is dropped.
-/

/-- Python strings, as lists of characters. -/
abbrev Str := List Char

/-- Shorthand to inject Lean string literals into the model. -/
def str (s : String) : Str := s.data

/-- The characters stripped by Python's default `str.strip()`. -/
def isPyWS (c : Char) : Bool :=
  c == ' ' || c == '\t' || c == '\n' || c == '\x0d' || c == '\x0b' || c == '\x0c'

/-- Python `str.lstrip()`. -/
def lstrip (s : Str) : Str := s.dropWhile isPyWS

/-- Python `str.rstrip()`. -/
def rstrip (s : Str) : Str := (s.reverse.dropWhile isPyWS).reverse

/-- Python `str.strip()`. -/
def strip (s : Str) : Str := rstrip (lstrip s)

/-- Split a list at every element satisfying `p`, Python `str.split(sep)`
style: separators are dropped, empty pieces are kept, and the empty input
yields one empty piece. -/
def splitOnP (p : α → Bool) : List α → List (List α)
  | [] => [[]]
  | a :: rest =>
    if p a then [] :: splitOnP p rest
    else
      match splitOnP p rest with
      | [] => [[a]]
      | h :: t => (a :: h) :: t

/-- Python `value.split(c)` for a one-character separator. -/
def splitChar (c : Char) (s : Str) : List Str := splitOnP (fun x => x == c) s

/-- Python `value.split(c, 1)`: the piece before the first `c`, and, when a
`c` occurs, everything after it. -/
def splitFirst (c : Char) : Str → Str × Option Str
  | [] => ([], none)
  | x :: t =>
    if x == c then ([], some t)
    else
      let r := splitFirst c t
      (x :: r.1, r.2)

/-- Python `sep.join(pieces)`. -/
def joinSep (sep : List α) : List (List α) → List α
  | [] => []
  | [x] => x
  | x :: y :: t => x ++ sep ++ joinSep sep (y :: t)

/-- Python `str.lower()` on one character (ASCII letters, which is all the
schema detector ever feeds it). -/
def lowerChar (c : Char) : Char :=
  if 65 ≤ c.toNat ∧ c.toNat ≤ 90 then Char.ofNat (c.toNat + 32) else c

/-- Python `str.lower()`. -/
def lowerStr (s : Str) : Str := s.map lowerChar

/-- ASCII decimal digit. -/
def isDigitCh (c : Char) : Bool := 48 ≤ c.toNat && c.toNat ≤ 57

/-- ASCII digit `1`-`9`. -/
def isNZDigit (c : Char) : Bool := 49 ≤ c.toNat && c.toNat ≤ 57

/-- The character for a decimal digit value. -/
def digitChar (d : Nat) : Char := Char.ofNat (48 + d)

/-- Decimal value of a digit string (what `int(...)` computes on the digit
strings the source applies it to). -/
def strToNat (s : Str) : Nat := s.foldl (fun a c => a * 10 + (c.toNat - 48)) 0

/-- Digit emission for `str(n)`, structurally recursive on a fuel bound so
that it evaluates inside the kernel; `fuel > n` always suffices since the
argument shrinks by a factor of ten each step. -/
def natToStrAux : Nat → Nat → Str → Str
  | 0, _, acc => acc
  | fuel + 1, n, acc =>
    if n < 10 then digitChar n :: acc
    else natToStrAux fuel (n / 10) (digitChar (n % 10) :: acc)

/-- Python `str(n)` for a natural number. -/
def natToStr (n : Nat) : Str := natToStrAux (n + 1) n []

/-- Python `int(...)` on the strings matched by the source's `INTEGER`
regular expression (an optional leading `-` and decimal digits). -/
def strToInt (s : Str) : Int :=
  match s with
  | '-' :: t => -(strToNat t : Int)
  | _ => (strToNat s : Int)

/-- Python `str(n)` for an `int`. -/
def intToStr (n : Int) : Str :=
  if n < 0 then '-' :: natToStr n.natAbs else natToStr n.toNat

/-- No two consecutive space characters. -/
def noDbl : Str → Bool
  | [] => true
  | [_] => true
  | a :: b :: t => !(a == ' ' && b == ' ') && noDbl (b :: t)

mutual

/-- `re.split(r"\t| {2,}", line)`: split on each tab and on each maximal
run of two or more spaces (the greedy `{2,}` quantifier). -/
def rsfAux : Str → List Str
  | [] => [[]]
  | '\t' :: rest => [] :: rsfAux rest
  | ' ' :: ' ' :: rest => [] :: rsfSkip rest
  | c :: rest =>
    match rsfAux rest with
    | [] => [[c]]
    | h :: t => (c :: h) :: t

/-- Continuation of `rsfAux` inside a space run already recognised as a
separator: the remaining spaces of the run are consumed. -/
def rsfSkip : Str → List Str
  | [] => [[]]
  | ' ' :: rest => rsfSkip rest
  | '\t' :: rest => [] :: rsfAux rest
  | c :: rest =>
    match rsfAux rest with
    | [] => [[c]]
    | h :: t => (c :: h) :: t

end

/-- `re.split(r"\t| {2,}", line)`. -/
def resplitFields (s : Str) : List Str := rsfAux s

/-- `OrderedDict` assignment `m[k] = v`: update in place if the key is
present (keeping its position), otherwise append. -/
def odInsert (k : Str) (v : α) : List (Str × α) → List (Str × α)
  | [] => [(k, v)]
  | (k2, v2) :: rest =>
    if k2 = k then (k2, v) :: rest else (k2, v2) :: odInsert k v rest

/-- `OrderedDict(pairs)`: insert the pairs left to right. -/
def odOfList (ps : List (Str × α)) : List (Str × α) :=
  ps.foldl (fun m kv => odInsert kv.1 kv.2 m) []

/-- Mapping lookup `m[k]` / `k in m`. -/
def lookupKV (k : Str) : List (Str × α) → Option α
  | [] => none
  | (k2, v) :: rest => if k2 = k then some v else lookupKV k rest

/-- The exceptions the source can raise: its own `ParseException` (with its
message), and the `TypeError` / `KeyError` / `IndexError` the interpreter
raises on the slips the implicit claims are about. -/
inductive PyErr where
  | parseException (msg : String)
  | typeError
  | keyError
  | indexError
deriving DecidableEq, Repr

/-- The dynamically-typed Python values a token field can hold: `None`, a
raw string, an `int`, an id triple `(int, sep, int)` (the only tuples the
code builds), a `feats`/`misc` `OrderedDict` (whose values are strings or
`None`), and a `deps` list of `(relation, id)` pairs. -/
inductive PyVal where
  | pnone
  | pstr (s : Str)
  | pint (n : Int)
  | ptup (a : Int) (sep : Str) (b : Int)
  | pdict (entries : List (Str × Option Str))
  | plist (pairs : List (Str × PyVal))

mutual

/-- Decidable equality for `PyVal` (the `deriving` handler does not support
the nested occurrence in `plist`). -/
def pvDecEq : (a b : PyVal) → Decidable (a = b)
  | .pnone, .pnone => isTrue rfl
  | .pstr a, .pstr b =>
    match decEq a b with
    | isTrue h => isTrue (by rw [h])
    | isFalse h => isFalse (fun hh => h (PyVal.pstr.inj hh))
  | .pint a, .pint b =>
    match decEq a b with
    | isTrue h => isTrue (by rw [h])
    | isFalse h => isFalse (fun hh => h (PyVal.pint.inj hh))
  | .ptup a s b, .ptup a2 s2 b2 =>
    match decEq a a2, decEq s s2, decEq b b2 with
    | isTrue h1, isTrue h2, isTrue h3 => isTrue (by rw [h1, h2, h3])
    | isFalse h1, _, _ => isFalse (fun hh => h1 (PyVal.ptup.inj hh).1)
    | _, isFalse h2, _ => isFalse (fun hh => h2 (PyVal.ptup.inj hh).2.1)
    | _, _, isFalse h3 => isFalse (fun hh => h3 (PyVal.ptup.inj hh).2.2)
  | .pdict a, .pdict b =>
    match decEq a b with
    | isTrue h => isTrue (by rw [h])
    | isFalse h => isFalse (fun hh => h (PyVal.pdict.inj hh))
  | .plist a, .plist b =>
    match pvPairsDecEq a b with
    | isTrue h => isTrue (by rw [h])
    | isFalse h => isFalse (fun hh => h (PyVal.plist.inj hh))
  | .pnone, .pstr _ => isFalse nofun
  | .pnone, .pint _ => isFalse nofun
  | .pnone, .ptup _ _ _ => isFalse nofun
  | .pnone, .pdict _ => isFalse nofun
  | .pnone, .plist _ => isFalse nofun
  | .pstr _, .pnone => isFalse nofun
  | .pstr _, .pint _ => isFalse nofun
  | .pstr _, .ptup _ _ _ => isFalse nofun
  | .pstr _, .pdict _ => isFalse nofun
  | .pstr _, .plist _ => isFalse nofun
  | .pint _, .pnone => isFalse nofun
  | .pint _, .pstr _ => isFalse nofun
  | .pint _, .ptup _ _ _ => isFalse nofun
  | .pint _, .pdict _ => isFalse nofun
  | .pint _, .plist _ => isFalse nofun
  | .ptup _ _ _, .pnone => isFalse nofun
  | .ptup _ _ _, .pstr _ => isFalse nofun
  | .ptup _ _ _, .pint _ => isFalse nofun
  | .ptup _ _ _, .pdict _ => isFalse nofun
  | .ptup _ _ _, .plist _ => isFalse nofun
  | .pdict _, .pnone => isFalse nofun
  | .pdict _, .pstr _ => isFalse nofun
  | .pdict _, .pint _ => isFalse nofun
  | .pdict _, .ptup _ _ _ => isFalse nofun
  | .pdict _, .plist _ => isFalse nofun
  | .plist _, .pnone => isFalse nofun
  | .plist _, .pstr _ => isFalse nofun
  | .plist _, .pint _ => isFalse nofun
  | .plist _, .ptup _ _ _ => isFalse nofun
  | .plist _, .pdict _ => isFalse nofun

/-- Decidable equality for `deps` pair lists. -/
def pvPairsDecEq : (a b : List (Str × PyVal)) → Decidable (a = b)
  | [], [] => isTrue rfl
  | [], _ :: _ => isFalse nofun
  | _ :: _, [] => isFalse nofun
  | (k, v) :: t, (k2, v2) :: t2 =>
    match decEq k k2, pvDecEq v v2, pvPairsDecEq t t2 with
    | isTrue h1, isTrue h2, isTrue h3 => isTrue (by rw [h1, h2, h3])
    | isFalse h1, _, _ => isFalse (fun hh => by cases hh; exact h1 rfl)
    | _, isFalse h2, _ => isFalse (fun hh => by cases hh; exact h2 rfl)
    | _, _, isFalse h3 => isFalse (fun hh => by cases hh; exact h3 rfl)

end

instance : DecidableEq PyVal := pvDecEq

deriving instance DecidableEq for Except

/-- A token record: an ordered field-name/value mapping. -/
abbrev Token := List (Str × PyVal)

/-- Sentence metadata: an ordered key/value mapping (values may be `None`). -/
abbrev Metadata := List (Str × Option Str)

instance instDecEqToken : DecidableEq Token := instDecidableEqList

instance instDecEqTokList : DecidableEq (List Token) := instDecidableEqList

instance instDecEqMetadata : DecidableEq Metadata := instDecidableEqList

instance instDecEqParseRes : DecidableEq (List Token × Metadata) := instDecidableEqProd

instance instDecEqHeadIdx : DecidableEq (List (Int × List Token)) := instDecidableEqList

/-- `DEFAULT_FIELDS`. -/
def DEFAULT_FIELDS : List Str :=
  [str "id", str "form", str "lemma", str "upostag", str "xpostag",
   str "feats", str "head", str "deprel", str "deps", str "misc"]

/-- Language of `[1-9][0-9]*` (also the `ID_SINGLE` regex). -/
def matchPos (s : Str) : Bool :=
  match s with
  | [] => false
  | c :: t => isNZDigit c && t.all isDigitCh

/-- Language of the `INTEGER` regex `0|(\-?[1-9][0-9]*)`. -/
def matchInteger (s : Str) : Bool :=
  (s == ['0']) || matchPos s ||
    (match s with
     | '-' :: t => matchPos t
     | _ => false)

/-- Language of the `ID_RANGE` regex `[1-9][0-9]*\-[1-9][0-9]*`: since `-`
cannot occur inside either side, membership is equivalent to splitting on
`-` giving exactly two `ID_SINGLE` pieces. -/
def matchRange (s : Str) : Bool :=
  match splitChar '-' s with
  | [a, b] => matchPos a && matchPos b
  | _ => false

/-- Language of the `ID_DOT_ID` regex `[0-9][0-9]*\.[1-9][0-9]*`. -/
def matchDot (s : Str) : Bool :=
  match splitChar '.' s with
  | [a, b] => (!a.isEmpty) && a.all isDigitCh && matchPos b
  | _ => false

/-- Language of `ANY_ID`. -/
def matchAnyId (s : Str) : Bool := matchPos s || matchRange s || matchDot s

/-- Language of one relation label `[a-zA-Z][a-zA-Z0-9_-]*`. -/
def matchRelLabel (s : Str) : Bool :=
  match s with
  | [] => false
  | c :: t =>
    (c.isAlpha : Bool) && t.all (fun x => x.isAlphanum || x == '_' || x == '-')

/-- The relation part of the `DEPS_RE` regex: a label, optionally followed
by `:` and a second label (labels cannot contain `:`). -/
def matchRelFull (s : Str) : Bool :=
  match splitChar ':' s with
  | [r] => matchRelLabel r
  | [r, sub] => matchRelLabel r && matchRelLabel sub
  | _ => false

/-- One `id:relation[:subrelation]` group of `DEPS_RE`: the id piece cannot
contain `:`, so it is exactly the prefix before the first `:`. -/
def matchDepsGroup (g : Str) : Bool :=
  match splitFirst ':' g with
  | (idp, some rel) => matchAnyId idp && matchRelFull rel
  | (_, none) => false

/-- Language of `MULTI_DEPS_PATTERN` (groups joined by `|`; a group cannot
contain `|`). -/
def matchMulti (s : Str) : Bool := (splitChar '|' s).all matchDepsGroup

/-- `parse_nullable_value`. -/
def parse_nullable_value (s : Str) : Option Str :=
  if s = [] ∨ s = ['_'] then none else some s

/-- `parse_nullable_value`'s result as a `PyVal`. -/
def nullableVal (s : Str) : PyVal :=
  match parse_nullable_value s with
  | none => .pnone
  | some t => .pstr t

/-- `parse_int_value`. -/
def parse_int_value (s : Str) : Except PyErr PyVal :=
  if s = ['_'] then .ok .pnone
  else if matchInteger s then .ok (.pint (strToInt s))
  else .error (.parseException
    ("\x27" ++ String.mk s ++ "\x27 is not a valid value for parse_int_value."))

/-- `parse_id_value`.  On an `ID_RANGE` match with `to <= from_` the inner
`if` falls through the `elif` chain to the final `raise`. -/
def parse_id_value (s : Str) : Except PyErr PyVal :=
  if s = [] ∨ s = ['_'] then .ok .pnone
  else if matchPos s then .ok (.pint (strToInt s))
  else if matchRange s then
    match splitChar '-' s with
    | [a, b] =>
      if strToInt b > strToInt a then .ok (.ptup (strToInt a) (str "-") (strToInt b))
      else .error (.parseException ("\x27" ++ String.mk s ++ "\x27 is not a valid ID."))
    | _ => .error (.parseException ("\x27" ++ String.mk s ++ "\x27 is not a valid ID."))
  else if matchDot s then
    match splitChar '.' s with
    | [a, b] => .ok (.ptup (strToInt a) (str ".") (strToInt b))
    | _ => .error (.parseException ("\x27" ++ String.mk s ++ "\x27 is not a valid ID."))
  else .error (.parseException ("\x27" ++ String.mk s ++ "\x27 is not a valid ID."))

/-- The comprehension body of `parse_paired_list_value`: for each group,
`(part.split(":", 1)[1], parse_id_value(part.split(":")[0]))`. -/
def pairedGroups : List Str → Except PyErr (List (Str × PyVal))
  | [] => .ok []
  | g :: rest =>
    match splitFirst ':' g with
    | (_, none) => .error .indexError
    | (idp, some rel) =>
      match parse_id_value idp with
      | .error e => .error e
      | .ok v =>
        match pairedGroups rest with
        | .error e => .error e
        | .ok r => .ok ((rel, v) :: r)

/-- `parse_paired_list_value`. -/
def parse_paired_list_value (s : Str) : Except PyErr PyVal :=
  if matchMulti s then
    match pairedGroups (splitChar '|' s) with
    | .error e => .error e
    | .ok ps => .ok (.plist ps)
  else .ok (nullableVal s)

/-- One pair of the `parse_dict_value` comprehension, `none` when the part
is dropped because its key parses as absent: the key is `part.split("=")[0]`
and the value `parse_nullable_value(part.split("=")[1])` when the part
contains `=`, else the string `""`. -/
def dictPairOf (part : Str) : Option (Str × Option Str) :=
  let segs := splitChar '=' part
  let key := segs.headD []
  if parse_nullable_value key = none then none
  else
    some (key,
      if '=' ∈ part then parse_nullable_value (segs.getD 1 [])
      else some [])

/-- `parse_dict_value`. -/
def parse_dict_value (s : Str) : Except PyErr PyVal :=
  if parse_nullable_value s = none then .ok .pnone
  else .ok (.pdict (odOfList ((splitChar '|' s).filterMap dictPairOf)))

/-- `parse_pair_value`. -/
def parse_pair_value (s : Str) : Str × Option Str :=
  let r := splitFirst '=' s
  (strip r.1, r.2.map strip)

/-- `parse_comment_line`, with the metadata-parser table at its default
(`newdoc`/`newpar` identity handlers, no fallback).  A 2-tuple returned by
a handler is truthy in Python even when its value slot is `None`, so
handler keys always contribute their pair; otherwise a line whose key or
value is empty/`None` contributes nothing. -/
def parse_comment_line (line : Str) : Except PyErr (List (Str × Option Str)) :=
  let l := strip line
  match l with
  | [] => .error .indexError
  | c :: rest =>
    if c ≠ '#' then
      .error (.parseException "Invalid comment format, comment must start with \x27#\x27")
    else
      let kv := parse_pair_value rest
      if kv.1 = str "newdoc" ∨ kv.1 = str "newpar" then .ok [kv]
      else if kv.1 = [] ∨ kv.2 = none ∨ kv.2 = some [] then .ok []
      else .ok [kv]

/-- `DEFAULT_FIELD_PARSERS` dispatch plus the `parse_line` wrapping that
renames a `ParseException` to `Failed parsing field '...'`. -/
def fieldValueParse (field : Str) (raw : Str) : Except PyErr PyVal :=
  let res : Except PyErr PyVal :=
    if field = str "id" then parse_id_value raw
    else if field = str "xpostag" then .ok (nullableVal raw)
    else if field = str "feats" then parse_dict_value raw
    else if field = str "head" then parse_int_value raw
    else if field = str "deps" then parse_paired_list_value raw
    else if field = str "misc" then parse_dict_value raw
    else .ok (.pstr raw)
  match res with
  | .error (.parseException m) =>
    .error (.parseException ("Failed parsing field \x27" ++ String.mk field ++ "\x27: " ++ m))
  | other => other

/-- The field loop of `parse_line`: `for i, field in enumerate(fields)`
with `break` once `i` reaches the number of columns — i.e. a traversal of
`fields.zip parts` — accumulating `data[field] = value`. -/
def plLoop : List (Str × Str) → Token → Except PyErr Token
  | [], data => .ok data
  | (field, raw) :: rest, data =>
    match fieldValueParse field raw with
    | .error e => .error e
    | .ok v => plLoop rest (odInsert field v data)

/-- `parse_line`. -/
def parse_line (line : Str) (fields : List Str) : Except PyErr Token :=
  let parts := resplitFields line
  if parts.length = 1 then
    .error (.parseException "Invalid line format, line must contain either tabs or two spaces.")
  else plLoop (fields.zip parts) []

/-- The line loop of `parse_token_and_metadata`. -/
def ptmLoop (fields : List Str) :
    List Str → List Token → Metadata → Except PyErr (List Token × Metadata)
  | [], toks, md => .ok (toks, md)
  | line :: rest, toks, md =>
    let l := strip line
    if l = [] then ptmLoop fields rest toks md
    else if l.headD ' ' = '#' then
      match parse_comment_line l with
      | .error e => .error e
      | .ok prs =>
        ptmLoop fields rest toks (prs.foldl (fun m kv => odInsert kv.1 kv.2 m) md)
    else
      match parse_line l fields with
      | .error e => .error e
      | .ok t => ptmLoop fields rest (toks ++ [t]) md

/-- `parse_token_and_metadata` (field/metadata parser tables at their
defaults). -/
def parse_token_and_metadata (data : Str) (fields : List Str) :
    Except PyErr (List Token × Metadata) :=
  if data = [] then
    .error (.parseException "Can\x27t create TokenList, no data sent to constructor.")
  else ptmLoop fields (splitChar '\n' data) [] []

/-- Parsing one sentence block with the default schema (the spec's
`parse_block`). -/
def parse_block (data : Str) : Except PyErr (List Token × Metadata) :=
  parse_token_and_metadata data DEFAULT_FIELDS

/-- The loop of `parse_sentences`.  A stream line is modelled without its
trailing newline, so the blank-line test `line == "\n"` is `l = []`, and
`"".join(buf).rstrip()` on the buffered lines (which carry their newlines
in Python) is `rstrip` of the lines joined by `"\n"`: the join differs from
the Python concatenation only in the trailing newline, which `rstrip`
removes either way. -/
def psLoop : List Str → List Str → List Str
  | [], buf => if buf = [] then [] else [rstrip (joinSep ['\n'] buf)]
  | l :: rest, buf =>
    if l = [] then
      if buf = [] then psLoop rest []
      else rstrip (joinSep ['\n'] buf) :: psLoop rest []
    else psLoop rest (buf ++ [l])

/-- `parse_sentences` (the spec's `iter_blocks`), as the list of blocks it
yields from the given stream lines. -/
def parse_sentences (lines : List Str) : List Str := psLoop lines []

/-- A seekable text stream: its lines (each without the trailing newline)
and the read cursor, as a line index.  `tell` is `pos`; `seek` restores it;
iteration reads from `pos` on. -/
structure PyStream where
  lines : List Str
  pos : Nat
deriving DecidableEq, Repr

/-- `parse_conllu_plus_fields` (the spec's `detect_schema`), metadata
parsers at their default.  `next(parse_sentences(in_file))` advances the
file cursor, and the function seeks back to the saved position before
returning, so the resulting stream is returned alongside the value. -/
def parse_conllu_plus_fields (f : PyStream) :
    Except PyErr (Option (List Str)) × PyStream :=
  let pos := f.pos
  let blocks := parse_sentences (f.lines.drop f.pos)
  let restored : PyStream := { lines := f.lines, pos := pos }
  let first_line : Str :=
    match blocks with
    | [] => []
    | b :: _ => (splitChar '\n' b).headD []
  if first_line.headD ' ' ≠ '#' then (.ok none, restored)
  else
    match parse_token_and_metadata first_line DEFAULT_FIELDS with
    | .error e => (.error e, restored)
    | .ok (_, metadata) =>
      match lookupKV (str "global.columns") metadata with
      | some (some v) =>
        if v ≠ [] then (.ok (some ((splitChar ' ' v).map lowerStr)), restored)
        else (.ok none, restored)
      | _ => (.ok none, restored)

/-- `defaultdict(list)` append `m[k].append(t)`. -/
def dappend (k : Int) (t : Token) : List (Int × List Token) → List (Int × List Token)
  | [] => [(k, [t])]
  | (k2, l) :: rest =>
    if k2 = k then (k2, l ++ [t]) :: rest else (k2, l) :: dappend k t rest

/-- `defaultdict(list)` read `m[k]` (default empty; the entry the read
would create in the Python dict is observationally irrelevant here). -/
def dlookup (k : Int) : List (Int × List Token) → List Token
  | [] => []
  | (k2, l) :: rest => if k2 = k then l else dlookup k rest

/-- The token loop of `head_to_token`: skip tokens whose `id` is present
but not an `int` (`isinstance(token["id"], int)`), read `token["head"]`
(a `KeyError` if absent), compare it with `0` (a `TypeError` unless it is
an `int`), skip negative heads, and index the rest. -/
def httLoop : List Token → List (Int × List Token) → Except PyErr (List (Int × List Token))
  | [], idx => .ok idx
  | t :: rest, idx =>
    if (match lookupKV (str "id") t with
        | some (.pint _) => false
        | some _ => true
        | none => false) then
      httLoop rest idx
    else
      match lookupKV (str "head") t with
      | none => .error .keyError
      | some (.pint n) =>
        if n < 0 then httLoop rest idx else httLoop rest (dappend n t idx)
      | some _ => .error .typeError

/-- `head_to_token` (the spec's `build_dependency_index`). -/
def head_to_token (sentence : List Token) : Except PyErr (List (Int × List Token)) :=
  match sentence with
  | [] => .error (.parseException "Can\x27t parse tree, need a tokenlist as input.")
  | t0 :: _ =>
    if lookupKV (str "head") t0 = none then
      .error (.parseException "Can\x27t parse tree, missing \x27head\x27 field.")
    else
      match httLoop sentence [] with
      | .error e => .error e
      | .ok idx =>
        if (dlookup 0 idx).length = 0 then
          .error (.parseException "Found no head node, can\x27t build tree")
        else if (dlookup 0 idx).length > 1 then
          .error (.parseException "Can\x27t parse tree, found multiple root nodes.")
        else .ok idx

mutual

/-- `serialize_field`.  The `OrderedDict` branch joins `key=value` pieces
(an absent value rendering as `_`); the tuple branch concatenates the
serializations of the parts, which for the id triples the code builds is
`str(a) ++ sep ++ str(b)`; the list branch serializes each `(key, value)`
pair as `value:key` — `field[0]` raising an `IndexError` on an empty list
(the `len(field[0]) != 2` test cannot fail on the 2-tuples the parser
builds). -/
def serialize_field : PyVal → Except PyErr Str
  | .pnone => .ok ['_']
  | .pstr s => .ok s
  | .pint n => .ok (intToStr n)
  | .ptup a sep b => .ok (intToStr a ++ sep ++ intToStr b)
  | .pdict entries =>
    .ok (joinSep ['|'] (entries.map (fun kv => kv.1 ++ ['='] ++ kv.2.getD ['_'])))
  | .plist [] => .error .indexError
  | .plist (p :: ps) =>
    match serializePairs (p :: ps) with
    | .error e => .error e
    | .ok pieces => .ok (joinSep ['|'] pieces)

/-- The pieces `serialize_field(value) + ":" + key` of the list branch. -/
def serializePairs : List (Str × PyVal) → Except PyErr (List Str)
  | [] => .ok []
  | (k, v) :: rest =>
    match serialize_field v with
    | .error e => .error e
    | .ok s =>
      match serializePairs rest with
      | .error e => .error e
      | .ok r => .ok ((s ++ [':'] ++ k) :: r)

end

/-- Spec side (claim C4's words): `parse_id_value` accepts exactly the
plain-positive-integer grammar, the range grammar with end greater than
start, and the decimal grammar; placeholder or empty map to absent;
anything else is a format error naming the offending substring. -/
def idValueSpec (s : Str) : Except PyErr PyVal :=
  if s = [] ∨ s = ['_'] then .ok .pnone
  else if matchPos s then .ok (.pint (strToInt s))
  else if matchRange s ∧ strToInt ((splitChar '-' s).getD 1 []) > strToInt ((splitChar '-' s).headD []) then
    .ok (.ptup (strToInt ((splitChar '-' s).headD [])) (str "-")
               (strToInt ((splitChar '-' s).getD 1 [])))
  else if matchDot s then
    .ok (.ptup (strToInt ((splitChar '.' s).headD [])) (str ".")
               (strToInt ((splitChar '.' s).getD 1 [])))
  else .error (.parseException ("\x27" ++ String.mk s ++ "\x27 is not a valid ID."))

/-- Spec side (claim C2 as amended): placeholder/empty maps to absent;
otherwise split on `|`; each part's key is the segment before the first
`=`; its value is the segment between the first and the second `=` (not
the whole rest), itself parsed as a nullable value, and defaults to the
empty string when the part has no `=`; parts whose key parses as absent
are dropped; entries are inserted in encounter order with last-wins
overwriting. -/
def dictValueSpec (s : Str) : Except PyErr PyVal :=
  if s = [] ∨ s = ['_'] then .ok .pnone
  else
    .ok (.pdict (odOfList ((splitChar '|' s).filterMap (fun part =>
      let kv := splitFirst '=' part
      if parse_nullable_value kv.1 = none then none
      else
        some (kv.1,
          match kv.2 with
          | none => some []
          | some rest => parse_nullable_value (splitFirst '=' rest).1)))))

/-- Spec side (claim C6 as amended): when the value matches the deps
grammar, the result is the `(relation, id)` pair list — except that a
range identifier with end not greater than start makes the embedded
`parse_id_value` raise, and the first such group's format error is the
result; when the value does not match the grammar, the nullable fallback
is returned and no error is possible. -/
def pairedSpec (s : Str) : Except PyErr PyVal :=
  if matchMulti s then
    match (splitChar '|' s).find? (fun g =>
        !(parse_id_value (splitFirst ':' g).1).isOk) with
    | some g =>
      .error (.parseException ("\x27" ++ String.mk (splitFirst ':' g).1 ++ "\x27 is not a valid ID."))
    | none =>
      .ok (.plist ((splitChar '|' s).map (fun g =>
        ((splitFirst ':' g).2.getD [],
         ((parse_id_value (splitFirst ':' g).1).toOption).getD .pnone))))
  else .ok (nullableVal s)

/-- Spec side (claim C8 as amended): the blocks are the maximal runs of
non-blank lines (a blank line being an empty one), each reassembled with
newlines and stripped of trailing whitespace; runs of zero lines between
consecutive blank lines yield nothing. -/
def sentencesSpec (lines : List Str) : List Str :=
  ((splitOnP (fun l : Str => l.isEmpty) lines).filter (fun g => !g.isEmpty)).map
    (fun g => rstrip (joinSep ['\n'] g))

/-- C1's first amendment condition: every metadata value is a string
rather than `None`. -/
def metaValuesPresent (md : Metadata) : Bool := md.all (fun kv => kv.2.isSome)

/-- C1's second amendment condition on one field value: a dict-valued
field must be a nonempty mapping none of whose values is the empty string
or ends in whitespace. -/
def dictFieldOk (v : PyVal) : Bool :=
  match v with
  | .pdict es =>
    !es.isEmpty && es.all (fun e =>
      match e.2 with
      | none => true
      | some s => !s.isEmpty && !isPyWS (s.getLastD ' '))
  | _ => true

/-- C1's second amendment condition over the token records. -/
def dictsOk (toks : List Token) : Bool :=
  toks.all (fun t => t.all (fun fv => dictFieldOk fv.2))

/-- The id filter of `head_to_token`: the token has an `id` field and its
value is not a plain `int`. -/
def skipById (t : Token) : Bool :=
  match lookupKV (str "id") t with
  | some (.pint _) => false
  | some _ => true
  | none => false

/-- A token whose `head` value is a negative `int`. -/
def negHeadTok (t : Token) : Bool :=
  match lookupKV (str "head") t with
  | some (.pint n) => n < 0
  | _ => false

/-- A token the `head_to_token` loop can process without an interpreter
error: either the id filter skips it, or it has an `int`-valued `head`. -/
def headOkTok (t : Token) : Bool :=
  skipById t ||
    (match lookupKV (str "head") t with
     | some (.pint _) => true
     | _ => false)

/-- A token that survives `head_to_token`'s filters with `head == 0`: the
retained root tokens. -/
def isRootTok (t : Token) : Bool :=
  !skipById t &&
    (match lookupKV (str "head") t with
     | some (.pint n) => n == 0
     | _ => false)

/-- C5's amendment conditions: a range identifier string with end greater
than start. -/
def rangeOrdered (s : Str) : Bool :=
  match splitChar '-' s with
  | [a, b] => strToNat a < strToNat b
  | _ => false

/-- C5's amendment conditions: a decimal identifier string whose integer
part carries no superfluous leading zero. -/
def dotCanonical (s : Str) : Bool :=
  match splitChar '.' s with
  | [a, _] => a == str "0" || a.headD '0' != '0'
  | _ => false

/-- Strings free of the characters whose reappearance would change a
reparse: no tab, no newline, no two consecutive spaces. -/
def CleanStr (s : Str) : Prop := '\t' ∉ s ∧ '\n' ∉ s ∧ noDbl s = true

/-- The id values `parse_id_value` can produce. -/
def WFidVal (v : PyVal) : Prop :=
  v = .pnone ∨ (∃ n, v = .pint n ∧ 1 ≤ n) ∨
    (∃ a b, v = .ptup a (str "-") b ∧ 1 ≤ a ∧ a < b) ∨
    (∃ a b, v = .ptup a (str ".") b ∧ 0 ≤ a ∧ 1 ≤ b)

/-- Well-formedness of one `feats`/`misc` entry as produced by
`parse_dict_value` on a clean field string. -/
def WFdictEntry (e : Str × Option Str) : Prop :=
  CleanStr e.1 ∧ e.1 ≠ [] ∧ e.1 ≠ str "_" ∧ '=' ∉ e.1 ∧ '|' ∉ e.1 ∧
    ∀ s, e.2 = some s → CleanStr s ∧ s ≠ str "_" ∧ '=' ∉ s ∧ '|' ∉ s

/-- Well-formedness of a parsed field value, by field name, as established
by the default field parsers on the pieces of a stripped line. -/
def WFfieldVal (f : Str) (v : PyVal) : Prop :=
  if f = str "id" then WFidVal v
  else if f = str "head" then v = .pnone ∨ ∃ n, v = .pint n
  else if f = str "xpostag" then
    v = .pnone ∨ ∃ s, v = .pstr s ∧ CleanStr s ∧ s ≠ [] ∧ s ≠ str "_"
  else if f = str "feats" ∨ f = str "misc" then
    v = .pnone ∨ ∃ es, v = .pdict es ∧ (es.map Prod.fst).Nodup ∧ ∀ e ∈ es, WFdictEntry e
  else if f = str "deps" then
    v = .pnone ∨ (∃ s, v = .pstr s ∧ CleanStr s ∧ s ≠ [] ∧ s ≠ str "_" ∧ matchMulti s = false) ∨
      (∃ ps, v = .plist ps ∧ ps ≠ [] ∧
        ∀ p ∈ ps, matchRelFull p.1 = true ∧ WFidVal p.2 ∧ p.2 ≠ .pnone)
  else ∃ s, v = .pstr s ∧ CleanStr s

/-- The last field of a record, when it holds a raw string, is nonempty
with no trailing whitespace (it came from the end of a stripped line). -/
def lastFieldOk (t : Token) : Prop :=
  ∀ f v, t.getLast? = some (f, v) →
    ∀ s, v = .pstr s → s ≠ [] ∧ ∀ c, s.getLast? = some c → isPyWS c = false

/-- Well-formedness of one parsed token record. -/
def WFtoken (t : Token) : Prop :=
  t.map Prod.fst = DEFAULT_FIELDS.take t.length ∧ 2 ≤ t.length ∧
    (∀ p ∈ t, WFfieldVal p.1 p.2) ∧ lastFieldOk t

/-- Well-formedness of one parsed metadata entry. -/
def WFmetaEntry (e : Str × Option Str) : Prop :=
  e.1 ≠ [] ∧ strip e.1 = e.1 ∧ '\n' ∉ e.1 ∧ '=' ∉ e.1 ∧
    ∀ s, e.2 = some s → strip s = s ∧ '\n' ∉ s ∧
      (s = [] → e.1 = str "newdoc" ∨ e.1 = str "newpar")

/-- Well-formedness of a parsed metadata mapping. -/
def WFmeta (md : Metadata) : Prop :=
  (md.map Prod.fst).Nodup ∧ ∀ e ∈ md, WFmetaEntry e

/-- The metadata lines of `serialize`: `"# " + key + " = " + value`, a
`TypeError` (string concatenation with `None`) when the value is absent. -/
def serializeMetaLines : Metadata → Except PyErr (List Str)
  | [] => .ok []
  | (k, v) :: rest =>
    match v with
    | none => .error .typeError
    | some s =>
      match serializeMetaLines rest with
      | .error e => .error e
      | .ok r => .ok ((str "# " ++ k ++ str " = " ++ s) :: r)

/-- `serialize_field` over a record's values, stopping at the first
exception. -/
def exSeqFields : Token → Except PyErr (List Str)
  | [] => .ok []
  | (_, v) :: rest =>
    match serialize_field v with
    | .error e => .error e
    | .ok s =>
      match exSeqFields rest with
      | .error e => .error e
      | .ok r => .ok (s :: r)

/-- The token lines of `serialize`: each record's values serialized in
order and joined by tabs. -/
def serializeTokenLines : List Token → Except PyErr (List Str)
  | [] => .ok []
  | t :: rest =>
    match exSeqFields t with
    | .error e => .error e
    | .ok fs =>
      match serializeTokenLines rest with
      | .error e => .error e
      | .ok r => .ok (joinSep ['\t'] fs :: r)

/-- `serialize` on a token list with the given metadata (the
`TokenList.metadata` attribute of the source): metadata lines first, then
token lines, joined by newlines with a blank line appended. -/
def serialize (tokens : List Token) (metadata : Metadata) : Except PyErr Str :=
  match serializeMetaLines metadata with
  | .error e => .error e
  | .ok mlines =>
    match serializeTokenLines tokens with
    | .error e => .error e
    | .ok tlines => .ok (joinSep ['\n'] (mlines ++ tlines) ++ ['\n', '\n'])

/-! ## Basic facts about the string utilities -/

theorem splitOnP_ne_nil (p : α → Bool) (l : List α) : splitOnP p l ≠ [] := by
  induction l with
  | nil => simp [splitOnP]
  | cons a rest ih =>
    simp only [splitOnP]
    split
    · simp
    · cases h : splitOnP p rest with
      | nil => exact absurd h ih
      | cons x t => simp

theorem splitOnP_sepFree (p : α → Bool) (l : List α) :
    ∀ x ∈ splitOnP p l, ∀ a ∈ x, p a = false := by
  induction l with
  | nil =>
    intro x hx a ha
    simp [splitOnP] at hx
    subst hx
    simp at ha
  | cons b rest ih =>
    intro x hx a ha
    simp only [splitOnP] at hx
    by_cases hb : p b = true
    · rw [if_pos hb] at hx
      rcases List.mem_cons.mp hx with rfl | hx
      · simp at ha
      · exact ih x hx a ha
    · rw [if_neg hb] at hx
      cases h : splitOnP p rest with
      | nil => exact absurd h (splitOnP_ne_nil p rest)
      | cons y t =>
        rw [h] at hx
        rcases List.mem_cons.mp hx with rfl | hx
        · rcases List.mem_cons.mp ha with rfl | ha2
          · simpa using hb
          · exact ih y (h ▸ List.mem_cons_self y t) a ha2
        · exact ih x (h ▸ List.mem_cons_of_mem y hx) a ha

theorem splitOnP_no_sep (p : α → Bool) (s : List α)
    (h : ∀ x ∈ s, p x = false) : splitOnP p s = [s] := by
  induction s with
  | nil => simp [splitOnP]
  | cons a rest ih =>
    have ha : p a = false := h a (List.mem_cons_self a rest)
    have hr := ih (fun x hx => h x (List.mem_cons_of_mem a hx))
    simp [splitOnP, ha, hr]

theorem splitOnP_append_sep (p : α → Bool) (a b : List α) (d : α)
    (ha : ∀ x ∈ a, p x = false) (hd : p d = true) :
    splitOnP p (a ++ d :: b) = a :: splitOnP p b := by
  induction a with
  | nil => simp [splitOnP, hd]
  | cons c t ih =>
    have hc : p c = false := ha c (List.mem_cons_self c t)
    have ht := ih (fun x hx => ha x (List.mem_cons_of_mem c hx))
    simp only [List.cons_append, splitOnP, hc, Bool.false_eq_true, if_false,
      List.append_eq, ht]

theorem joinSep_cons_head (sep : List α) (a : α) (h : List α) (t : List (List α)) :
    joinSep sep ((a :: h) :: t) = a :: joinSep sep (h :: t) := by
  cases t with
  | nil => rfl
  | cons y t' => simp [joinSep]

theorem joinSep_splitChar (c : Char) (s : Str) : joinSep [c] (splitChar c s) = s := by
  induction s with
  | nil => simp [splitChar, splitOnP, joinSep]
  | cons a rest ih =>
    by_cases hc : a = c
    · subst hc
      simp only [splitChar, splitOnP, beq_self_eq_true, if_pos]
      cases h : splitOnP (fun x => x == a) rest with
      | nil => exact absurd h (splitOnP_ne_nil _ rest)
      | cons y t =>
        simp only [joinSep]
        have : joinSep [a] (y :: t) = rest := by
          rw [← h]; exact ih
        simp [this]
    · simp only [splitChar, splitOnP, beq_iff_eq, if_neg hc]
      cases h : splitOnP (fun x => x == c) rest with
      | nil => exact absurd h (splitOnP_ne_nil _ rest)
      | cons y t =>
        rw [joinSep_cons_head]
        have : joinSep [c] (y :: t) = rest := by
          rw [← h]; exact (by simpa [splitChar] using ih)
        rw [this]

theorem splitOnP_joinSep (p : α → Bool) (d : α) (parts : List (List α))
    (hne : parts ≠ []) (hd : p d = true)
    (hp : ∀ pt ∈ parts, ∀ x ∈ pt, p x = false) :
    splitOnP p (joinSep [d] parts) = parts := by
  induction parts with
  | nil => exact absurd rfl hne
  | cons x t ih =>
    cases t with
    | nil =>
      simp only [joinSep]
      exact splitOnP_no_sep p x (hp x (List.mem_cons_self x []))
    | cons y t' =>
      have hx : ∀ e ∈ x, p e = false := hp x (List.mem_cons_self _ _)
      have hrest : joinSep [d] (x :: y :: t') = x ++ d :: joinSep [d] (y :: t') := by
        simp [joinSep]
      rw [hrest, splitOnP_append_sep p x _ d hx hd]
      congr 1
      exact ih (by simp) (fun pt hpt => hp pt (List.mem_cons_of_mem x hpt))

theorem splitOnP_head_prefix (p : α → Bool) (s : List α) :
    ∃ v, s = (splitOnP p s).headD [] ++ v := by
  induction s with
  | nil => exact ⟨[], by simp [splitOnP]⟩
  | cons a rest ih =>
    simp only [splitOnP]
    by_cases hb : p a = true
    · exact ⟨a :: rest, by simp [hb]⟩
    · rw [if_neg hb]
      cases h : splitOnP p rest with
      | nil => exact absurd h (splitOnP_ne_nil p rest)
      | cons y t =>
        obtain ⟨v, hv⟩ := ih
        rw [h] at hv
        exact ⟨v, by simpa using hv⟩

theorem splitOnP_infix (p : α → Bool) (s : List α) :
    ∀ x ∈ splitOnP p s, ∃ u v, s = u ++ x ++ v := by
  induction s with
  | nil =>
    intro x hx
    simp [splitOnP] at hx
    exact ⟨[], [], by simp [hx]⟩
  | cons a rest ih =>
    intro x hx
    simp only [splitOnP] at hx
    by_cases hb : p a = true
    · rw [if_pos hb] at hx
      rcases List.mem_cons.mp hx with rfl | hx
      · exact ⟨[], a :: rest, by simp⟩
      · obtain ⟨u, v, huv⟩ := ih x hx
        exact ⟨a :: u, v, by simp [huv]⟩
    · rw [if_neg hb] at hx
      cases h : splitOnP p rest with
      | nil => exact absurd h (splitOnP_ne_nil p rest)
      | cons y t =>
        rw [h] at hx
        rcases List.mem_cons.mp hx with rfl | hx
        · obtain ⟨v, hv⟩ := splitOnP_head_prefix p rest
          rw [h] at hv
          simp only [List.headD_cons] at hv
          exact ⟨[], v, by simp [hv]⟩
        · obtain ⟨u, v, huv⟩ := ih x (h ▸ List.mem_cons_of_mem y hx)
          exact ⟨a :: u, v, by simp [huv]⟩

theorem splitOnP_mem_subset (p : α → Bool) (s : List α) :
    ∀ x ∈ splitOnP p s, ∀ a ∈ x, a ∈ s := by
  intro x hx a ha
  obtain ⟨u, v, huv⟩ := splitOnP_infix p s x hx
  subst huv
  simp [ha]

theorem splitFirst_not_mem_fst (c : Char) (s : Str) : c ∉ (splitFirst c s).1 := by
  induction s with
  | nil => simp [splitFirst]
  | cons x t ih =>
    simp only [splitFirst]
    by_cases hx : x = c
    · simp [hx]
    · simp only [beq_iff_eq, hx, if_false, List.mem_cons]
      push_neg
      exact ⟨fun he => hx he.symm, ih⟩

theorem splitFirst_none (c : Char) (s : Str) (h : c ∉ s) : splitFirst c s = (s, none) := by
  induction s with
  | nil => rfl
  | cons x t ih =>
    have hx : ¬ x = c := fun he => h (he ▸ List.mem_cons_self x t)
    have ht := ih (fun hm => h (List.mem_cons_of_mem x hm))
    simp [splitFirst, hx, ht]

theorem splitFirst_with_sep (c : Char) (a b : Str) (ha : c ∉ a) :
    splitFirst c (a ++ c :: b) = (a, some b) := by
  induction a with
  | nil => simp [splitFirst]
  | cons x t ih =>
    have hx : ¬ x = c := fun he => ha (he ▸ List.mem_cons_self x t)
    have ht := ih (fun hm => ha (List.mem_cons_of_mem x hm))
    simp [splitFirst, hx, ht]

theorem splitFirst_recover (c : Char) (s : Str) :
    s = (splitFirst c s).1 ++
      (match (splitFirst c s).2 with
       | none => []
       | some r => c :: r) := by
  induction s with
  | nil => rfl
  | cons x t ih =>
    simp only [splitFirst]
    by_cases hx : x = c
    · simp [hx]
    · simpa [beq_iff_eq, hx] using ih

theorem splitChar_eq_splitFirst (c : Char) (s : Str) :
    splitChar c s = (splitFirst c s).1 ::
      (match (splitFirst c s).2 with
       | none => []
       | some r => splitChar c r) := by
  induction s with
  | nil => rfl
  | cons x t ih =>
    by_cases hx : x = c
    · subst hx
      simp only [splitChar, splitOnP, splitFirst, beq_self_eq_true, if_pos]
    · simp only [splitChar, splitOnP, splitFirst, beq_iff_eq, hx, if_false, if_neg hx]
      rw [show splitOnP (fun y => y == c) t = splitChar c t from rfl, ih]
      rfl

theorem length_dropWhile_le (q : α → Bool) (l : List α) :
    (l.dropWhile q).length ≤ l.length := by
  induction l with
  | nil => simp
  | cons a t ih =>
    rw [List.dropWhile_cons]
    split
    · exact Nat.le_trans ih (Nat.le_succ _)
    · simp

theorem lstrip_eq_self_iff_head (s : Str) :
    lstrip s = s ↔ (∀ c, s.head? = some c → isPyWS c = false) := by
  cases s with
  | nil => simp [lstrip]
  | cons a t =>
    simp only [lstrip, List.dropWhile_cons, List.head?_cons]
    constructor
    · intro h c hc
      injection hc with hc
      subst hc
      by_contra hws
      rw [if_pos (by simpa using hws)] at h
      have := length_dropWhile_le isPyWS t
      have := congrArg List.length h
      simp at this
      omega
    · intro h
      rw [if_neg (by simp [h a rfl])]

theorem rstrip_eq_self_iff_last (s : Str) :
    rstrip s = s ↔ (∀ c, s.getLast? = some c → isPyWS c = false) := by
  unfold rstrip
  constructor
  · intro h c hc
    rw [← List.head?_reverse] at hc
    have hrev : s.reverse.dropWhile isPyWS = s.reverse := by
      have := congrArg List.reverse h
      simpa using this
    exact (lstrip_eq_self_iff_head s.reverse).mp hrev c hc
  · intro h
    have : s.reverse.dropWhile isPyWS = s.reverse := by
      apply (lstrip_eq_self_iff_head s.reverse).mpr
      intro c hc
      exact h c (by rwa [List.head?_reverse] at hc)
    simp [this]

theorem strip_eq_self_of_ends (s : Str)
    (hh : ∀ c, s.head? = some c → isPyWS c = false)
    (hl : ∀ c, s.getLast? = some c → isPyWS c = false) : strip s = s := by
  unfold strip
  rw [show lstrip s = s from (lstrip_eq_self_iff_head s).mpr hh]
  exact (rstrip_eq_self_iff_last s).mpr hl

theorem lstrip_eq_self_of_strip (s : Str) (h : strip s = s) : lstrip s = s := by
  unfold strip rstrip at h
  have h1 : (lstrip s).length ≤ s.length := length_dropWhile_le isPyWS s
  have h2 := congrArg List.length h
  simp only [List.length_reverse] at h2
  have h3 := length_dropWhile_le isPyWS (lstrip s).reverse
  simp only [List.length_reverse] at h3
  have hlen : (lstrip s).length = s.length := by omega
  have hsplit := List.takeWhile_append_dropWhile (p := isPyWS) (l := s)
  have htw : (s.takeWhile isPyWS).length = 0 := by
    have := congrArg List.length hsplit
    simp only [List.length_append] at this
    unfold lstrip at hlen
    omega
  rw [List.length_eq_zero] at htw
  unfold lstrip
  conv_rhs => rw [← hsplit, htw, List.nil_append]

theorem rstrip_eq_self_of_strip (s : Str) (h : strip s = s) : rstrip s = s := by
  have hl := lstrip_eq_self_of_strip s h
  unfold strip at h
  rwa [hl] at h

theorem strip_head_not_ws (s : Str) (h : strip s = s) :
    ∀ c, s.head? = some c → isPyWS c = false :=
  (lstrip_eq_self_iff_head s).mp (lstrip_eq_self_of_strip s h)

theorem strip_last_not_ws (s : Str) (h : strip s = s) :
    ∀ c, s.getLast? = some c → isPyWS c = false :=
  (rstrip_eq_self_iff_last s).mp (rstrip_eq_self_of_strip s h)

theorem lstrip_ws_cons (a : Char) (s : Str) (h : isPyWS a = true) :
    lstrip (a :: s) = lstrip s := by
  simp [lstrip, List.dropWhile_cons, h]

theorem rstrip_snoc_ws (a : Char) (s : Str) (h : isPyWS a = true) :
    rstrip (s ++ [a]) = rstrip s := by
  simp [rstrip, List.dropWhile_cons, h]

theorem rstrip_eq_self_of_last (s : Str)
    (hl : ∀ c, s.getLast? = some c → isPyWS c = false) : rstrip s = s :=
  (rstrip_eq_self_iff_last s).mpr hl

theorem strip_space_cons (s : Str) (h : strip s = s) : strip (' ' :: s) = s := by
  unfold strip
  rw [lstrip_ws_cons ' ' s (by decide)]
  rw [lstrip_eq_self_of_strip s h]
  exact rstrip_eq_self_of_strip s h

theorem strip_space_sandwich (s : Str) (h : strip s = s) (hne : s ≠ []) :
    strip (' ' :: (s ++ [' '])) = s := by
  unfold strip
  rw [lstrip_ws_cons ' ' _ (by decide)]
  have hl : lstrip (s ++ [' ']) = s ++ [' '] := by
    apply (lstrip_eq_self_iff_head _).mpr
    intro c hc
    cases s with
    | nil => exact absurd rfl hne
    | cons a t =>
      simp only [List.cons_append, List.head?_cons] at hc
      injection hc with hc
      exact strip_head_not_ws _ h c (by simp [← hc])
  rw [hl, rstrip_snoc_ws ' ' s (by decide)]
  exact rstrip_eq_self_of_strip s h

theorem noDbl_append_split (x y : Str) (h : noDbl (x ++ y) = true) :
    noDbl x = true ∧ noDbl y = true := by
  induction x with
  | nil => exact ⟨rfl, h⟩
  | cons a x' ih =>
    cases x' with
    | nil =>
      cases y with
      | nil => exact ⟨rfl, rfl⟩
      | cons b y' =>
        simp only [List.cons_append, List.nil_append, noDbl, Bool.and_eq_true] at h
        exact ⟨rfl, h.2⟩
    | cons b x'' =>
      simp only [List.cons_append, noDbl, Bool.and_eq_true] at h
      have hrest : noDbl ((b :: x'') ++ y) = true := by
        simpa using h.2
      obtain ⟨h1, h2⟩ := ih hrest
      refine ⟨?_, h2⟩
      simp only [noDbl, Bool.and_eq_true]
      exact ⟨h.1, h1⟩

theorem noDbl_of_infix (s u x v : Str) (hs : s = u ++ x ++ v)
    (h : noDbl s = true) : noDbl x = true := by
  subst hs
  obtain ⟨-, h2⟩ := noDbl_append_split u (x ++ v) (by simpa [List.append_assoc] using h)
  exact (noDbl_append_split x v h2).1

theorem noDbl_join (x y : Str) (c : Char) (hc : ¬ c = ' ')
    (hx : noDbl x = true) (hy : noDbl y = true) : noDbl (x ++ c :: y) = true := by
  induction x with
  | nil =>
    cases y with
    | nil => rfl
    | cons b y' =>
      simp only [List.nil_append, noDbl, Bool.and_eq_true]
      exact ⟨by simp [hc], hy⟩
  | cons a x' ih =>
    cases x' with
    | nil =>
      simp only [List.cons_append, List.nil_append, noDbl, Bool.and_eq_true]
      refine ⟨by simp [hc], ?_⟩
      simpa using ih rfl
    | cons b x'' =>
      simp only [noDbl, Bool.and_eq_true] at hx
      simp only [List.cons_append, noDbl, Bool.and_eq_true]
      exact ⟨hx.1, by simpa using ih hx.2⟩

/-! ## Decimal digit strings -/

theorem digitChar_toNat (d : Nat) (h : d < 10) : (digitChar d).toNat = 48 + d := by
  have hv : (48 + d) < 0xD800 := by omega
  simp [digitChar, Char.ofNat, Nat.isValidChar, hv, Char.toNat, Char.ofNatAux,
    UInt32.toNat, BitVec.toNat_ofNatLt]

theorem digitChar_isDigit (d : Nat) (h : d < 10) : isDigitCh (digitChar d) = true := by
  simp only [isDigitCh, digitChar_toNat d h, Bool.and_eq_true, decide_eq_true_eq]
  omega

theorem digitChar_isNZ (d : Nat) (h1 : 1 ≤ d) (h2 : d < 10) :
    isNZDigit (digitChar d) = true := by
  simp only [isNZDigit, digitChar_toNat d h2, Bool.and_eq_true, decide_eq_true_eq]
  omega

theorem digitChar_round (c : Char) (h : isDigitCh c = true) :
    digitChar (c.toNat - 48) = c := by
  simp only [isDigitCh, Bool.and_eq_true, decide_eq_true_eq] at h
  have : 48 + (c.toNat - 48) = c.toNat := by omega
  rw [digitChar, this, Char.ofNat_toNat]

theorem isDigit_toNat (c : Char) (h : isDigitCh c = true) :
    48 ≤ c.toNat ∧ c.toNat ≤ 57 := by
  simpa [isDigitCh, Bool.and_eq_true, decide_eq_true_eq] using h

theorem strToNat_snoc (s : Str) (c : Char) :
    strToNat (s ++ [c]) = strToNat s * 10 + (c.toNat - 48) := by
  simp [strToNat, List.foldl_append]

theorem foldl_digit (s : Str) :
    ∀ a : Nat, s.foldl (fun a c => a * 10 + (c.toNat - 48)) a =
      a * 10 ^ s.length + strToNat s := by
  induction s with
  | nil => intro a; simp [strToNat]
  | cons c t ih =>
    intro a
    have h1 : (c :: t).foldl (fun a c => a * 10 + (c.toNat - 48)) a =
        t.foldl (fun a c => a * 10 + (c.toNat - 48)) (a * 10 + (c.toNat - 48)) := rfl
    have h2 : strToNat (c :: t) =
        t.foldl (fun a c => a * 10 + (c.toNat - 48)) (0 * 10 + (c.toNat - 48)) := rfl
    rw [h1, ih, h2, ih]
    simp [List.length_cons, Nat.pow_succ]
    ring

theorem strToNat_cons (c : Char) (t : Str) :
    strToNat (c :: t) = (c.toNat - 48) * 10 ^ t.length + strToNat t := by
  have h2 : strToNat (c :: t) =
      t.foldl (fun a c => a * 10 + (c.toNat - 48)) (0 * 10 + (c.toNat - 48)) := rfl
  rw [h2, foldl_digit]
  simp

theorem strToNat_lt (s : Str) (h : ∀ c ∈ s, isDigitCh c = true) :
    strToNat s < 10 ^ s.length := by
  induction s with
  | nil => simp [strToNat]
  | cons c t ih =>
    rw [strToNat_cons]
    have hc := isDigit_toNat c (h c (List.mem_cons_self c t))
    have ht := ih (fun x hx => h x (List.mem_cons_of_mem c hx))
    have : (c.toNat - 48) ≤ 9 := by omega
    simp only [List.length_cons, Nat.pow_succ]
    nlinarith [pow_pos (show 0 < 10 by omega) t.length]

theorem strToNat_ge (c : Char) (t : Str) (hc : isNZDigit c = true) :
    10 ^ t.length ≤ strToNat (c :: t) := by
  rw [strToNat_cons]
  have : 49 ≤ c.toNat ∧ c.toNat ≤ 57 := by
    simpa [isNZDigit, Bool.and_eq_true, decide_eq_true_eq] using hc
  have h1 : 1 ≤ c.toNat - 48 := by omega
  nlinarith [pow_pos (show 0 < 10 by omega) t.length]

theorem natToStrAux_acc (n : Nat) : ∀ (fuel : Nat) (acc : Str), n < fuel →
    natToStrAux fuel n acc = natToStrAux fuel n [] ++ acc := by
  induction n using Nat.strong_induction_on with
  | _ n ih =>
    intro fuel acc hf
    cases fuel with
    | zero => omega
    | succ f =>
      by_cases h10 : n < 10
      · simp [natToStrAux, h10]
      · have hdiv : n / 10 < n := Nat.div_lt_self (by omega) (by omega)
        have hdivf : n / 10 < f := by omega
        simp only [natToStrAux, h10, if_false]
        have e1 := ih (n / 10) hdiv f (digitChar (n % 10) :: acc) hdivf
        have e2 := ih (n / 10) hdiv f [digitChar (n % 10)] hdivf
        rw [e1, e2]
        simp

theorem natToStrAux_fuel (n : Nat) : ∀ (f1 f2 : Nat), n < f1 → n < f2 →
    natToStrAux f1 n [] = natToStrAux f2 n [] := by
  induction n using Nat.strong_induction_on with
  | _ n ih =>
    intro f1 f2 h1 h2
    cases f1 with
    | zero => omega
    | succ a =>
      cases f2 with
      | zero => omega
      | succ b =>
        by_cases h10 : n < 10
        · simp [natToStrAux, h10]
        · have hdiv : n / 10 < n := Nat.div_lt_self (by omega) (by omega)
          simp only [natToStrAux, h10, if_false]
          rw [natToStrAux_acc (n / 10) a _ (by omega),
              natToStrAux_acc (n / 10) b _ (by omega),
              ih (n / 10) hdiv a b (by omega) (by omega)]

theorem natToStr_unfold (n : Nat) :
    natToStr n = if n < 10 then [digitChar n]
      else natToStr (n / 10) ++ [digitChar (n % 10)] := by
  by_cases h10 : n < 10
  · simp [natToStr, natToStrAux, h10]
  · have hdiv : n / 10 < n := Nat.div_lt_self (by omega) (by omega)
    rw [if_neg h10]
    have h1 : natToStr n = natToStrAux n (n / 10) [digitChar (n % 10)] := by
      simp [natToStr, natToStrAux, h10]
    rw [h1, natToStrAux_acc (n / 10) n [digitChar (n % 10)] (by omega),
        natToStrAux_fuel (n / 10) n (n / 10 + 1) (by omega) (by omega)]
    rfl

theorem natToStr_ne_nil (n : Nat) : natToStr n ≠ [] := by
  rw [natToStr_unfold]
  split <;> simp

theorem natToStr_digits (n : Nat) : ∀ c ∈ natToStr n, isDigitCh c = true := by
  induction n using Nat.strong_induction_on with
  | _ n ih =>
    intro c hc
    rw [natToStr_unfold] at hc
    by_cases h10 : n < 10
    · rw [if_pos h10] at hc
      simp only [List.mem_singleton] at hc
      exact hc ▸ digitChar_isDigit n h10
    · rw [if_neg h10] at hc
      have hdiv : n / 10 < n := Nat.div_lt_self (by omega) (by omega)
      rcases List.mem_append.mp hc with hc | hc
      · exact ih (n / 10) hdiv c hc
      · simp only [List.mem_singleton] at hc
        exact hc ▸ digitChar_isDigit (n % 10) (Nat.mod_lt n (by omega))

theorem natToStr_head_nz (n : Nat) (h : 1 ≤ n) :
    ∃ c t, natToStr n = c :: t ∧ isNZDigit c = true := by
  induction n using Nat.strong_induction_on with
  | _ n ih =>
    rw [natToStr_unfold]
    by_cases h10 : n < 10
    · exact ⟨digitChar n, [], by simp [h10], digitChar_isNZ n h h10⟩
    · have hdiv : n / 10 < n := Nat.div_lt_self (by omega) (by omega)
      obtain ⟨c, t, hct, hnz⟩ := ih (n / 10) hdiv (by omega)
      exact ⟨c, t ++ [digitChar (n % 10)], by simp [h10, hct], hnz⟩

theorem strToNat_natToStr (n : Nat) : strToNat (natToStr n) = n := by
  induction n using Nat.strong_induction_on with
  | _ n ih =>
    rw [natToStr_unfold]
    by_cases h10 : n < 10
    · simp only [if_pos h10]
      have : strToNat [digitChar n] = (digitChar n).toNat - 48 := by
        simp [strToNat]
      rw [this, digitChar_toNat n h10]
      omega
    · have hdiv : n / 10 < n := Nat.div_lt_self (by omega) (by omega)
      simp only [if_neg h10]
      rw [strToNat_snoc, ih (n / 10) hdiv, digitChar_toNat (n % 10) (Nat.mod_lt n (by omega))]
      omega

theorem matchPos_natToStr (n : Nat) (h : 1 ≤ n) : matchPos (natToStr n) = true := by
  obtain ⟨c, t, hct, hnz⟩ := natToStr_head_nz n h
  rw [hct]
  simp only [matchPos, hnz, Bool.true_and, List.all_eq_true]
  intro x hx
  exact natToStr_digits n x (hct ▸ List.mem_cons_of_mem c hx)

theorem natToStr_strToNat (s : Str) (hd : ∀ c ∈ s, isDigitCh c = true)
    (hne : s ≠ []) (h0 : (∀ c t, s = c :: t → c ≠ '0') ∨ s = ['0']) :
    natToStr (strToNat s) = s := by
  induction s using List.reverseRecOn with
  | nil => exact absurd rfl hne
  | append_singleton s' c ihr =>
    rcases h0 with h0 | h0
    · cases s' with
      | nil =>
        have hc := isDigit_toNat c (hd c (by simp))
        have hlt : strToNat [c] < 10 := by
          have : strToNat [c] = c.toNat - 48 := by simp [strToNat]
          omega
        rw [natToStr_unfold, if_pos (by simpa using hlt)]
        have : strToNat [c] = c.toNat - 48 := by simp [strToNat]
        simp only [List.nil_append, this]
        rw [digitChar_round c (hd c (by simp))]
      | cons a t =>
        have ha : a ≠ '0' := h0 a (t ++ [c]) (by simp)
        have hanz : isNZDigit a = true := by
          have := isDigit_toNat a (hd a (by simp))
          have hne0 : a.toNat ≠ 48 := by
            intro he
            apply ha
            have : a = digitChar 0 := by
              rw [← digitChar_round a (hd a (by simp)), he]
            rw [this]; rfl
          simp only [isNZDigit, Bool.and_eq_true, decide_eq_true_eq]
          omega
        have hge : 10 ^ t.length ≤ strToNat (a :: t) := strToNat_ge a t hanz
        have hge1 : 1 ≤ strToNat (a :: t) := by
          have := pow_pos (show 0 < 10 by omega) t.length
          omega
        rw [strToNat_snoc]
        have hc := isDigit_toNat c (hd c (by simp))
        have hbig : ¬ (strToNat (a :: t) * 10 + (c.toNat - 48) < 10) := by
          nlinarith
        rw [natToStr_unfold, if_neg hbig]
        have hdiv : (strToNat (a :: t) * 10 + (c.toNat - 48)) / 10 = strToNat (a :: t) := by
          omega
        have hmod : (strToNat (a :: t) * 10 + (c.toNat - 48)) % 10 = c.toNat - 48 := by
          omega
        rw [hdiv, hmod, digitChar_round c (hd c (by simp))]
        rw [ihr (fun x hx => hd x (by simp only [List.cons_append, List.mem_cons,
            List.mem_append, List.mem_singleton] at hx ⊢; tauto)) (by simp)
          (Or.inl (fun x u hx => by
            rw [hx] at h0
            exact h0 x (u ++ [c]) (by simp)))]
    · have : s' = [] ∧ c = '0' := by
        cases s' with
        | nil => simpa using h0
        | cons a t =>
          exfalso
          have := congrArg List.length h0
          simp at this
      rw [this.1, this.2]
      rfl

theorem isNZ_isDigit (c : Char) (h : isNZDigit c = true) : isDigitCh c = true := by
  simp only [isNZDigit, Bool.and_eq_true, decide_eq_true_eq] at h
  simp only [isDigitCh, Bool.and_eq_true, decide_eq_true_eq]
  omega

theorem matchPos_all_digits (s : Str) (h : matchPos s = true) :
    ∀ c ∈ s, isDigitCh c = true := by
  cases s with
  | nil => simp [matchPos] at h
  | cons a t =>
    simp only [matchPos, Bool.and_eq_true, List.all_eq_true] at h
    intro c hc
    rcases List.mem_cons.mp hc with rfl | hc
    · exact isNZ_isDigit c h.1
    · exact h.2 c hc

theorem matchPos_head_nz (s : Str) (h : matchPos s = true) :
    ∃ c t, s = c :: t ∧ isNZDigit c = true := by
  cases s with
  | nil => simp [matchPos] at h
  | cons a t =>
    simp only [matchPos, Bool.and_eq_true] at h
    exact ⟨a, t, rfl, h.1⟩

theorem strToNat_pos (s : Str) (h : matchPos s = true) : 1 ≤ strToNat s := by
  obtain ⟨c, t, rfl, hnz⟩ := matchPos_head_nz s h
  have := strToNat_ge c t hnz
  have := pow_pos (show 0 < 10 by omega) t.length
  omega

theorem strToInt_of_digits (s : Str) (h : ∀ c ∈ s, isDigitCh c = true) :
    strToInt s = (strToNat s : Int) := by
  cases s with
  | nil => rfl
  | cons c t =>
    have hc : isDigitCh c = true := h c (List.mem_cons_self c t)
    have : c ≠ '-' := by
      intro he
      rw [he] at hc
      simp [isDigitCh] at hc
    unfold strToInt
    split
    · rename_i t' heq
      injection heq with h1 h2
      exact absurd h1 this
    · rfl

theorem natToStr_of_matchPos (s : Str) (h : matchPos s = true) :
    natToStr (strToNat s) = s := by
  obtain ⟨c, t, rfl, hnz⟩ := matchPos_head_nz s h
  apply natToStr_strToNat _ (matchPos_all_digits _ h) (by simp)
  left
  intro x u hx
  injection hx with h1 h2
  subst h1
  intro he
  rw [he] at hnz
  simp [isNZDigit] at hnz

theorem intToStr_nonneg (n : Int) (h : 0 ≤ n) : intToStr n = natToStr n.toNat := by
  simp [intToStr, not_lt.mpr h]

theorem matchPos_intToStr (n : Int) (h : 1 ≤ n) : matchPos (intToStr n) = true := by
  rw [intToStr_nonneg n (by omega)]
  exact matchPos_natToStr n.toNat (by omega)

theorem strToInt_intToStr (n : Int) : strToInt (intToStr n) = n := by
  by_cases h : n < 0
  · simp only [intToStr, if_pos h, strToInt]
    rw [strToNat_natToStr]
    omega
  · rw [intToStr_nonneg n (by omega),
      strToInt_of_digits _ (natToStr_digits n.toNat), strToNat_natToStr]
    omega

theorem matchInteger_intToStr (n : Int) : matchInteger (intToStr n) = true := by
  by_cases h0 : n = 0
  · subst h0
    rfl
  · by_cases h : n < 0
    · have habs : 1 ≤ n.natAbs := by omega
      simp only [intToStr, if_pos h, matchInteger]
      have : matchPos (natToStr n.natAbs) = true := matchPos_natToStr _ habs
      simp [this]
    · have h1 : 1 ≤ n := by omega
      simp only [matchInteger, matchPos_intToStr n h1]
      simp

theorem intToStr_ne_placeholder (n : Int) : intToStr n ≠ ['_'] := by
  intro he
  by_cases h : n < 0
  · simp only [intToStr, if_pos h] at he
    injection he with h1 h2
    exact absurd h1 (by decide)
  · rw [intToStr_nonneg n (by omega)] at he
    have := natToStr_digits n.toNat '_' (he ▸ List.mem_singleton.mpr rfl)
    simp [isDigitCh] at this

theorem parse_int_value_intToStr (n : Int) :
    parse_int_value (intToStr n) = .ok (.pint n) := by
  rw [parse_int_value, if_neg (intToStr_ne_placeholder n),
    if_pos (matchInteger_intToStr n), strToInt_intToStr]

theorem mem_natToStr_not_dash (n : Nat) : '-' ∉ natToStr n := by
  intro hm
  have := natToStr_digits n '-' hm
  simp [isDigitCh] at this

theorem mem_natToStr_not_dot (n : Nat) : '.' ∉ natToStr n := by
  intro hm
  have := natToStr_digits n '.' hm
  simp [isDigitCh] at this

theorem matchPos_false_of_mem (s : Str) (c : Char) (hm : c ∈ s)
    (hc : isDigitCh c = false) : matchPos s = false := by
  by_contra h
  rw [Bool.not_eq_false] at h
  rw [matchPos_all_digits s h c hm] at hc
  exact absurd hc (by simp)

theorem parse_id_value_single (n : Int) (h : 1 ≤ n) :
    parse_id_value (intToStr n) = .ok (.pint n) := by
  have hm : matchPos (intToStr n) = true := matchPos_intToStr n h
  rw [parse_id_value,
    if_neg (by
      push_neg
      constructor
      · intro he
        rw [he] at hm
        simp [matchPos] at hm
      · exact intToStr_ne_placeholder n),
    if_pos hm, strToInt_intToStr]

theorem splitChar_two_pieces (c : Char) (x y : Str) (hx : c ∉ x) (hy : c ∉ y) :
    splitChar c (x ++ c :: y) = [x, y] := by
  unfold splitChar
  rw [splitOnP_append_sep _ x y c
      (fun e he => by
        show (e == c) = false
        exact beq_eq_false_iff_ne.mpr (fun hh => hx (hh ▸ he))) (by simp)]
  rw [splitOnP_no_sep _ y
      (fun e he => by
        show (e == c) = false
        exact beq_eq_false_iff_ne.mpr (fun hh => hy (hh ▸ he)))]

theorem serRange (a b : Int) (ha : 1 ≤ a) (hab : a < b) :
    parse_id_value (intToStr a ++ '-' :: intToStr b) = .ok (.ptup a (str "-") b) := by
  have hxa : '-' ∉ intToStr a := by
    rw [intToStr_nonneg a (by omega)]
    exact mem_natToStr_not_dash a.toNat
  have hxb : '-' ∉ intToStr b := by
    rw [intToStr_nonneg b (by omega)]
    exact mem_natToStr_not_dash b.toNat
  have hsp : splitChar '-' (intToStr a ++ '-' :: intToStr b) = [intToStr a, intToStr b] :=
    splitChar_two_pieces '-' _ _ hxa hxb
  have hrange : matchRange (intToStr a ++ '-' :: intToStr b) = true := by
    rw [matchRange, hsp]
    simp [matchPos_intToStr a ha, matchPos_intToStr b (by omega)]
  have hpos : matchPos (intToStr a ++ '-' :: intToStr b) = false :=
    matchPos_false_of_mem _ '-' (by simp) (by simp [isDigitCh])
  rw [parse_id_value,
    if_neg (by
      push_neg
      constructor
      · simp
      · intro he
        have := congrArg List.length he
        simp at this
        have := natToStr_ne_nil a.toNat
        have h2 := natToStr_ne_nil b.toNat
        rw [← intToStr_nonneg a (by omega)] at this
        rw [← intToStr_nonneg b (by omega)] at h2
        cases hia : intToStr a with
        | nil => exact absurd hia this
        | cons q r => simp [hia] at he),
    hpos]
  simp only [Bool.false_eq_true, if_false]
  rw [if_pos hrange, hsp]
  simp only [strToInt_intToStr]
  rw [if_pos (by omega)]

theorem serDot (a b : Int) (ha : 0 ≤ a) (hb : 1 ≤ b) :
    parse_id_value (intToStr a ++ '.' :: intToStr b) = .ok (.ptup a (str ".") b) := by
  have hxa : '.' ∉ intToStr a := by
    rw [intToStr_nonneg a (by omega)]
    exact mem_natToStr_not_dot a.toNat
  have hxb : '.' ∉ intToStr b := by
    rw [intToStr_nonneg b (by omega)]
    exact mem_natToStr_not_dot b.toNat
  have hda : '-' ∉ intToStr a := by
    rw [intToStr_nonneg a (by omega)]
    exact mem_natToStr_not_dash a.toNat
  have hdb : '-' ∉ intToStr b := by
    rw [intToStr_nonneg b (by omega)]
    exact mem_natToStr_not_dash b.toNat
  have hsp : splitChar '.' (intToStr a ++ '.' :: intToStr b) = [intToStr a, intToStr b] :=
    splitChar_two_pieces '.' _ _ hxa hxb
  have hpos : matchPos (intToStr a ++ '.' :: intToStr b) = false :=
    matchPos_false_of_mem _ '.' (by simp) (by simp [isDigitCh])
  have hnodash : '-' ∉ (intToStr a ++ '.' :: intToStr b) := by
    simp only [List.mem_append, List.mem_cons]
    push_neg
    exact ⟨hda, by decide, hdb⟩
  have hrange : matchRange (intToStr a ++ '.' :: intToStr b) = false := by
    rw [matchRange]
    rw [show splitChar '-' (intToStr a ++ '.' :: intToStr b) =
      [intToStr a ++ '.' :: intToStr b] from by
        unfold splitChar
        exact splitOnP_no_sep _ _
          (fun e he => by
            show (e == '-') = false
            exact beq_eq_false_iff_ne.mpr (fun hh => hnodash (hh ▸ he)))]
  have hdot : matchDot (intToStr a ++ '.' :: intToStr b) = true := by
    rw [matchDot, hsp]
    have hne := natToStr_ne_nil a.toNat
    rw [← intToStr_nonneg a (by omega)] at hne
    simp only [Bool.and_eq_true, List.all_eq_true]
    refine ⟨⟨by simpa [List.isEmpty_iff] using hne, ?_⟩, matchPos_intToStr b hb⟩
    intro c hc
    rw [intToStr_nonneg a (by omega)] at hc
    exact natToStr_digits a.toNat c hc
  rw [parse_id_value,
    if_neg (by
      push_neg
      constructor
      · simp
      · intro he
        have := congrArg List.length he
        simp at this
        have h1 := natToStr_ne_nil a.toNat
        rw [← intToStr_nonneg a (by omega)] at h1
        cases hia : intToStr a with
        | nil => exact absurd hia h1
        | cons q r => simp [hia] at he),
    hpos]
  simp only [Bool.false_eq_true, if_false]
  rw [hrange]
  simp only [Bool.false_eq_true, if_false]
  rw [if_pos hdot, hsp]
  simp only [strToInt_intToStr]

theorem splitChar_pair_recover (c : Char) (s a b : Str)
    (h : splitChar c s = [a, b]) : s = a ++ c :: b := by
  have := joinSep_splitChar c s
  rw [h] at this
  simpa [joinSep] using this.symm

theorem matchRange_shape (s : Str) (h : matchRange s = true) :
    ∃ a b, splitChar '-' s = [a, b] ∧ matchPos a = true ∧ matchPos b = true := by
  unfold matchRange at h
  cases hq : splitChar '-' s with
  | nil => rw [hq] at h; simp at h
  | cons x t =>
    cases t with
    | nil => rw [hq] at h; simp at h
    | cons y t2 =>
      cases t2 with
      | nil =>
        rw [hq] at h
        simp only [Bool.and_eq_true] at h
        exact ⟨x, y, rfl, h.1, h.2⟩
      | cons z t3 => rw [hq] at h; simp at h

theorem matchDot_shape (s : Str) (h : matchDot s = true) :
    ∃ a b, splitChar '.' s = [a, b] ∧ a ≠ [] ∧ (∀ c ∈ a, isDigitCh c = true) ∧
      matchPos b = true := by
  unfold matchDot at h
  cases hq : splitChar '.' s with
  | nil => rw [hq] at h; simp at h
  | cons x t =>
    cases t with
    | nil => rw [hq] at h; simp at h
    | cons y t2 =>
      cases t2 with
      | nil =>
        rw [hq] at h
        simp only [Bool.and_eq_true, List.all_eq_true] at h
        refine ⟨x, y, rfl, ?_, h.1.2, h.2⟩
        simpa [List.isEmpty_iff] using h.1.1
      | cons z t3 => rw [hq] at h; simp at h

theorem matchDot_false_of_dash (s : Str) (hm : '-' ∈ s) : matchDot s = false := by
  by_contra h
  rw [Bool.not_eq_false] at h
  obtain ⟨a, b, hab, hane, hadig, hbpos⟩ := matchDot_shape s h
  have hs := splitChar_pair_recover '.' s a b hab
  rw [hs] at hm
  rcases List.mem_append.mp hm with hm | hm
  · have := hadig '-' hm
    simp [isDigitCh] at this
  · rcases List.mem_cons.mp hm with he | hm
    · exact absurd he (by decide)
    · have := matchPos_all_digits b hbpos '-' hm
      simp [isDigitCh] at this

theorem parse_id_eq_spec (s : Str) : parse_id_value s = idValueSpec s := by
  unfold parse_id_value idValueSpec
  by_cases h0 : s = [] ∨ s = ['_']
  · simp [h0]
  · rw [if_neg h0, if_neg h0]
    by_cases hp : matchPos s = true
    · rw [if_pos hp, if_pos hp]
    · rw [if_neg hp, if_neg hp]
      by_cases hr : matchRange s = true
      · obtain ⟨a, b, hab, hpa, hpb⟩ := matchRange_shape s hr
        have hdash : '-' ∈ s := by
          rw [splitChar_pair_recover '-' s a b hab]
          simp
        have hdot : matchDot s = false := matchDot_false_of_dash s hdash
        rw [hab, if_pos hr]
        simp only [List.headD_cons, List.getD_cons_succ, List.getD_cons_zero]
        by_cases hgt : strToInt b > strToInt a
        · rw [if_pos hgt, if_pos ⟨hr, hgt⟩]
        · have hno : ¬ (matchRange s = true ∧ strToInt b > strToInt a) :=
            fun hcon => hgt hcon.2
          have hnd : ¬ matchDot s = true := by simp [hdot]
          rw [if_neg hgt, if_neg hno, if_neg hnd]
      · have hnr : ¬ (matchRange s = true ∧
            strToInt ((splitChar '-' s).getD 1 []) > strToInt ((splitChar '-' s).headD [])) :=
          fun hcon => hr hcon.1
        rw [if_neg hr, if_neg hnr]
        by_cases hd : matchDot s = true
        · obtain ⟨a, b, hab, hane, hadig, hbpos⟩ := matchDot_shape s hd
          rw [if_pos hd, if_pos hd, hab]
          simp only [List.headD_cons, List.getD_cons_succ, List.getD_cons_zero]
        · rw [if_neg hd, if_neg hd]

/-- Claim C4: `parse_id_value` accepts exactly the three identifier
grammars (plain positive integer, range with end greater than start,
decimal), maps the placeholder or empty string to absent, maps `4-5` to
the triple `(4, "-", 5)`, and fails with a format error on anything else —
in particular on `4-3`, whose range end is not greater than its start. -/
theorem claim_C4_id_grammar :
    (∀ s : Str, parse_id_value s = idValueSpec s) ∧
    parse_id_value (str "4-5") = .ok (.ptup 4 (str "-") 5) ∧
    parse_id_value (str "4-3") =
      .error (.parseException "\x274-3\x27 is not a valid ID.") :=
  ⟨parse_id_eq_spec, by decide, by decide⟩

/-- Claim C5 counterexample: the decimal grammar `[0-9][0-9]*\.[1-9][0-9]*`
accepts `01.2`, which parses to `(1, ".", 2)` and re-serializes as `1.2`,
not the original string — so the round trip is not exact for every
accepted identifier string. -/
theorem claim_C5_cex :
    matchDot (str "01.2") = true ∧
    parse_id_value (str "01.2") = .ok (.ptup 1 (str ".") 2) ∧
    serialize_field (.ptup 1 (str ".") 2) = .ok (str "1.2") ∧
    str "1.2" ≠ str "01.2" :=
  ⟨by decide, by decide, by decide, by decide⟩

/-- Claim C5 (amended): for every identifier string accepted by the
single grammar, by the range grammar with end greater than start, or by
the decimal grammar with no superfluous leading zero in its integer part,
serializing the value returned by `parse_id_value` reproduces the
original string exactly. -/
theorem claim_C5_id_roundtrip (s : Str)
    (h : matchPos s = true ∨ (matchRange s = true ∧ rangeOrdered s = true) ∨
         (matchDot s = true ∧ dotCanonical s = true)) :
    ∃ v, parse_id_value s = .ok v ∧ serialize_field v = .ok s := by
  rcases h with hp | ⟨hr, hord⟩ | ⟨hd, hcan⟩
  · refine ⟨.pint (strToInt s), ?_, ?_⟩
    · rw [parse_id_value, if_neg (by
        push_neg
        obtain ⟨c, t, rfl, hnz⟩ := matchPos_head_nz s hp
        constructor
        · simp
        · intro he
          injection he with h1 h2
          rw [h1] at hnz
          simp [isNZDigit] at hnz), if_pos hp]
    · show Except.ok (intToStr (strToInt s)) = Except.ok s
      rw [strToInt_of_digits s (matchPos_all_digits s hp),
        intToStr_nonneg _ (by omega), Int.toNat_natCast, natToStr_of_matchPos s hp]
  · obtain ⟨a, b, hab, hpa, hpb⟩ := matchRange_shape s hr
    have hs := splitChar_pair_recover '-' s a b hab
    have hia : strToInt a = (strToNat a : Int) := strToInt_of_digits a (matchPos_all_digits a hpa)
    have hib : strToInt b = (strToNat b : Int) := strToInt_of_digits b (matchPos_all_digits b hpb)
    have hord2 : strToNat a < strToNat b := by
      unfold rangeOrdered at hord
      rw [hab] at hord
      simpa using hord
    refine ⟨.ptup (strToInt a) (str "-") (strToInt b), ?_, ?_⟩
    · rw [parse_id_value, if_neg (by
        push_neg
        constructor
        · intro he
          rw [he] at hs
          exact absurd hs.symm (by simp)
        · intro he
          have hm : '-' ∈ s := by rw [hs]; simp
          rw [he] at hm
          exact absurd (List.mem_singleton.mp hm) (by decide)),
        if_neg (by
          rw [matchPos_false_of_mem s '-' (by rw [hs]; simp) (by simp [isDigitCh])]
          simp),
        if_pos hr, hab]
      have hgt : strToInt b > strToInt a := by rw [hia, hib]; omega
      simp [hgt]
    · show Except.ok (intToStr (strToInt a) ++ str "-" ++ intToStr (strToInt b)) =
        Except.ok s
      rw [hia, hib, intToStr_nonneg _ (by omega), intToStr_nonneg _ (by omega),
        Int.toNat_natCast, Int.toNat_natCast, natToStr_of_matchPos a hpa,
        natToStr_of_matchPos b hpb, hs,
        show (str "-") = ['-'] from rfl, List.append_assoc]
      rfl
  · obtain ⟨a, b, hab, hane, hadig, hpb⟩ := matchDot_shape s hd
    have hs := splitChar_pair_recover '.' s a b hab
    have hia : strToInt a = (strToNat a : Int) := strToInt_of_digits a hadig
    have hib : strToInt b = (strToNat b : Int) := strToInt_of_digits b (matchPos_all_digits b hpb)
    have hdotmem : '.' ∈ s := by rw [hs]; simp
    have hnodash : '-' ∉ s := by
      rw [hs]
      simp only [List.mem_append, List.mem_cons]
      push_neg
      refine ⟨fun hm => ?_, by decide, fun hm => ?_⟩
      · have := hadig '-' hm
        simp [isDigitCh] at this
      · have := matchPos_all_digits b hpb '-' hm
        simp [isDigitCh] at this
    have hcanA : natToStr (strToNat a) = a := by
      apply natToStr_strToNat a hadig hane
      unfold dotCanonical at hcan
      rw [hab] at hcan
      simp only [Bool.or_eq_true, beq_iff_eq, bne_iff_ne, ne_eq] at hcan
      rcases hcan with hcan | hcan
      · right; exact hcan
      · left
        intro x u hx
        rw [hx] at hcan
        simpa using hcan
    refine ⟨.ptup (strToInt a) (str ".") (strToInt b), ?_, ?_⟩
    · rw [parse_id_value, if_neg (by
        push_neg
        constructor
        · intro he
          rw [he] at hdotmem
          simp at hdotmem
        · intro he
          rw [he] at hdotmem
          exact absurd (List.mem_singleton.mp hdotmem) (by decide)),
        if_neg (by
          rw [matchPos_false_of_mem s '.' hdotmem (by simp [isDigitCh])]
          simp),
        if_neg (by
          rw [show matchRange s = false from by
            unfold matchRange
            rw [show splitChar '-' s = [s] from by
              unfold splitChar
              exact splitOnP_no_sep _ _ (fun e he => by
                show (e == '-') = false
                exact beq_eq_false_iff_ne.mpr (fun hh => hnodash (hh ▸ he)))]]
          simp),
        if_pos hd, hab]
    · show Except.ok (intToStr (strToInt a) ++ str "." ++ intToStr (strToInt b)) =
        Except.ok s
      rw [hia, hib, intToStr_nonneg _ (by omega), intToStr_nonneg _ (by omega),
        Int.toNat_natCast, Int.toNat_natCast, hcanA, natToStr_of_matchPos b hpb, hs,
        show (str ".") = ['.'] from rfl, List.append_assoc]
      rfl

/-- Claim C5 witness: the amended round trip applied to `4-5`. -/
theorem claim_C5_witness :
    (matchRange (str "4-5") = true ∧ rangeOrdered (str "4-5") = true) ∧
    ∃ v, parse_id_value (str "4-5") = .ok v ∧ serialize_field v = .ok (str "4-5") :=
  ⟨by decide, claim_C5_id_roundtrip (str "4-5") (Or.inr (Or.inl (by decide)))⟩

theorem nullable_none_iff (s : Str) :
    parse_nullable_value s = none ↔ (s = [] ∨ s = ['_']) := by
  unfold parse_nullable_value
  split
  · next h => simp [h]
  · next h =>
    constructor
    · intro hc; cases hc
    · intro hc; exact absurd hc h

theorem dictPairOf_eq_spec (part : Str) :
    dictPairOf part =
      (let kv := splitFirst '=' part
       if parse_nullable_value kv.1 = none then none
       else
         some (kv.1,
           match kv.2 with
           | none => some []
           | some rest => parse_nullable_value (splitFirst '=' rest).1)) := by
  unfold dictPairOf
  have hsp := splitChar_eq_splitFirst '=' part
  cases h2 : (splitFirst '=' part).2 with
  | none =>
    have hnomem : '=' ∉ part := by
      have hrec := splitFirst_recover '=' part
      rw [h2] at hrec
      simp only [List.append_nil] at hrec
      rw [hrec]
      exact splitFirst_not_mem_fst '=' part
    rw [hsp, h2]
    simp only [List.headD_cons, if_neg hnomem, h2]
  | some rest =>
    have hmem : '=' ∈ part := by
      have hrec := splitFirst_recover '=' part
      rw [h2] at hrec
      rw [hrec]
      simp
    rw [hsp, h2]
    simp only [List.headD_cons, if_pos hmem, h2]
    rw [splitChar_eq_splitFirst '=' rest]
    simp [List.getD]

theorem parse_dict_eq_spec (s : Str) : parse_dict_value s = dictValueSpec s := by
  unfold parse_dict_value dictValueSpec
  by_cases h0 : s = [] ∨ s = ['_']
  · rw [if_pos ((nullable_none_iff s).mpr h0), if_pos h0]
  · rw [if_neg (fun hc => h0 ((nullable_none_iff s).mp hc)), if_neg h0]
    congr 2
    exact congrArg odOfList (List.filterMap_congr (fun part _ => dictPairOf_eq_spec part))

/-- Claim C2 counterexample: for a part with two `=` signs the value is
the segment between the first and second `=`, not the whole remainder
after the first `=`: `a=b=c` maps `a` to `b`, not to `b=c`. -/
theorem claim_C2_cex :
    parse_dict_value (str "a=b=c") = .ok (.pdict [(str "a", some (str "b"))]) ∧
    ¬ parse_dict_value (str "a=b=c") = .ok (.pdict [(str "a", some (str "b=c"))]) :=
  ⟨by decide, by decide⟩

/-- Claim C2 (amended): `parse_dict_value` maps placeholder or empty to
absent; otherwise it splits on `|`; each part's key is the segment before
the first `=` and its value the segment between the first and second `=`
(itself parsed as nullable, so `_` becomes absent), defaulting to the
empty string when the part has no `=`; parts whose key parses as absent
are dropped; encounter order is preserved and duplicate keys overwrite
last-wins.  `Number=Sing|Case=Nom` yields the ordered mapping
`[(Number, Sing), (Case, Nom)]`. -/
theorem claim_C2_dict :
    (∀ s : Str, parse_dict_value s = dictValueSpec s) ∧
    parse_dict_value (str "Number=Sing|Case=Nom") =
      .ok (.pdict [(str "Number", some (str "Sing")), (str "Case", some (str "Nom"))]) ∧
    parse_dict_value (str "_") = .ok .pnone :=
  ⟨parse_dict_eq_spec, by decide, by decide⟩

theorem parse_id_error_msg (s : Str) (e : PyErr) (h : parse_id_value s = .error e) :
    e = .parseException ("\x27" ++ String.mk s ++ "\x27 is not a valid ID.") := by
  unfold parse_id_value at h
  split_ifs at h with h1 h2 h3 h4
  all_goals repeat split at h
  all_goals cases h
  all_goals rfl

theorem matchDepsGroup_shape (g : Str) (h : matchDepsGroup g = true) :
    ∃ rel, (splitFirst ':' g).2 = some rel := by
  unfold matchDepsGroup at h
  cases h2 : (splitFirst ':' g).2 with
  | none => rw [show splitFirst ':' g = ((splitFirst ':' g).1, (splitFirst ':' g).2) from rfl, h2] at h; simp at h
  | some rel => exact ⟨rel, rfl⟩

theorem pairedGroups_eq_spec (gs : List Str) (hall : ∀ g ∈ gs, matchDepsGroup g = true) :
    pairedGroups gs =
      match gs.find? (fun g => !(parse_id_value (splitFirst ':' g).1).isOk) with
      | some g =>
        .error (.parseException
          ("\x27" ++ String.mk (splitFirst ':' g).1 ++ "\x27 is not a valid ID."))
      | none =>
        .ok (gs.map (fun g =>
          ((splitFirst ':' g).2.getD [],
           ((parse_id_value (splitFirst ':' g).1).toOption).getD .pnone))) := by
  induction gs with
  | nil => rfl
  | cons g rest ih =>
    obtain ⟨rel, hrel⟩ := matchDepsGroup_shape g (hall g (List.mem_cons_self g rest))
    unfold pairedGroups
    rw [show splitFirst ':' g = ((splitFirst ':' g).1, (splitFirst ':' g).2) from rfl, hrel]
    cases hid : parse_id_value (splitFirst ':' g).1 with
    | error e =>
      have hbad : (fun g => !(parse_id_value (splitFirst ':' g).1).isOk) g = true := by
        show (!(parse_id_value (splitFirst ':' g).1).isOk) = true
        rw [hid]; rfl
      rw [List.find?_cons_of_pos rest hbad]
      simp only [hid]
      rw [parse_id_error_msg _ e hid]
    | ok v =>
      have hgood : ¬ (fun g => !(parse_id_value (splitFirst ':' g).1).isOk) g = true := by
        show ¬ (!(parse_id_value (splitFirst ':' g).1).isOk) = true
        rw [hid]
        simp [Except.isOk, Except.toBool]
      rw [List.find?_cons_of_neg rest (by simpa using hgood),
        ih (fun x hx => hall x (List.mem_cons_of_mem g hx))]
      cases hfind : rest.find? (fun g => !(parse_id_value (splitFirst ':' g).1).isOk) with
      | some g2 => simp [hfind, hid]
      | none => simp [hfind, hid, hrel, Except.toOption]

theorem parse_paired_eq_spec (s : Str) : parse_paired_list_value s = pairedSpec s := by
  unfold parse_paired_list_value pairedSpec
  by_cases hm : matchMulti s = true
  · rw [if_pos hm, if_pos hm]
    have hall : ∀ g ∈ splitChar '|' s, matchDepsGroup g = true := by
      unfold matchMulti at hm
      simpa [List.all_eq_true] using hm
    rw [pairedGroups_eq_spec _ hall]
    cases hfind : (splitChar '|' s).find?
        (fun g => !(parse_id_value (splitFirst ':' g).1).isOk) with
    | some g => rfl
    | none => rfl
  · rw [if_neg hm, if_neg hm]

/-- Claim C6 counterexample: `parse_paired_list_value` can raise — the
deps grammar admits `4-3:r`, and the embedded `parse_id_value` call on
the unordered range `4-3` raises a format error that propagates out. -/
theorem claim_C6_cex :
    parse_paired_list_value (str "4-3:r") =
      .error (.parseException "\x274-3\x27 is not a valid ID.") := by decide

/-- Claim C6 (amended): for every input string, `parse_paired_list_value`
equals the spec-side description — if the string matches the deps grammar
it returns the `(relation, id)` pair list, except that a range identifier
with end not greater than start makes the embedded `parse_id_value`
raise, and the first such group's format error propagates out; otherwise
it falls back to `parse_nullable_value` and never raises. -/
theorem claim_C6_paired :
    (∀ s : Str, parse_paired_list_value s = pairedSpec s) ∧
    parse_paired_list_value (str "foo") = .ok (.pstr (str "foo")) ∧
    parse_paired_list_value (str "_") = .ok .pnone :=
  ⟨parse_paired_eq_spec, by decide, by decide⟩

theorem modifyHead_id_groups (gs : List (List Str)) :
    gs.modifyHead (fun g => [] ++ g) = gs := by
  cases gs <;> simp

theorem psLoop_spec (lines : List Str) : ∀ buf : List Str,
    psLoop lines buf =
      (((splitOnP (fun l : Str => l.isEmpty) lines).modifyHead
          (fun g => buf ++ g)).filter (fun g => !g.isEmpty)).map
        (fun g => rstrip (joinSep ['\n'] g)) := by
  induction lines with
  | nil =>
    intro buf
    simp only [psLoop, splitOnP, List.modifyHead]
    by_cases hb : buf = []
    · subst hb
      simp
    · rw [if_neg hb]
      have hbe : (buf.isEmpty) = false := by
        simpa [List.isEmpty_iff] using hb
      simp [List.filter_cons, hbe]
  | cons l rest ih =>
    intro buf
    by_cases hl : l = []
    · subst hl
      have hsplit : splitOnP (fun l : Str => l.isEmpty) ([] :: rest) =
          [] :: splitOnP (fun l : Str => l.isEmpty) rest := by
        simp [splitOnP]
      rw [hsplit]
      simp only [List.modifyHead, psLoop, if_pos rfl]
      by_cases hb : buf = []
      · subst hb
        rw [if_pos rfl, ih [], modifyHead_id_groups]
        simp
      · rw [if_neg hb]
        have hne : ((buf ++ []).isEmpty) = false := by
          simpa [List.isEmpty_iff] using hb
        simp only [hne, List.filter_cons, Bool.not_false, if_true, List.map_cons]
        rw [ih [], modifyHead_id_groups]
        simp
    · have hpl : (l.isEmpty) = false := by simpa [List.isEmpty_iff] using hl
      cases hsp : splitOnP (fun l : Str => l.isEmpty) rest with
      | nil => exact absurd hsp (splitOnP_ne_nil _ rest)
      | cons h t =>
        have hsplit : splitOnP (fun l : Str => l.isEmpty) (l :: rest) = (l :: h) :: t := by
          simp [splitOnP, hpl, hsp]
        rw [hsplit]
        simp only [psLoop, if_neg hl]
        rw [ih (buf ++ [l]), hsp]
        simp only [List.modifyHead, List.append_assoc, List.singleton_append]

/-- Claim C8 counterexample: a line holding a single space is not the
blank line `"\n"`, so it opens a block, and the reassembled block is
stripped of trailing whitespace — yielding the empty block, which the
claim says is never yielded. -/
theorem claim_C8_cex :
    parse_sentences [str " "] = [str ""] ∧ str "" ∈ parse_sentences [str " "] :=
  ⟨by decide, by decide⟩

/-- Claim C8 (amended): the block splitter yields exactly the
blank-line-delimited blocks: one block per maximal run of non-blank lines
(a blank line being exactly the newline-only line), reassembled with
newlines and stripped of trailing whitespace; consecutive blank lines act
as one separator and yield nothing between them, so an input with two
sentences separated by two consecutive blank lines yields exactly two
blocks — but a run consisting only of whitespace-only (non-newline) lines
yields an empty-string block. -/
theorem claim_C8_blocks :
    (∀ lines : List Str, parse_sentences lines = sentencesSpec lines) ∧
    parse_sentences [str "1\ta", str "", str "", str "2\tb"] =
      [str "1\ta", str "2\tb"] :=
  ⟨fun lines => by
    unfold parse_sentences sentencesSpec
    rw [psLoop_spec lines [], modifyHead_id_groups],
   by decide⟩

/-- Claim C3 counterexample: the declared column list is split on each
single space character, not on whitespace runs — a doubled space in
`# global.columns = ID  FORM` produces an empty column name, where
whitespace-splitting would produce `[id, form]`. -/
theorem claim_C3_cex :
    parse_conllu_plus_fields ⟨[str "# global.columns = ID  FORM", str "1\tx"], 0⟩ =
      (.ok (some [str "id", str "", str "form"]),
       ⟨[str "# global.columns = ID  FORM", str "1\tx"], 0⟩) ∧
    ([str "id", str "", str "form"] : List Str) ≠ [str "id", str "form"] :=
  ⟨by decide, by decide⟩

/-- Claim C3 (amended): `detect_schema`, when the first line of the first
block is a comment whose metadata defines a nonempty `global.columns`,
splits the declared list on each single space character (a run of k
spaces yielding k-1 empty names) and lower-cases each token; it always
restores the stream's read position before returning, so a subsequent
full read sees the same first line again; on
`# global.columns = ID FORM UPOS` it returns `[id, form, upos]`. -/
theorem claim_C3_schema :
    (∀ f : PyStream, (parse_conllu_plus_fields f).2 = f) ∧
    (∀ (st : PyStream) (b : Str) (rest : List Str) (l : Str) (toks : List Token)
       (md : Metadata) (v : Str),
      parse_sentences (st.lines.drop st.pos) = b :: rest →
      (splitChar '\n' b).headD [] = l →
      l.headD ' ' = '#' →
      parse_token_and_metadata l DEFAULT_FIELDS = .ok (toks, md) →
      lookupKV (str "global.columns") md = some (some v) →
      v ≠ [] →
      (parse_conllu_plus_fields st).1 = .ok (some ((splitChar ' ' v).map lowerStr))) ∧
    parse_conllu_plus_fields ⟨[str "# global.columns = ID FORM UPOS", str "1\tDogs\tNOUN"], 0⟩ =
      (.ok (some [str "id", str "form", str "upos"]),
       ⟨[str "# global.columns = ID FORM UPOS", str "1\tDogs\tNOUN"], 0⟩) := by
  refine ⟨?_, ?_, by decide⟩
  · intro f
    unfold parse_conllu_plus_fields
    dsimp only
    split
    · rfl
    · split
      · rfl
      · split
        · split
          · rfl
          · rfl
        · rfl
  · intro st b rest l toks md v hblocks hline hhash hptm hlook hv
    unfold parse_conllu_plus_fields
    simp only [hblocks, hline, hptm, hlook]
    have hh2 : (List.head? l).getD ' ' = '#' := by
      cases l with
      | nil => simp at hhash
      | cons c t => simpa using hhash
    rw [if_neg (by simp [hh2]), if_pos hv]

/-- Claim C3 witness: the general single-space-split consequence applied
to a concrete stream. -/
theorem claim_C3_witness :
    (parse_conllu_plus_fields ⟨[str "# global.columns = ID FORM UPOS"], 0⟩).1 =
      .ok (some ((splitChar ' ' (str "ID FORM UPOS")).map lowerStr)) :=
  claim_C3_schema.2.1 ⟨[str "# global.columns = ID FORM UPOS"], 0⟩
    (str "# global.columns = ID FORM UPOS") []
    (str "# global.columns = ID FORM UPOS") []
    [(str "global.columns", some (str "ID FORM UPOS"))]
    (str "ID FORM UPOS")
    (by decide) (by decide) (by decide) (by decide) (by decide) (by decide)

theorem dlookup_dappend (k n : Int) (t : Token) (idx : List (Int × List Token)) :
    dlookup k (dappend n t idx) =
      if n = k then dlookup k idx ++ [t] else dlookup k idx := by
  induction idx with
  | nil =>
    by_cases h : n = k
    · subst h; simp [dappend, dlookup]
    · simp [dappend, dlookup, h, fun hh : k = n => h hh.symm]
  | cons e rest ih =>
    obtain ⟨k2, l⟩ := e
    by_cases h2 : k2 = n
    · subst h2
      by_cases hk : k2 = k
      · subst hk
        simp [dappend, dlookup]
      · simp [dappend, dlookup, hk, fun hh : k2 = k => hk hh]
    · simp only [dappend, if_neg h2]
      by_cases hk : k2 = k
      · subst hk
        simp [dlookup, if_neg (fun hh : n = k2 => h2 hh.symm)]
      · simp [dlookup, hk, ih]

theorem httLoop_skip_cond (t : Token) :
    (match lookupKV (str "id") t with
     | some (.pint _) => false
     | some _ => true
     | none => false) = skipById t := rfl

theorem httLoop_roots (ts : List Token) : ∀ idx : List (Int × List Token),
    (∀ t ∈ ts, headOkTok t = true) →
    ∃ idx2, httLoop ts idx = .ok idx2 ∧
      dlookup 0 idx2 = dlookup 0 idx ++ ts.filter isRootTok := by
  induction ts with
  | nil => exact fun idx _ => ⟨idx, rfl, by simp⟩
  | cons t rest ih =>
    intro idx hok
    have hokt : headOkTok t = true := hok t (List.mem_cons_self t rest)
    have hokr : ∀ x ∈ rest, headOkTok x = true :=
      fun x hx => hok x (List.mem_cons_of_mem t hx)
    by_cases hskip : skipById t = true
    · have hroot : isRootTok t = false := by
        simp [isRootTok, hskip]
      obtain ⟨idx2, h1, h2⟩ := ih idx hokr
      refine ⟨idx2, ?_, ?_⟩
      · simp only [httLoop, httLoop_skip_cond, hskip, if_true]
        exact h1
      · rw [h2, List.filter_cons, hroot]
        simp
    · have hhead : ∃ n, lookupKV (str "head") t = some (.pint n) := by
        unfold headOkTok at hokt
        rw [Bool.or_eq_true] at hokt
        rcases hokt with hc | hc
        · exact absurd hc hskip
        · cases hl : lookupKV (str "head") t with
          | none => rw [hl] at hc; simp at hc
          | some v =>
            cases v with
            | pint n => exact ⟨n, rfl⟩
            | pnone => rw [hl] at hc; simp at hc
            | pstr s => rw [hl] at hc; simp at hc
            | ptup a s b => rw [hl] at hc; simp at hc
            | pdict es => rw [hl] at hc; simp at hc
            | plist ps => rw [hl] at hc; simp at hc
      obtain ⟨n, hn⟩ := hhead
      by_cases hneg : n < 0
      · have hroot : isRootTok t = false := by
          simp only [isRootTok, hskip, Bool.not_false, Bool.true_and, hn]
          simp
          omega
        obtain ⟨idx2, h1, h2⟩ := ih idx hokr
        refine ⟨idx2, ?_, ?_⟩
        · simp only [httLoop, httLoop_skip_cond, hskip, Bool.false_eq_true, if_false, hn,
            if_pos hneg]
          exact h1
        · rw [h2, List.filter_cons, hroot]
          simp
      · obtain ⟨idx2, h1, h2⟩ := ih (dappend n t idx) hokr
        refine ⟨idx2, ?_, ?_⟩
        · simp only [httLoop, httLoop_skip_cond, hskip, Bool.false_eq_true, if_false, hn,
            if_neg hneg]
          exact h1
        · rw [h2, dlookup_dappend, List.filter_cons]
          by_cases h0 : n = 0
          · subst h0
            have hroot : isRootTok t = true := by
              simp [isRootTok, hskip, hn]
            simp [hroot]
          · have hroot : isRootTok t = false := by
              simp only [isRootTok, hskip, Bool.not_false, Bool.true_and, hn]
              simp
              omega
            simp [hroot, h0]

/-- Claim C7 counterexample: two tokens both have `head = 0`, but the
first is a range-id token that the loop filters out before counting
roots, so `head_to_token` succeeds instead of failing with the
multiple-roots error. -/
theorem claim_C7_cex :
    lookupKV (str "head")
      [(str "id", PyVal.ptup 1 (str "-") 2), (str "head", PyVal.pint 0)] =
      some (.pint 0) ∧
    lookupKV (str "head")
      [(str "id", PyVal.pint 1), (str "head", PyVal.pint 0)] = some (.pint 0) ∧
    head_to_token
      [[(str "id", PyVal.ptup 1 (str "-") 2), (str "head", PyVal.pint 0)],
       [(str "id", PyVal.pint 1), (str "head", PyVal.pint 0)]] =
      .ok [(0, [[(str "id", PyVal.pint 1), (str "head", PyVal.pint 0)]])] ∧
    head_to_token
      [[(str "id", PyVal.ptup 1 (str "-") 2), (str "head", PyVal.pint 0)],
       [(str "id", PyVal.pint 1), (str "head", PyVal.pint 0)]] ≠
      .error (.parseException "Can\x27t parse tree, found multiple root nodes.") :=
  ⟨by decide, by decide, by decide, by decide⟩

/-- Claim C7 (amended): `build_dependency_index` fails with the no-root
error when zero retained tokens (those not filtered out for a non-`int`
id, with a nonnegative `int` head) have `head = 0`, fails with the
multiple-roots error when more than one retained token has `head = 0`,
and fails with the missing-`head` error when the first record lacks a
`head` field. -/
theorem claim_C7_roots (t0 : Token) (rest : List Token) :
    (lookupKV (str "head") t0 = none →
      head_to_token (t0 :: rest) =
        .error (.parseException "Can\x27t parse tree, missing \x27head\x27 field.")) ∧
    ((∀ t ∈ t0 :: rest, headOkTok t = true) → lookupKV (str "head") t0 ≠ none →
      (((t0 :: rest).filter isRootTok).length = 0 →
        head_to_token (t0 :: rest) =
          .error (.parseException "Found no head node, can\x27t build tree")) ∧
      (((t0 :: rest).filter isRootTok).length > 1 →
        head_to_token (t0 :: rest) =
          .error (.parseException "Can\x27t parse tree, found multiple root nodes."))) := by
  constructor
  · intro hmiss
    simp only [head_to_token, if_pos hmiss]
  · intro hok hpres
    obtain ⟨idx2, hloop, hroots⟩ := httLoop_roots (t0 :: rest) [] hok
    have hdl : dlookup 0 idx2 = (t0 :: rest).filter isRootTok := by
      simpa [dlookup] using hroots
    constructor
    · intro hzero
      simp only [head_to_token, if_neg hpres, hloop, hdl, hzero]
      simp
    · intro hmore
      simp only [head_to_token, if_neg hpres, hloop, hdl]
      rw [if_neg (by omega), if_pos hmore]

/-- Claim C7 witness: the amended multiple-roots condition at a concrete
two-root sentence. -/
theorem claim_C7_witness :
    head_to_token
      [[(str "id", PyVal.pint 1), (str "head", PyVal.pint 0)],
       [(str "id", PyVal.pint 2), (str "head", PyVal.pint 0)]] =
      .error (.parseException "Can\x27t parse tree, found multiple root nodes.") :=
  ((claim_C7_roots [(str "id", PyVal.pint 1), (str "head", PyVal.pint 0)]
      [[(str "id", PyVal.pint 2), (str "head", PyVal.pint 0)]]).2
    (by decide) (by decide)).2 (by decide)

theorem httLoop_err_kind (ts : List Token) : ∀ (idx : List (Int × List Token)) (e : PyErr),
    httLoop ts idx = .error e → e = .keyError ∨ e = .typeError := by
  induction ts with
  | nil => intro idx e h; cases h
  | cons t rest ih =>
    intro idx e h
    unfold httLoop at h
    split at h
    · exact ih idx e h
    · split at h
      · cases h; exact Or.inl rfl
      · split at h
        · exact ih idx e h
        · exact ih _ e h
      · cases h; exact Or.inr rfl

theorem httLoop_mem (ts : List Token) : ∀ (idx idx2 : List (Int × List Token)),
    httLoop ts idx = .ok idx2 →
    ∀ (k : Int) (t : Token), t ∈ dlookup k idx2 →
      t ∈ dlookup k idx ∨
        (t ∈ ts ∧ skipById t = false ∧
          lookupKV (str "head") t = some (.pint k) ∧ 0 ≤ k) := by
  induction ts with
  | nil =>
    intro idx idx2 h k t hm
    cases h
    exact Or.inl hm
  | cons u rest ih =>
    intro idx idx2 h k t hm
    unfold httLoop at h
    split at h
    · rename_i hskip
      rcases ih idx idx2 h k t hm with hin | ⟨h1, h2, h3, h4⟩
      · exact Or.inl hin
      · exact Or.inr ⟨List.mem_cons_of_mem u h1, h2, h3, h4⟩
    · rename_i hnoskip
      split at h
      · cases h
      · rename_i n hn
        split at h
        · rcases ih idx idx2 h k t hm with hin | ⟨h1, h2, h3, h4⟩
          · exact Or.inl hin
          · exact Or.inr ⟨List.mem_cons_of_mem u h1, h2, h3, h4⟩
        · rename_i hneg
          rcases ih _ idx2 h k t hm with hin | ⟨h1, h2, h3, h4⟩
          · rw [dlookup_dappend] at hin
            by_cases hk : n = k
            · rw [if_pos hk] at hin
              rcases List.mem_append.mp hin with hin | hin
              · exact Or.inl hin
              · have ht : t = u := List.mem_singleton.mp hin
                subst ht
                refine Or.inr ⟨List.mem_cons_self t rest, ?_, hk ▸ hn, by omega⟩
                rw [← httLoop_skip_cond t]
                simpa using hnoskip
            · rw [if_neg hk] at hin
              exact Or.inl hin
          · exact Or.inr ⟨List.mem_cons_of_mem u h1, h2, h3, h4⟩
      · cases h

/-- Claim C10: `build_dependency_index` checks only the first token
record for the presence of the `head` field (a later token lacking it
never produces the missing-`head` format error), and silently omits from
the returned index every token whose `id` value is not a plain `int` and
every token whose `head` value is a negative `int` — such tokens never
appear as dependents in any bucket of the index. -/
theorem claim_C10_index_filter :
    (∀ (t0 : Token) (rest : List Token),
      lookupKV (str "head") t0 ≠ none →
      head_to_token (t0 :: rest) ≠
        .error (.parseException "Can\x27t parse tree, missing \x27head\x27 field.")) ∧
    (∀ (sentence : List Token) (idx : List (Int × List Token)),
      head_to_token sentence = .ok idx →
      ∀ t ∈ sentence, (skipById t = true ∨ negHeadTok t = true) →
      ∀ k : Int, t ∉ dlookup k idx) := by
  constructor
  · intro t0 rest hpres hcontra
    simp only [head_to_token, if_neg hpres] at hcontra
    cases hl : httLoop (t0 :: rest) [] with
    | error e =>
      rw [hl] at hcontra
      rcases httLoop_err_kind (t0 :: rest) [] e hl with rfl | rfl
      · exact absurd hcontra (by decide)
      · exact absurd hcontra (by decide)
    | ok idx =>
      rw [hl] at hcontra
      dsimp only at hcontra
      split_ifs at hcontra with hc1 hc2
      all_goals
        first
          | cases hcontra
          | (injection hcontra with hmsg
             injection hmsg with hmsg
             exact absurd hmsg (by decide))
  · intro sentence idx hok t ht hbad k hmem
    cases sentence with
    | nil => cases hok
    | cons t0 rest =>
      simp only [head_to_token] at hok
      split at hok
      · cases hok
      · cases hl : httLoop (t0 :: rest) [] with
        | error e => rw [hl] at hok; cases hok
        | ok idx1 =>
          rw [hl] at hok
          dsimp only at hok
          split_ifs at hok with hc1 hc2
          all_goals try cases hok
          all_goals
            rcases httLoop_mem (t0 :: rest) [] idx hl k t hmem with hin | ⟨h1, h2, h3, h4⟩
            · simp [dlookup] at hin
            · rcases hbad with hbad | hbad
              · rw [h2] at hbad
                cases hbad
              · unfold negHeadTok at hbad
                rw [h3] at hbad
                simp only [decide_eq_true_eq] at hbad
                omega

/-- Claim C10 witness: the omission applied at a concrete sentence whose
first token has a range id. -/
theorem claim_C10_witness :
    [(str "id", PyVal.ptup 1 (str "-") 2), (str "head", PyVal.pint 0)] ∉
      dlookup 0 [(0, [[(str "id", PyVal.pint 1), (str "head", PyVal.pint 0)]])] :=
  claim_C10_index_filter.2
    [[(str "id", PyVal.ptup 1 (str "-") 2), (str "head", PyVal.pint 0)],
     [(str "id", PyVal.pint 1), (str "head", PyVal.pint 0)]]
    [(0, [[(str "id", PyVal.pint 1), (str "head", PyVal.pint 0)]])]
    (by decide)
    [(str "id", PyVal.ptup 1 (str "-") 2), (str "head", PyVal.pint 0)]
    (by decide) (Or.inl (by decide)) 0

theorem serializeMetaLines_none (md : Metadata) (k : Str)
    (hm : (k, (none : Option Str)) ∈ md) :
    serializeMetaLines md = .error .typeError := by
  induction md with
  | nil => cases hm
  | cons e rest ih =>
    obtain ⟨k2, v⟩ := e
    cases v with
    | none => rfl
    | some s =>
      have hr : (k, (none : Option Str)) ∈ rest := by
        rcases List.mem_cons.mp hm with he | hmm
        · exact absurd (congrArg Prod.snd he) (by simp)
        · exact hmm
      simp only [serializeMetaLines, ih hr]

/-- Claim C9 counterexample: a comment line without `=` whose key has no
default handler contributes nothing — `# foo` yields empty metadata, not
a key mapped to `None` — so parsing does not produce a `None`-valued
entry for every such comment line, only for the handler-backed `newdoc`
and `newpar` markers. -/
theorem claim_C9_cex : parse_block (str "# foo") = .ok ([], []) := by decide

/-- Claim C9 (amended): for every sentence whose metadata maps some key
to the absent value `None` — which parsing produces for a `=`-less
`newdoc` or `newpar` comment line, the keys with default handlers (other
`=`-less comments are silently dropped) — `serialize` raises a
`TypeError` from string concatenation (not a FormatError) when building
the metadata line, so such sentences cannot be serialized or
round-tripped. -/
theorem claim_C9_meta_none :
    (∀ (tokens : List Token) (md : Metadata) (k : Str),
      (k, (none : Option Str)) ∈ md → serialize tokens md = .error .typeError) ∧
    parse_block (str "# newdoc\n1\tx") =
      .ok ([[(str "id", .pint 1), (str "form", .pstr (str "x"))]],
           [(str "newdoc", none)]) := by
  constructor
  · intro tokens md k hm
    unfold serialize
    rw [serializeMetaLines_none md k hm]
  · decide

/-- Claim C9 witness: the serializer applied to a concrete `None`-valued
metadata mapping. -/
theorem claim_C9_witness : serialize [] [(str "newdoc", none)] = .error .typeError :=
  claim_C9_meta_none.1 [] [(str "newdoc", none)] (str "newdoc") (by decide)

theorem rsf_ne_nil_aux (n : Nat) : ∀ s : Str, s.length ≤ n →
    rsfAux s ≠ [] ∧ rsfSkip s ≠ [] := by
  induction n with
  | zero =>
    intro s hlen
    have : s = [] := by
      cases s with
      | nil => rfl
      | cons c t => simp at hlen
    subst this
    exact ⟨by simp [rsfAux.eq_1], by simp [rsfSkip.eq_1]⟩
  | succ n ih =>
    intro s hlen
    constructor
    · cases s with
      | nil => simp [rsfAux.eq_1]
      | cons c rest =>
        by_cases hc : c = '\t'
        · subst hc
          rw [rsfAux.eq_2]
          simp
        · rcases hshape : rest with _ | ⟨d, r2⟩
          · rw [rsfAux.eq_4 c [] (fun he => hc he) (fun r1 _ hco => by cases hco)]
            simp [rsfAux.eq_1]
          · by_cases hsp : c = ' ' ∧ d = ' '
            · obtain ⟨rfl, rfl⟩ := hsp
              rw [rsfAux.eq_3]
              simp
            · have hside : ∀ (r1 : List Char), c = ' ' → d :: r2 = ' ' :: r1 → False := by
                intro r1 hce hde
                injection hde with hd1 _
                exact hsp ⟨hce, hd1⟩
              rw [rsfAux.eq_4 c (d :: r2) (fun he => hc he) hside]
              cases hq : rsfAux (d :: r2) with
              | nil => simp
              | cons h t => simp
    · cases s with
      | nil => simp [rsfSkip.eq_1]
      | cons c rest =>
        by_cases hsp : c = ' '
        · subst hsp
          rw [rsfSkip.eq_2]
          exact (ih rest (by simp at hlen; omega)).2
        · by_cases hc : c = '\t'
          · subst hc
            rw [rsfSkip.eq_3]
            simp
          · rw [rsfSkip.eq_4 c rest (fun he => hsp he) (fun he => hc he)]
            cases hq : rsfAux rest with
            | nil => simp
            | cons h t => simp

theorem rsfAux_ne_nil (s : Str) : rsfAux s ≠ [] :=
  (rsf_ne_nil_aux s.length s (le_refl _)).1

theorem rsfSkip_ne_nil (s : Str) : rsfSkip s ≠ [] :=
  (rsf_ne_nil_aux s.length s (le_refl _)).2

theorem getLast?_cons_of_ne (a : α) (l : List α) (h : l ≠ []) :
    (a :: l).getLast? = l.getLast? := by
  cases l with
  | nil => exact absurd rfl h
  | cons b t => simp [List.getLast?_cons_cons]

theorem rsf_master (n : Nat) : ∀ s : Str, s.length ≤ n →
    ((∀ p ∈ rsfAux s, '\t' ∉ p ∧ noDbl p = true ∧ ∀ c ∈ p, c ∈ s) ∧
     ((rsfAux s).headD [] = [] ∨ ((rsfAux s).headD []).head? = s.head?) ∧
     (∀ c : Char, s.getLast? = some c → isPyWS c = false →
       ∃ q, (rsfAux s).getLast? = some q ∧ q ≠ [] ∧ q.getLast? = some c)) ∧
    ((∀ p ∈ rsfSkip s, '\t' ∉ p ∧ noDbl p = true ∧ ∀ c ∈ p, c ∈ s) ∧
     (∀ c : Char, s.getLast? = some c → isPyWS c = false →
       ∃ q, (rsfSkip s).getLast? = some q ∧ q ≠ [] ∧ q.getLast? = some c)) := by
  induction n with
  | zero =>
    intro s hlen
    have hs : s = [] := by
      cases s with
      | nil => rfl
      | cons c t => simp at hlen
    subst hs
    refine ⟨⟨?_, ?_, ?_⟩, ?_, ?_⟩
    · intro p hp
      rw [rsfAux.eq_1] at hp
      simp only [List.mem_singleton] at hp
      subst hp
      exact ⟨by simp, rfl, by simp⟩
    · rw [rsfAux.eq_1]; left; rfl
    · intro c hc; simp at hc
    · intro p hp
      rw [rsfSkip.eq_1] at hp
      simp only [List.mem_singleton] at hp
      subst hp
      exact ⟨by simp, rfl, by simp⟩
    · intro c hc; simp at hc
  | succ n ih =>
    intro s hlen
    constructor
    · -- rsfAux part
      cases s with
      | nil =>
        refine ⟨?_, ?_, ?_⟩
        · intro p hp
          rw [rsfAux.eq_1] at hp
          simp only [List.mem_singleton] at hp
          subst hp
          exact ⟨by simp, rfl, by simp⟩
        · rw [rsfAux.eq_1]; left; rfl
        · intro c hc; simp at hc
      | cons c rest =>
        have hrest : rest.length ≤ n := by simp at hlen; omega
        by_cases hc : c = '\t'
        · subst hc
          rw [rsfAux.eq_2]
          obtain ⟨⟨hA, hC, hD⟩, hA', hD'⟩ := ih rest hrest
          refine ⟨?_, ?_, ?_⟩
          · intro p hp
            rcases List.mem_cons.mp hp with rfl | hp
            · exact ⟨by simp, rfl, by simp⟩
            · obtain ⟨h1, h2, h3⟩ := hA p hp
              exact ⟨h1, h2, fun x hx => List.mem_cons_of_mem _ (h3 x hx)⟩
          · left; rfl
          · intro e he hws
            cases rest with
            | nil => simp at he; subst he; simp [isPyWS] at hws
            | cons d r2 =>
              have he2 : (d :: r2).getLast? = some e := by
                rw [← he]
                simp [List.getLast?_cons_cons]
              obtain ⟨q, hq1, hq2, hq3⟩ := hD e he2 hws
              refine ⟨q, ?_, hq2, hq3⟩
              rw [getLast?_cons_of_ne _ _ (rsfAux_ne_nil (d :: r2))]
              exact hq1
        · rcases hshape : rest with _ | ⟨d, r2⟩
          · -- single character s = [c]
            rw [rsfAux.eq_4 c [] (fun he => hc he) (fun r1 _ hco => by cases hco)]
            rw [rsfAux.eq_1]
            refine ⟨?_, ?_, ?_⟩
            · intro p hp
              simp only [List.mem_singleton] at hp
              subst hp
              refine ⟨?_, ?_, ?_⟩
              · simp only [List.mem_singleton]
                exact fun he => hc he.symm
              · rfl
              · intro x hx; simpa using hx
            · right; rfl
            · intro e he hws
              simp only [List.getLast?_singleton] at he ⊢
              injection he with he
              exact ⟨[c], rfl, by simp, by simpa using he⟩
          · by_cases hsp : c = ' ' ∧ d = ' '
            · obtain ⟨rfl, rfl⟩ := hsp
              rw [rsfAux.eq_3]
              have hr2 : r2.length ≤ n := by
                have := hshape ▸ hrest
                simp at this
                omega
              obtain ⟨hAx, ⟨hA', hD'⟩⟩ := ih r2 hr2
              refine ⟨?_, ?_, ?_⟩
              · intro p hp
                rcases List.mem_cons.mp hp with rfl | hp
                · exact ⟨by simp, rfl, by simp⟩
                · obtain ⟨h1, h2, h3⟩ := hA' p hp
                  refine ⟨h1, h2, fun x hx => ?_⟩
                  simp [h3 x hx]
              · left; rfl
              · intro e he hws
                cases r2 with
                | nil =>
                  simp [List.getLast?_cons_cons] at he
                  subst he
                  simp [isPyWS] at hws
                | cons f r3 =>
                  have he2 : (f :: r3).getLast? = some e := by
                    rw [← he]
                    simp [List.getLast?_cons_cons]
                  obtain ⟨q, hq1, hq2, hq3⟩ := hD' e he2 hws
                  refine ⟨q, ?_, hq2, hq3⟩
                  rw [getLast?_cons_of_ne _ _ (rsfSkip_ne_nil (f :: r3))]
                  exact hq1
            · have hside : ∀ (r1 : List Char), c = ' ' → d :: r2 = ' ' :: r1 → False := by
                intro r1 hce hde
                injection hde with hd1 _
                exact hsp ⟨hce, hd1⟩
              rw [rsfAux.eq_4 c (d :: r2) (fun he => hc he) hside]
              have hr : (d :: r2).length ≤ n := hshape ▸ hrest
              obtain ⟨⟨hA, hC, hD⟩, hA', hD'⟩ := ih (d :: r2) hr
              cases hq : rsfAux (d :: r2) with
              | nil => exact absurd hq (rsfAux_ne_nil _)
              | cons h t =>
                refine ⟨?_, ?_, ?_⟩
                · intro p hp
                  rcases List.mem_cons.mp hp with rfl | hp
                  · have hmemh := hA h (hq ▸ List.mem_cons_self h t)
                    refine ⟨?_, ?_, ?_⟩
                    · simp only [List.mem_cons]
                      push_neg
                      exact ⟨fun he => hc he.symm, hmemh.1⟩
                    · -- noDbl (c :: h): seam uses the head fact
                      cases hh : h with
                      | nil => rfl
                      | cons x h' =>
                        have hx : x = d := by
                          rw [hq, hh] at hC
                          rcases hC with hC | hC
                          · simp at hC
                          · simp only [List.headD_cons, List.head?_cons] at hC
                            injection hC
                        have hnd : noDbl (x :: h') = true := by
                          have := hmemh.2.1
                          rwa [hh] at this
                        simp only [noDbl, Bool.and_eq_true]
                        refine ⟨?_, hnd⟩
                        simp only [Bool.not_eq_eq_eq_not, Bool.not_true, Bool.and_eq_false_iff]
                        by_cases hce : c = ' '
                        · right
                          have : ¬ x = ' ' := fun hde => hsp ⟨hce, hx.symm.trans hde⟩
                          simpa using this
                        · left
                          simpa using hce
                    · intro x hx
                      rcases List.mem_cons.mp hx with rfl | hx
                      · exact List.mem_cons_self x _
                      · exact List.mem_cons_of_mem c ((hmemh.2.2) x hx)
                  · obtain ⟨h1, h2, h3⟩ := hA p (hq ▸ List.mem_cons_of_mem h hp)
                    exact ⟨h1, h2, fun x hx => List.mem_cons_of_mem c (h3 x hx)⟩
                · right
                  simp
                · intro e he hws
                  have he2 : (d :: r2).getLast? = some e := by
                    rw [← he]
                    simp [List.getLast?_cons_cons]
                  obtain ⟨q, hq1, hq2, hq3⟩ := hD e he2 hws
                  rw [hq] at hq1
                  show ∃ q2, ((c :: h) :: t).getLast? = some q2 ∧ q2 ≠ [] ∧ List.getLast? q2 = some e
                  cases t with
                  | nil =>
                    simp only [List.getLast?_singleton, Option.some_inj] at hq1 ⊢
                    refine ⟨c :: h, rfl, by simp, ?_⟩
                    have hne : h ≠ [] := by rw [hq1]; exact hq2
                    rw [getLast?_cons_of_ne _ _ hne, hq1]
                    exact hq3
                  | cons t0 ts =>
                    have hlast : (t0 :: ts).getLast? = some q := by
                      rw [← hq1]
                      simp [List.getLast?_cons_cons]
                    refine ⟨q, ?_, hq2, hq3⟩
                    rw [List.getLast?_cons_cons]
                    exact hlast
    · -- rsfSkip part
      cases s with
      | nil =>
        refine ⟨?_, ?_⟩
        · intro p hp
          rw [rsfSkip.eq_1] at hp
          simp only [List.mem_singleton] at hp
          subst hp
          exact ⟨by simp, rfl, by simp⟩
        · intro c hc; simp at hc
      | cons c rest =>
        have hrest : rest.length ≤ n := by simp at hlen; omega
        by_cases hsp2 : c = ' '
        · subst hsp2
          rw [rsfSkip.eq_2]
          obtain ⟨hAx, ⟨hA', hD'⟩⟩ := ih rest hrest
          refine ⟨?_, ?_⟩
          · intro p hp
            obtain ⟨h1, h2, h3⟩ := hA' p hp
            exact ⟨h1, h2, fun x hx => List.mem_cons_of_mem _ (h3 x hx)⟩
          · intro e he hws
            cases rest with
            | nil => simp at he; subst he; simp [isPyWS] at hws
            | cons d r2 =>
              have he2 : (d :: r2).getLast? = some e := by
                rw [← he]
                simp [List.getLast?_cons_cons]
              exact hD' e he2 hws
        · by_cases hc : c = '\t'
          · subst hc
            rw [rsfSkip.eq_3]
            obtain ⟨⟨hA, hC, hD⟩, _⟩ := ih rest hrest
            refine ⟨?_, ?_⟩
            · intro p hp
              rcases List.mem_cons.mp hp with rfl | hp
              · exact ⟨by simp, rfl, by simp⟩
              · obtain ⟨h1, h2, h3⟩ := hA p hp
                exact ⟨h1, h2, fun x hx => List.mem_cons_of_mem _ (h3 x hx)⟩
            · intro e he hws
              cases rest with
              | nil => simp at he; subst he; simp [isPyWS] at hws
              | cons d r2 =>
                have he2 : (d :: r2).getLast? = some e := by
                  rw [← he]
                  simp [List.getLast?_cons_cons]
                obtain ⟨q, hq1, hq2, hq3⟩ := hD e he2 hws
                refine ⟨q, ?_, hq2, hq3⟩
                rw [getLast?_cons_of_ne _ _ (rsfAux_ne_nil (d :: r2))]
                exact hq1
          · rw [rsfSkip.eq_4 c rest (fun he => hsp2 he) (fun he => hc he)]
            obtain ⟨⟨hA, hC, hD⟩, _⟩ := ih rest hrest
            cases hq : rsfAux rest with
            | nil => exact absurd hq (rsfAux_ne_nil _)
            | cons h t =>
              refine ⟨?_, ?_⟩
              · intro p hp
                rcases List.mem_cons.mp hp with rfl | hp
                · have hmemh := hA h (hq ▸ List.mem_cons_self h t)
                  refine ⟨?_, ?_, ?_⟩
                  · simp only [List.mem_cons]
                    push_neg
                    exact ⟨fun he => hc he.symm, hmemh.1⟩
                  · cases hh : h with
                    | nil => rfl
                    | cons x h' =>
                      have hnd : noDbl (x :: h') = true := by
                        have := hmemh.2.1
                        rwa [hh] at this
                      simp only [noDbl, Bool.and_eq_true]
                      refine ⟨?_, hnd⟩
                      simp only [Bool.not_eq_eq_eq_not, Bool.not_true, Bool.and_eq_false_iff]
                      left
                      simpa using hsp2
                  · intro x hx
                    rcases List.mem_cons.mp hx with rfl | hx
                    · exact List.mem_cons_self x _
                    · exact List.mem_cons_of_mem c ((hmemh.2.2) x hx)
                · obtain ⟨h1, h2, h3⟩ := hA p (hq ▸ List.mem_cons_of_mem h hp)
                  exact ⟨h1, h2, fun x hx => List.mem_cons_of_mem c (h3 x hx)⟩
              · intro e he hws
                cases rest with
                | nil =>
                  simp only [List.getLast?_singleton] at he
                  injection he with he
                  rw [rsfAux.eq_1] at hq
                  injection hq with hq1 hq2
                  subst hq1 hq2
                  exact ⟨[c], rfl, by simp, by simpa using he⟩
                | cons d r2 =>
                  have he2 : (d :: r2).getLast? = some e := by
                    rw [← he]
                    simp [List.getLast?_cons_cons]
                  obtain ⟨q, hq1, hq2, hq3⟩ := hD e he2 hws
                  rw [hq] at hq1
                  show ∃ q2, ((c :: h) :: t).getLast? = some q2 ∧ q2 ≠ [] ∧ List.getLast? q2 = some e
                  cases t with
                  | nil =>
                    simp only [List.getLast?_singleton, Option.some_inj] at hq1 ⊢
                    refine ⟨c :: h, rfl, by simp, ?_⟩
                    have hne : h ≠ [] := by rw [hq1]; exact hq2
                    rw [getLast?_cons_of_ne _ _ hne, hq1]
                    exact hq3
                  | cons t0 ts =>
                    have hlast : (t0 :: ts).getLast? = some q := by
                      rw [← hq1]
                      simp [List.getLast?_cons_cons]
                    refine ⟨q, ?_, hq2, hq3⟩
                    rw [List.getLast?_cons_cons]
                    exact hlast

theorem noDbl_cons_elim (a b : Char) (t : Str) (h : noDbl (a :: b :: t) = true) :
    ¬(a = ' ' ∧ b = ' ') ∧ noDbl (b :: t) = true := by
  simp only [noDbl, Bool.and_eq_true] at h
  refine ⟨?_, h.2⟩
  rintro ⟨rfl, rfl⟩
  simp at h

theorem noDbl_cons_tail (a : Char) (t : Str) (h : noDbl (a :: t) = true) :
    noDbl t = true := by
  cases t with
  | nil => rfl
  | cons b t' => exact (noDbl_cons_elim a b t' h).2

theorem rsfAux_clean (p : Str) (ht : '\t' ∉ p) (hd : noDbl p = true) :
    rsfAux p = [p] := by
  induction p with
  | nil => rw [rsfAux.eq_1]
  | cons c p' ih =>
    have hc : ¬ c = '\t' := fun he => ht (he ▸ List.mem_cons_self c p')
    have hside : ∀ r1, c = ' ' → p' = ' ' :: r1 → False := by
      intro r1 hce hpe
      subst hce; subst hpe
      exact absurd hd (by simp [noDbl])
    rw [rsfAux.eq_4 c p' (fun he => hc he) hside]
    rw [ih (fun hm => ht (List.mem_cons_of_mem c hm)) (noDbl_cons_tail c p' hd)]

theorem rsfAux_seam (p r : Str) (ht : '\t' ∉ p) (hd : noDbl p = true) :
    rsfAux (p ++ '\t' :: r) = p :: rsfAux r := by
  induction p with
  | nil =>
    simp only [List.nil_append]
    rw [rsfAux.eq_2]
  | cons c p' ih =>
    have hc : ¬ c = '\t' := fun he => ht (he ▸ List.mem_cons_self c p')
    have hside : ∀ r1, c = ' ' → p' ++ '\t' :: r = ' ' :: r1 → False := by
      intro r1 hce hpe
      cases p' with
      | nil =>
        simp only [List.nil_append, List.cons.injEq] at hpe
        exact absurd hpe.1 (by decide)
      | cons d p'' =>
        simp only [List.cons_append, List.cons.injEq] at hpe
        subst hce
        rw [hpe.1] at hd
        exact absurd hd (by simp [noDbl])
    have hstep := rsfAux.eq_4 c (p' ++ '\t' :: r) (fun he => hc he) hside
    rw [List.cons_append, hstep]
    rw [ih (fun hm => ht (List.mem_cons_of_mem c hm)) (noDbl_cons_tail c p' hd)]

theorem resplit_joinSep (parts : List Str) (hne : parts ≠ [])
    (hcl : ∀ p ∈ parts, '\t' ∉ p ∧ noDbl p = true) :
    resplitFields (joinSep ['\t'] parts) = parts := by
  induction parts with
  | nil => exact absurd rfl hne
  | cons p rest ih =>
    cases rest with
    | nil =>
      have := hcl p (List.mem_cons_self p [])
      simpa [resplitFields, joinSep] using rsfAux_clean p this.1 this.2
    | cons q rest' =>
      have hj : joinSep ['\t'] (p :: q :: rest') = p ++ '\t' :: joinSep ['\t'] (q :: rest') := by
        simp [joinSep]
      have hp := hcl p (List.mem_cons_self _ _)
      show rsfAux _ = _
      rw [hj, rsfAux_seam p _ hp.1 hp.2]
      congr 1
      exact ih (by simp) (fun x hx => hcl x (List.mem_cons_of_mem p hx))

theorem odInsert_fresh (k : Str) (v : α) (m : List (Str × α))
    (h : k ∉ m.map Prod.fst) : odInsert k v m = m ++ [(k, v)] := by
  induction m with
  | nil => rfl
  | cons e rest ih =>
    obtain ⟨k2, v2⟩ := e
    simp only [List.map_cons, List.mem_cons] at h
    push_neg at h
    simp only [odInsert, if_neg (fun he : k2 = k => h.1 he.symm)]
    rw [ih h.2]
    simp

theorem odInsert_keys_mem (k : Str) (v : α) (m : List (Str × α))
    (h : k ∈ m.map Prod.fst) : (odInsert k v m).map Prod.fst = m.map Prod.fst := by
  induction m with
  | nil => simp at h
  | cons e rest ih =>
    obtain ⟨k2, v2⟩ := e
    by_cases he : k2 = k
    · subst he
      simp only [odInsert, if_true, List.map_cons]
    · simp only [List.map_cons, List.mem_cons] at h
      rcases h with h | h
      · exact absurd h.symm he
      · simp only [odInsert, if_neg he, List.map_cons, ih h]

theorem odInsert_nodup (k : Str) (v : α) (m : List (Str × α))
    (h : (m.map Prod.fst).Nodup) : ((odInsert k v m).map Prod.fst).Nodup := by
  by_cases hm : k ∈ m.map Prod.fst
  · rwa [odInsert_keys_mem k v m hm]
  · rw [odInsert_fresh k v m hm]
    simp only [List.map_append, List.map_cons, List.map_nil]
    refine List.Nodup.append h (List.nodup_singleton k) ?_
    intro a ha hb
    simp only [List.mem_singleton] at hb
    subst hb
    exact hm ha

theorem odInsert_mem (k : Str) (v : α) (m : List (Str × α)) :
    ∀ e ∈ odInsert k v m, e = (k, v) ∨ e ∈ m := by
  induction m with
  | nil =>
    intro e he
    simp only [odInsert, List.mem_singleton] at he
    exact Or.inl he
  | cons f rest ih =>
    obtain ⟨k2, v2⟩ := f
    intro e he
    by_cases hk : k2 = k
    · subst hk
      simp only [odInsert, if_pos rfl] at he
      rcases List.mem_cons.mp he with rfl | he
      · exact Or.inl rfl
      · exact Or.inr (List.mem_cons_of_mem _ he)
    · simp only [odInsert, if_neg hk] at he
      rcases List.mem_cons.mp he with rfl | he
      · exact Or.inr (List.mem_cons_self _ _)
      · rcases ih e he with h | h
        · exact Or.inl h
        · exact Or.inr (List.mem_cons_of_mem _ h)

theorem odFold_mem (l : List (Str × α)) :
    ∀ (acc : List (Str × α)) e, e ∈ l.foldl (fun m kv => odInsert kv.1 kv.2 m) acc →
      e ∈ acc ∨ e ∈ l := by
  induction l with
  | nil =>
    intro acc e he
    exact Or.inl he
  | cons f rest ih =>
    intro acc e he
    simp only [List.foldl_cons] at he
    rcases ih _ e he with h | h
    · rcases odInsert_mem f.1 f.2 acc e h with h2 | h2
      · exact Or.inr (by simp [h2])
      · exact Or.inl h2
    · exact Or.inr (List.mem_cons_of_mem _ h)

theorem odOfList_mem (l : List (Str × α)) (e : Str × α) (he : e ∈ odOfList l) : e ∈ l := by
  rcases odFold_mem l [] e he with h | h
  · simp at h
  · exact h

theorem odFold_nodup (l : List (Str × α)) :
    ∀ acc : List (Str × α), (acc.map Prod.fst).Nodup →
      ((l.foldl (fun m kv => odInsert kv.1 kv.2 m) acc).map Prod.fst).Nodup := by
  induction l with
  | nil => intro acc h; exact h
  | cons f rest ih =>
    intro acc h
    exact ih _ (odInsert_nodup f.1 f.2 acc h)

theorem odOfList_nodup (l : List (Str × α)) : ((odOfList l).map Prod.fst).Nodup :=
  odFold_nodup l [] (by simp)

theorem odFold_self (l : List (Str × α)) :
    ∀ acc : List (Str × α), ((l.map Prod.fst).Nodup) →
      (∀ e ∈ l, e.1 ∉ acc.map Prod.fst) →
      l.foldl (fun m kv => odInsert kv.1 kv.2 m) acc = acc ++ l := by
  induction l with
  | nil =>
    intro acc _ _
    simp
  | cons f rest ih =>
    intro acc hnd hfr
    rw [List.map_cons, List.nodup_cons] at hnd
    have hnd' : (rest.map Prod.fst).Nodup := hnd.2
    have hhd : f.1 ∉ rest.map Prod.fst := hnd.1
    simp only [List.foldl_cons]
    rw [odInsert_fresh f.1 f.2 acc (hfr f (List.mem_cons_self f rest))]
    rw [ih (acc ++ [(f.1, f.2)]) hnd' ?fresh]
    · simp
    case fresh =>
      intro e he
      simp only [List.map_append, List.mem_append]
      push_neg
      refine ⟨hfr e (List.mem_cons_of_mem f he), ?_⟩
      simp only [List.map_cons, List.map_nil, List.mem_singleton]
      intro hcon
      refine hhd ?_
      rw [← hcon]
      exact List.mem_map_of_mem Prod.fst he

theorem odOfList_self (l : List (Str × α)) (h : (l.map Prod.fst).Nodup) :
    odOfList l = l := by
  have := odFold_self l [] h (by simp)
  simpa [odOfList] using this

theorem getLast?_append_ne (a b : List α) (hb : b ≠ []) :
    (a ++ b).getLast? = b.getLast? := by
  induction a with
  | nil => rfl
  | cons x a' ih =>
    rw [List.cons_append, getLast?_cons_of_ne x (a' ++ b) (by simp [hb]), ih]

theorem joinSep_append_part (d : α) (p : List α) (rest : List (List α)) :
    ∃ v, joinSep [d] (p :: rest) = p ++ v ∧ (rest = [] → v = []) := by
  cases rest with
  | nil => exact ⟨[], by simp [joinSep], fun _ => rfl⟩
  | cons q t => exact ⟨d :: joinSep [d] (q :: t), by simp [joinSep], by simp⟩

theorem mem_joinSep (d : α) (parts : List (List α)) (c : α)
    (hc : c ∈ joinSep [d] parts) : c = d ∨ ∃ p ∈ parts, c ∈ p := by
  induction parts with
  | nil => simp [joinSep] at hc
  | cons p rest ih =>
    cases rest with
    | nil =>
      simp only [joinSep] at hc
      exact Or.inr ⟨p, List.mem_cons_self p [], hc⟩
    | cons q t =>
      have hj : joinSep [d] (p :: q :: t) = p ++ d :: joinSep [d] (q :: t) := by
        simp [joinSep]
      rw [hj] at hc
      rcases List.mem_append.mp hc with h | h
      · exact Or.inr ⟨p, List.mem_cons_self _ _, h⟩
      · rcases List.mem_cons.mp h with rfl | h
        · exact Or.inl rfl
        · rcases ih h with h2 | ⟨x, hx, hcx⟩
          · exact Or.inl h2
          · exact Or.inr ⟨x, List.mem_cons_of_mem p hx, hcx⟩

theorem joinSep_snoc_getLast (d : α) (parts : List (List α)) (q : List α)
    (hq : q ≠ []) : (joinSep [d] (parts ++ [q])).getLast? = q.getLast? := by
  induction parts with
  | nil => simp [joinSep]
  | cons p rest ih =>
    have hj : joinSep [d] ((p :: rest) ++ [q]) = p ++ d :: joinSep [d] (rest ++ [q]) := by
      cases rest <;> simp [joinSep]
    rw [hj, getLast?_append_ne p _ (by simp)]
    have hsome : (joinSep [d] (rest ++ [q])).getLast?.isSome := by
      rw [ih]
      exact List.getLast?_isSome.mpr hq
    rw [getLast?_cons_of_ne d _ (List.getLast?_isSome.mp hsome)]
    exact ih

theorem noDbl_joinSep (d : Char) (hd : ¬ d = ' ') (parts : List Str)
    (h : ∀ p ∈ parts, noDbl p = true) : noDbl (joinSep [d] parts) = true := by
  induction parts with
  | nil => rfl
  | cons p rest ih =>
    cases rest with
    | nil => simpa [joinSep] using h p (List.mem_cons_self p [])
    | cons q t =>
      have hj : joinSep [d] (p :: q :: t) = p ++ d :: joinSep [d] (q :: t) := by
        simp [joinSep]
      rw [hj]
      exact noDbl_join p _ d hd (h p (List.mem_cons_self _ _))
        (ih (fun x hx => h x (List.mem_cons_of_mem p hx)))

theorem filterMap_id_of (l : List β) (f : β → Option β) (h : ∀ e ∈ l, f e = some e) :
    l.filterMap f = l := by
  induction l with
  | nil => rfl
  | cons e rest ih =>
    rw [List.filterMap_cons, h e (List.mem_cons_self e rest),
      ih (fun x hx => h x (List.mem_cons_of_mem e hx))]

theorem dictPairOf_piece (k w : Str) (hk : '=' ∉ k) (hw : '=' ∉ w)
    (hkne : k ≠ []) (hkp : k ≠ ['_']) :
    dictPairOf (k ++ '=' :: w) = some (k, parse_nullable_value w) := by
  have hs : splitChar '=' (k ++ '=' :: w) = [k, w] := splitChar_two_pieces '=' k w hk hw
  have hnn : ¬ parse_nullable_value k = none := by
    rw [nullable_none_iff]
    push_neg
    exact ⟨hkne, hkp⟩
  simp only [dictPairOf, hs, List.headD_cons, if_neg hnn]
  rw [if_pos (by simp)]
  rfl

theorem serialize_pdict_replay (es : List (Str × Option Str))
    (hne : es ≠ [])
    (hnd : (es.map Prod.fst).Nodup)
    (hwf : ∀ e ∈ es, WFdictEntry e)
    (hok : ∀ e ∈ es, ∀ s, e.2 = some s → s ≠ []) :
    parse_dict_value (joinSep ['|'] (es.map (fun kv => kv.1 ++ ['='] ++ kv.2.getD ['_']))) =
      .ok (.pdict es) := by
  obtain ⟨e0, rest, rfl⟩ : ∃ e0 rest, es = e0 :: rest := by
    cases es with
    | nil => exact absurd rfl hne
    | cons a b => exact ⟨a, b, rfl⟩
  set es := e0 :: rest with hes
  have eachPiece : ∀ e ∈ es,
      (e.1 ++ ['='] ++ e.2.getD ['_']) = e.1 ++ '=' :: e.2.getD ['_'] := by
    intro e _
    simp
  have hwratio : ∀ e ∈ es, '=' ∉ e.2.getD ['_'] ∧ '|' ∉ e.2.getD ['_'] ∧
      e.2.getD ['_'] ≠ [] ∧ parse_nullable_value (e.2.getD ['_']) = e.2 := by
    intro e he
    obtain ⟨-, -, -, -, -, hval⟩ := hwf e he
    cases hv : e.2 with
    | none =>
      refine ⟨by decide, by decide, by decide, ?_⟩
      rw [nullable_none_iff]
      simp [Option.getD]
    | some s =>
      obtain ⟨hcl, hsp, hseq, hspipe⟩ := hval s hv
      have hsne : s ≠ [] := hok e he s hv
      refine ⟨by simpa using hseq, by simpa using hspipe, by simpa using hsne, ?_⟩
      simp only [Option.getD_some]
      unfold parse_nullable_value
      rw [if_neg (by push_neg; exact ⟨hsne, by simpa using hsp⟩)]
  have hkfacts : ∀ e ∈ es, '=' ∉ e.1 ∧ '|' ∉ e.1 ∧ e.1 ≠ [] ∧ e.1 ≠ ['_'] := by
    intro e he
    obtain ⟨hcl, hne1, hnp, hne2, hnp2, -⟩ := hwf e he
    exact ⟨hne2, hnp2, hne1, by simpa using hnp⟩
  have hpair : ∀ e ∈ es, dictPairOf (e.1 ++ ['='] ++ e.2.getD ['_']) = some e := by
    intro e he
    obtain ⟨hk1, hk2, hk3, hk4⟩ := hkfacts e he
    obtain ⟨hw1, hw2, hw3, hw4⟩ := hwratio e he
    rw [eachPiece e he, dictPairOf_piece e.1 _ hk1 hw1 hk3 hk4, hw4]
  -- the joined string and its split
  have hsplit : splitChar '|' (joinSep ['|'] (es.map (fun kv => kv.1 ++ ['='] ++ kv.2.getD ['_']))) =
      es.map (fun kv => kv.1 ++ ['='] ++ kv.2.getD ['_']) := by
    apply splitOnP_joinSep
    · simp [hes]
    · simp
    · intro pt hpt x hx
      obtain ⟨e, he, rfl⟩ := List.mem_map.mp hpt
      show (x == '|') = false
      apply beq_eq_false_iff_ne.mpr
      intro hxp
      subst hxp
      rcases List.mem_append.mp hx with h | h
      · rcases List.mem_append.mp h with h | h
        · exact (hkfacts e he).2.1 h
        · simp at h
      · exact (hwratio e he).2.1 h
  have hlen2 : 2 ≤ (joinSep ['|'] (es.map (fun kv => kv.1 ++ ['='] ++ kv.2.getD ['_']))).length := by
    obtain ⟨v, hv, -⟩ := joinSep_append_part '|' (e0.1 ++ ['='] ++ e0.2.getD ['_'])
      (rest.map (fun kv => kv.1 ++ ['='] ++ kv.2.getD ['_']))
    rw [hes, List.map_cons, hv]
    have h1 : e0.1 ≠ [] := (hkfacts e0 (List.mem_cons_self _ _)).2.2.1
    cases hc : e0.1 with
    | nil => exact absurd hc h1
    | cons a t =>
      simp [hc]
      omega
  have hnn : ¬ parse_nullable_value
      (joinSep ['|'] (es.map (fun kv => kv.1 ++ ['='] ++ kv.2.getD ['_']))) = none := by
    rw [nullable_none_iff]
    push_neg
    constructor
    · intro hnil
      rw [hnil] at hlen2
      simp at hlen2
    · intro hu
      rw [hu] at hlen2
      simp at hlen2
  unfold parse_dict_value
  rw [if_neg hnn, hsplit, List.filterMap_map]
  have hfm : es.filterMap ((fun part => dictPairOf part) ∘ (fun kv => kv.1 ++ ['='] ++ kv.2.getD ['_'])) = es := by
    apply filterMap_id_of
    intro e he
    exact hpair e he
  rw [hfm, odOfList_self es hnd]

theorem relchar_props (c : Char) (h : (c.isAlphanum || c == '_' || c == '-') = true) :
    c ≠ '|' ∧ c ≠ ':' ∧ isPyWS c = false := by
  refine ⟨?_, ?_, ?_⟩
  · rintro rfl
    revert h
    decide
  · rintro rfl
    revert h
    decide
  · cases hb : isPyWS c with
    | false => rfl
    | true =>
      simp only [isPyWS, Bool.or_eq_true, beq_iff_eq] at hb
      rcases hb with ((((h1 | h1) | h1) | h1) | h1) | h1 <;>
        (subst h1; revert h; decide)

theorem matchRelLabel_mem (s : Str) (h : matchRelLabel s = true) :
    s ≠ [] ∧ ∀ c ∈ s, (c.isAlphanum || c == '_' || c == '-') = true := by
  cases s with
  | nil => simp [matchRelLabel] at h
  | cons c t =>
    simp only [matchRelLabel, Bool.and_eq_true] at h
    refine ⟨by simp, ?_⟩
    intro x hx
    rcases List.mem_cons.mp hx with rfl | hx
    · simp [Char.isAlphanum, h.1]
    · have := (List.all_eq_true.mp h.2) x hx
      simpa using this

theorem matchRelFull_mem (s : Str) (h : matchRelFull s = true) :
    s ≠ [] ∧ ∀ c ∈ s, c = ':' ∨ (c.isAlphanum || c == '_' || c == '-') = true := by
  have hj : joinSep [':'] (splitChar ':' s) = s := joinSep_splitChar ':' s
  unfold matchRelFull at h
  constructor
  · intro hnil
    subst hnil
    simp [splitChar, splitOnP, matchRelLabel] at h
  · intro c hc
    rw [← hj] at hc
    rcases mem_joinSep ':' _ c hc with rfl | ⟨p, hp, hcp⟩
    · exact Or.inl rfl
    · refine Or.inr ?_
      revert h
      cases hps : splitChar ':' s with
      | nil =>
        intro h
        simp at h
      | cons r t =>
        cases t with
        | nil =>
          intro h
          rw [hps] at hp
          simp only [List.mem_singleton] at hp
          subst hp
          exact (matchRelLabel_mem p h).2 c hcp
        | cons sub t2 =>
          cases t2 with
          | nil =>
            intro h
            simp only [Bool.and_eq_true] at h
            rw [hps] at hp
            rcases List.mem_cons.mp hp with rfl | hp
            · exact (matchRelLabel_mem p h.1).2 c hcp
            · simp only [List.mem_singleton] at hp
              subst hp
              exact (matchRelLabel_mem p h.2).2 c hcp
          | cons u t3 =>
            intro h
            simp at h

theorem noDbl_of_no_space (s : Str) (h : ' ' ∉ s) : noDbl s = true := by
  induction s with
  | nil => rfl
  | cons a t ih =>
    cases t with
    | nil => rfl
    | cons b t2 =>
      simp only [noDbl, Bool.and_eq_true]
      constructor
      · have ha : a ≠ ' ' := fun he => h (he ▸ List.mem_cons_self a _)
        simp [ha]
      · exact ih (fun hm => h (List.mem_cons_of_mem a hm))

theorem matchRelFull_chars (s : Str) (h : matchRelFull s = true) :
    s ≠ [] ∧ ∀ c ∈ s, isPyWS c = false ∧ c ≠ '|' := by
  obtain ⟨hne, hmem⟩ := matchRelFull_mem s h
  refine ⟨hne, ?_⟩
  intro c hc
  rcases hmem c hc with rfl | hrc
  · exact ⟨by decide, by decide⟩
  · exact ⟨(relchar_props c hrc).2.2, (relchar_props c hrc).1⟩

theorem digit_not_special (c : Char) (h : isDigitCh c = true) :
    isPyWS c = false ∧ c ≠ '|' ∧ c ≠ ':' := by
  refine ⟨?_, ?_, ?_⟩
  · cases hb : isPyWS c with
    | false => rfl
    | true =>
      simp only [isPyWS, Bool.or_eq_true, beq_iff_eq] at hb
      rcases hb with ((((h1 | h1) | h1) | h1) | h1) | h1 <;>
        (subst h1; revert h; decide)
  · rintro rfl
    revert h
    decide
  · rintro rfl
    revert h
    decide

theorem serId_facts (v : PyVal) (hwf : WFidVal v) (hnp : v ≠ .pnone) :
    ∃ sv, serialize_field v = .ok sv ∧ matchAnyId sv = true ∧
      parse_id_value sv = .ok v ∧
      (∀ c ∈ sv, isDigitCh c = true ∨ c = '-' ∨ c = '.') ∧ sv ≠ [] := by
  rcases hwf with rfl | ⟨n, rfl, hn⟩ | ⟨a, b, rfl, ha, hab⟩ | ⟨a, b, rfl, ha, hb⟩
  · exact absurd rfl hnp
  · refine ⟨intToStr n, rfl, ?_, parse_id_value_single n hn, ?_, ?_⟩
    · simp [matchAnyId, matchPos_intToStr n hn]
    · intro c hc
      left
      rw [intToStr_nonneg n (by omega)] at hc
      exact natToStr_digits n.toNat c hc
    · rw [intToStr_nonneg n (by omega)]
      exact natToStr_ne_nil n.toNat
  · have heq : intToStr a ++ str "-" ++ intToStr b = intToStr a ++ '-' :: intToStr b := by
      rw [show (str "-") = ['-'] from rfl, List.append_assoc, List.singleton_append]
    have hxa : '-' ∉ intToStr a := by
      rw [intToStr_nonneg a (by omega)]
      exact mem_natToStr_not_dash a.toNat
    have hxb : '-' ∉ intToStr b := by
      rw [intToStr_nonneg b (by omega)]
      exact mem_natToStr_not_dash b.toNat
    have hsp : splitChar '-' (intToStr a ++ '-' :: intToStr b) = [intToStr a, intToStr b] :=
      splitChar_two_pieces '-' _ _ hxa hxb
    have hrange : matchRange (intToStr a ++ '-' :: intToStr b) = true := by
      rw [matchRange, hsp]
      simp [matchPos_intToStr a ha, matchPos_intToStr b (by omega)]
    refine ⟨intToStr a ++ '-' :: intToStr b, by rw [← heq]; rfl, ?_, serRange a b ha hab, ?_, by simp⟩
    · simp [matchAnyId, hrange]
    · intro c hc
      rcases List.mem_append.mp hc with h | h
      · left
        rw [intToStr_nonneg a (by omega)] at h
        exact natToStr_digits a.toNat c h
      · rcases List.mem_cons.mp h with rfl | h
        · right; left; rfl
        · left
          rw [intToStr_nonneg b (by omega)] at h
          exact natToStr_digits b.toNat c h
  · have heq : intToStr a ++ str "." ++ intToStr b = intToStr a ++ '.' :: intToStr b := by
      rw [show (str ".") = ['.'] from rfl, List.append_assoc, List.singleton_append]
    have hxa : '.' ∉ intToStr a := by
      rw [intToStr_nonneg a (by omega)]
      exact mem_natToStr_not_dot a.toNat
    have hxb : '.' ∉ intToStr b := by
      rw [intToStr_nonneg b (by omega)]
      exact mem_natToStr_not_dot b.toNat
    have hsp : splitChar '.' (intToStr a ++ '.' :: intToStr b) = [intToStr a, intToStr b] :=
      splitChar_two_pieces '.' _ _ hxa hxb
    have hdot : matchDot (intToStr a ++ '.' :: intToStr b) = true := by
      rw [matchDot, hsp]
      have h1 : (intToStr a).isEmpty = false := by
        rw [intToStr_nonneg a (by omega)]
        cases hcc : natToStr a.toNat with
        | nil => exact absurd hcc (natToStr_ne_nil a.toNat)
        | cons x y => simp [hcc]
      have h2 : (intToStr a).all isDigitCh = true := by
        rw [intToStr_nonneg a (by omega)]
        exact List.all_eq_true.mpr (natToStr_digits a.toNat)
      simp [h1, h2, matchPos_intToStr b hb]
    refine ⟨intToStr a ++ '.' :: intToStr b, by rw [← heq]; rfl, ?_, serDot a b ha hb, ?_, by simp⟩
    · simp [matchAnyId, hdot]
    · intro c hc
      rcases List.mem_append.mp hc with h | h
      · left
        rw [intToStr_nonneg a (by omega)] at h
        exact natToStr_digits a.toNat c h
      · rcases List.mem_cons.mp h with rfl | h
        · right; right; rfl
        · left
          rw [intToStr_nonneg b (by omega)] at h
          exact natToStr_digits b.toNat c h

theorem serializePairs_replay (ps : List (Str × PyVal))
    (hwf : ∀ p ∈ ps, matchRelFull p.1 = true ∧ WFidVal p.2 ∧ p.2 ≠ .pnone) :
    ∃ pieces, serializePairs ps = .ok pieces ∧ pieces.length = ps.length ∧
      pairedGroups pieces = .ok ps ∧
      ∀ pc ∈ pieces, matchDepsGroup pc = true ∧ pc ≠ [] ∧
        ∀ c ∈ pc, isPyWS c = false ∧ c ≠ '|' := by
  induction ps with
  | nil => exact ⟨[], rfl, rfl, rfl, by simp⟩
  | cons p rest ih =>
    obtain ⟨k, v⟩ := p
    obtain ⟨hrel, hid, hnp⟩ := hwf (k, v) (List.mem_cons_self _ rest)
    obtain ⟨sv, hser, hany, hpid, hchars, hsvne⟩ := serId_facts v hid hnp
    obtain ⟨pieces, hsp, hlen, hpg, hpc⟩ := ih (fun x hx => hwf x (List.mem_cons_of_mem _ hx))
    have hnocolon : ':' ∉ sv := by
      intro hm
      rcases hchars ':' hm with h | h | h
      · exact absurd ((digit_not_special ':' h).2.2) (by simp)
      · exact absurd h (by decide)
      · exact absurd h (by decide)
    have hshape : sv ++ [':'] ++ k = sv ++ ':' :: k := by
      rw [List.append_assoc, List.singleton_append]
    have hfs : splitFirst ':' (sv ++ ':' :: k) = (sv, some k) :=
      splitFirst_with_sep ':' sv k hnocolon
    refine ⟨(sv ++ ':' :: k) :: pieces, ?_, by simp [hlen], ?_, ?_⟩
    · simp only [serializePairs, hser, hsp, hshape]
    · simp only [pairedGroups, hfs, hpid, hpg]
    · intro pc hpcm
      rcases List.mem_cons.mp hpcm with rfl | hpcm
      · refine ⟨?_, by simp, ?_⟩
        · rw [matchDepsGroup, hfs]
          simp [hany, hrel]
        · intro c hc
          rcases List.mem_append.mp hc with h | h
          · rcases hchars c h with h2 | h2 | h2
            · exact ⟨(digit_not_special c h2).1, (digit_not_special c h2).2.1⟩
            · subst h2; exact ⟨by decide, by decide⟩
            · subst h2; exact ⟨by decide, by decide⟩
          · rcases List.mem_cons.mp h with rfl | h
            · exact ⟨by decide, by decide⟩
            · exact (matchRelFull_chars k hrel).2 c h
      · exact hpc pc hpcm

theorem serialize_plist_replay (p0 : Str × PyVal) (rest : List (Str × PyVal))
    (hwf : ∀ p ∈ p0 :: rest, matchRelFull p.1 = true ∧ WFidVal p.2 ∧ p.2 ≠ .pnone) :
    ∃ d, serialize_field (.plist (p0 :: rest)) = .ok d ∧
      parse_paired_list_value d = .ok (.plist (p0 :: rest)) ∧ d ≠ [] ∧
      ∀ c ∈ d, isPyWS c = false := by
  obtain ⟨pieces, hsp, hlen, hpg, hpc⟩ := serializePairs_replay (p0 :: rest) hwf
  obtain ⟨pc0, prest, rfl⟩ : ∃ pc0 prest, pieces = pc0 :: prest := by
    cases pieces with
    | nil => simp at hlen
    | cons a b => exact ⟨a, b, rfl⟩
  refine ⟨joinSep ['|'] (pc0 :: prest), ?_, ?_, ?_, ?_⟩
  · simp only [serialize_field, hsp]
  · have hsplit : splitChar '|' (joinSep ['|'] (pc0 :: prest)) = pc0 :: prest := by
      apply splitOnP_joinSep
      · simp
      · simp
      · intro pt hpt x hx
        show (x == '|') = false
        exact beq_eq_false_iff_ne.mpr ((hpc pt hpt).2.2 x hx).2
    have hmulti : matchMulti (joinSep ['|'] (pc0 :: prest)) = true := by
      rw [matchMulti, hsplit]
      exact List.all_eq_true.mpr (fun pc hm => (hpc pc hm).1)
    rw [parse_paired_list_value, if_pos hmulti, hsplit, hpg]
  · obtain ⟨v, hv, -⟩ := joinSep_append_part '|' pc0 prest
    rw [hv]
    have := (hpc pc0 (List.mem_cons_self _ _)).2.1
    cases hc : pc0 with
    | nil => exact absurd hc this
    | cons a t => simp
  · intro c hc
    rcases mem_joinSep '|' _ c hc with rfl | ⟨p, hp, hcp⟩
    · decide
    · exact ((hpc p hp).2.2 c hcp).1

theorem mem_of_getLast (l : List α) (a : α) (h : l.getLast? = some a) : a ∈ l := by
  induction l with
  | nil => simp at h
  | cons x t ih =>
    cases t with
    | nil =>
      simp only [List.getLast?_singleton] at h
      injection h with h
      simp [h]
    | cons y t2 =>
      rw [List.getLast?_cons_cons] at h
      exact List.mem_cons_of_mem x (ih h)

theorem intToStr_chars (n : Int) : ∀ c ∈ intToStr n, isDigitCh c = true ∨ c = '-' := by
  intro c hc
  unfold intToStr at hc
  split at hc
  · rcases List.mem_cons.mp hc with rfl | hc
    · exact Or.inr rfl
    · exact Or.inl (natToStr_digits _ c hc)
  · exact Or.inl (natToStr_digits _ c hc)

theorem intToStr_ne_nil (n : Int) : intToStr n ≠ [] := by
  unfold intToStr
  split
  · simp
  · exact natToStr_ne_nil _

theorem intToStr_char_clean (n : Int) :
    ∀ c ∈ intToStr n, isPyWS c = false ∧ c ≠ '\t' ∧ c ≠ '\n' ∧ c ≠ ' ' := by
  intro c hc
  rcases intToStr_chars n c hc with h | h
  · obtain ⟨h1, -, -⟩ := digit_not_special c h
    refine ⟨h1, ?_, ?_, ?_⟩ <;> (rintro rfl; revert h; decide)
  · subst h
    exact ⟨by decide, by decide, by decide, by decide⟩

theorem pieceOf_shape (kv : Str × Option Str) :
    kv.1 ++ ['='] ++ kv.2.getD ['_'] = kv.1 ++ '=' :: kv.2.getD ['_'] := by
  rw [List.append_assoc, List.singleton_append]

theorem pdict_ser_clean (es : List (Str × Option Str))
    (hwf : ∀ e ∈ es, WFdictEntry e) :
    '\t' ∉ joinSep ['|'] (es.map (fun kv => kv.1 ++ ['='] ++ kv.2.getD ['_'])) ∧
    '\n' ∉ joinSep ['|'] (es.map (fun kv => kv.1 ++ ['='] ++ kv.2.getD ['_'])) ∧
    noDbl (joinSep ['|'] (es.map (fun kv => kv.1 ++ ['='] ++ kv.2.getD ['_']))) = true := by
  have hpieceMem : ∀ e ∈ es, ∀ c ∈ e.1 ++ '=' :: e.2.getD ['_'], c ≠ '\t' ∧ c ≠ '\n' := by
    intro e he c hc
    obtain ⟨hclK, -, -, -, -, hval⟩ := hwf e he
    rcases List.mem_append.mp hc with h | h
    · exact ⟨fun hh => hclK.1 (hh ▸ h), fun hh => hclK.2.1 (hh ▸ h)⟩
    · rcases List.mem_cons.mp h with rfl | h
      · exact ⟨by decide, by decide⟩
      · cases hv : e.2 with
        | none =>
          rw [hv] at h
          simp only [Option.getD_none, List.mem_singleton] at h
          subst h
          exact ⟨by decide, by decide⟩
        | some s =>
          rw [hv] at h
          simp only [Option.getD_some] at h
          obtain ⟨hclS, -, -, -⟩ := hval s hv
          exact ⟨fun hh => hclS.1 (hh ▸ h), fun hh => hclS.2.1 (hh ▸ h)⟩
  have hnotab : ∀ c ∈ joinSep ['|'] (es.map (fun kv => kv.1 ++ ['='] ++ kv.2.getD ['_'])),
      c ≠ '\t' ∧ c ≠ '\n' := by
    intro c hc
    rcases mem_joinSep '|' _ c hc with rfl | ⟨p, hp, hcp⟩
    · exact ⟨by decide, by decide⟩
    · obtain ⟨e, he, rfl⟩ := List.mem_map.mp hp
      rw [pieceOf_shape] at hcp
      exact hpieceMem e he c hcp
  refine ⟨fun hm => (hnotab '\t' hm).1 rfl, fun hm => (hnotab '\n' hm).2 rfl, ?_⟩
  apply noDbl_joinSep '|' (by decide)
  intro p hp
  obtain ⟨e, he, rfl⟩ := List.mem_map.mp hp
  rw [pieceOf_shape]
  obtain ⟨hclK, -, -, -, -, hval⟩ := hwf e he
  apply noDbl_join e.1 _ '=' (by decide) hclK.2.2
  cases hv : e.2 with
  | none => rfl
  | some s =>
    simp only [Option.getD_some]
    exact (hval s hv).1.2.2

theorem fieldSer_replay (f : Str) (v : PyVal) (hwf : WFfieldVal f v)
    (hdo : dictFieldOk v = true) :
    ∃ s, serialize_field v = .ok s ∧ fieldValueParse f s = .ok v ∧
      '\t' ∉ s ∧ '\n' ∉ s ∧ noDbl s = true := by
  unfold WFfieldVal at hwf
  by_cases hid : f = str "id"
  · subst hid
    rw [if_pos rfl] at hwf
    rcases hwf with rfl | hrest
    · exact ⟨['_'], rfl, by decide, by decide, by decide, by decide⟩
    · have hnp : v ≠ .pnone := by
        rcases hrest with ⟨n, rfl, -⟩ | ⟨a, b, rfl, -⟩ | ⟨a, b, rfl, -⟩ <;> simp
      obtain ⟨sv, hser, -, hpid, hchars, -⟩ :=
        serId_facts v (Or.inr hrest) hnp
      refine ⟨sv, hser, ?_, ?_, ?_, ?_⟩
      · simp only [fieldValueParse, if_pos rfl, if_true, hpid]
      · intro hm
        rcases hchars '\t' hm with h | h | h
        · exact absurd h (by decide)
        · exact absurd h (by decide)
        · exact absurd h (by decide)
      · intro hm
        rcases hchars '\n' hm with h | h | h
        · exact absurd h (by decide)
        · exact absurd h (by decide)
        · exact absurd h (by decide)
      · apply noDbl_of_no_space
        intro hm
        rcases hchars ' ' hm with h | h | h
        · exact absurd h (by decide)
        · exact absurd h (by decide)
        · exact absurd h (by decide)
  · rw [if_neg hid] at hwf
    by_cases hhd : f = str "head"
    · subst hhd
      rw [if_pos rfl] at hwf
      rcases hwf with rfl | ⟨n, rfl⟩
      · exact ⟨['_'], rfl, by decide, by decide, by decide, by decide⟩
      · refine ⟨intToStr n, rfl, ?_, ?_, ?_, ?_⟩
        · simp only [fieldValueParse, if_neg hid,
            if_neg (by decide : ¬ (str "head") = str "xpostag"),
            if_neg (by decide : ¬ (str "head") = str "feats"),
            if_pos rfl, if_true, parse_int_value_intToStr]
        · intro hm
          exact absurd ((intToStr_char_clean n '\t' hm).2.1) (by simp)
        · intro hm
          exact absurd ((intToStr_char_clean n '\n' hm).2.2.1) (by simp)
        · apply noDbl_of_no_space
          intro hm
          exact absurd ((intToStr_char_clean n ' ' hm).2.2.2) (by simp)
    · rw [if_neg hhd] at hwf
      by_cases hxp : f = str "xpostag"
      · subst hxp
        rw [if_pos rfl] at hwf
        rcases hwf with rfl | ⟨s, rfl, hcl, hne, hnp⟩
        · exact ⟨['_'], rfl, by decide, by decide, by decide, by decide⟩
        · refine ⟨s, rfl, ?_, hcl.1, hcl.2.1, hcl.2.2⟩
          simp only [fieldValueParse, if_neg hid, if_pos rfl, if_true]
          unfold nullableVal parse_nullable_value
          rw [if_neg (show ¬(s = [] ∨ s = ['_']) from fun hc => hc.elim hne hnp)]
      · rw [if_neg hxp] at hwf
        by_cases hfm : f = str "feats" ∨ f = str "misc"
        · rw [if_pos hfm] at hwf
          have hdisp : ∀ raw v2, parse_dict_value raw = .ok v2 →
              fieldValueParse f raw = .ok v2 := by
            intro raw v2 hpd
            rcases hfm with rfl | rfl
            · simp only [fieldValueParse, if_neg hid, if_neg hxp, if_pos rfl, if_true, hpd]
            · simp only [fieldValueParse, if_neg hid, if_neg hxp,
                if_neg (by decide : ¬ (str "misc") = str "feats"),
                if_neg (by decide : ¬ (str "misc") = str "head"),
                if_neg (by decide : ¬ (str "misc") = str "deps"), if_pos rfl, if_true, hpd]
          rcases hwf with rfl | ⟨es, rfl, hnd, hents⟩
          · refine ⟨['_'], rfl, ?_, by decide, by decide, by decide⟩
            exact hdisp ['_'] .pnone (by decide)
          · unfold dictFieldOk at hdo
            simp only [Bool.and_eq_true, List.all_eq_true] at hdo
            have hne : es ≠ [] := by
              intro hnil
              rw [hnil] at hdo
              simp at hdo
            have hvalsok : ∀ e ∈ es, ∀ s, e.2 = some s → s ≠ [] := by
              intro e he s hv
              have := hdo.2 e he
              rw [hv] at this
              simp only [Bool.and_eq_true] at this
              intro hnil
              rw [hnil] at this
              simp at this
            have hrt := serialize_pdict_replay es hne hnd hents hvalsok
            obtain ⟨ht, hn, hdb⟩ := pdict_ser_clean es hents
            exact ⟨_, rfl, hdisp _ _ hrt, ht, hn, hdb⟩
        · rw [if_neg hfm] at hwf
          by_cases hdp : f = str "deps"
          · subst hdp
            rw [if_pos rfl] at hwf
            have hdisp : ∀ raw v2, parse_paired_list_value raw = .ok v2 →
                fieldValueParse (str "deps") raw = .ok v2 := by
              intro raw v2 hpp
              simp only [fieldValueParse, if_neg hid, if_neg hxp,
                if_neg (by decide : ¬ (str "deps") = str "feats"),
                if_neg (by decide : ¬ (str "deps") = str "head"), if_pos rfl, if_true, hpp]
            rcases hwf with rfl | ⟨s, rfl, hcl, hne, hnp, hnm⟩ | ⟨ps, rfl, hpne, hpwf⟩
            · refine ⟨['_'], rfl, ?_, by decide, by decide, by decide⟩
              exact hdisp ['_'] .pnone (by decide)
            · refine ⟨s, rfl, ?_, hcl.1, hcl.2.1, hcl.2.2⟩
              apply hdisp
              rw [parse_paired_list_value, if_neg (by simp [hnm])]
              unfold nullableVal parse_nullable_value
              rw [if_neg (show ¬(s = [] ∨ s = ['_']) from fun hc => hc.elim hne hnp)]
            · obtain ⟨p0, rest, rfl⟩ : ∃ p0 rest, ps = p0 :: rest := by
                cases ps with
                | nil => exact absurd rfl hpne
                | cons a b => exact ⟨a, b, rfl⟩
              obtain ⟨d, hser, hpp, hdne, hdch⟩ := serialize_plist_replay p0 rest hpwf
              refine ⟨d, hser, hdisp d _ hpp, ?_, ?_, ?_⟩
              · intro hm
                exact absurd (hdch '\t' hm) (by decide)
              · intro hm
                exact absurd (hdch '\n' hm) (by decide)
              · apply noDbl_of_no_space
                intro hm
                exact absurd (hdch ' ' hm) (by decide)
          · rw [if_neg hdp] at hwf
            obtain ⟨s, rfl, hcl⟩ := hwf
            refine ⟨s, rfl, ?_, hcl.1, hcl.2.1, hcl.2.2⟩
            simp only [fieldValueParse, if_neg hid, if_neg hxp, if_neg hhd, if_neg hdp,
              if_neg (fun h : f = str "feats" => hfm (Or.inl h)),
              if_neg (fun h : f = str "misc" => hfm (Or.inr h))]

theorem digitish_head (u : Str) (hne : u ≠ []) (hd : ∀ c ∈ u, isDigitCh c = true) :
    ∃ c t, u = c :: t ∧ isPyWS c = false ∧ c ≠ '#' := by
  cases u with
  | nil => exact absurd rfl hne
  | cons c t =>
    have hc := hd c (List.mem_cons_self c t)
    refine ⟨c, t, rfl, (digit_not_special c hc).1, ?_⟩
    rintro rfl
    revert hc
    decide

theorem idSer_head (v : PyVal) (hwf : WFidVal v) (s : Str)
    (hser : serialize_field v = .ok s) :
    ∃ c t, s = c :: t ∧ isPyWS c = false ∧ c ≠ '#' := by
  rcases hwf with rfl | ⟨n, rfl, hn⟩ | ⟨a, b, rfl, ha, hab⟩ | ⟨a, b, rfl, ha, hb⟩
  · simp only [serialize_field, Except.ok.injEq] at hser
    subst hser
    exact ⟨'_', [], rfl, by decide, by decide⟩
  · simp only [serialize_field, Except.ok.injEq] at hser
    subst hser
    rw [intToStr_nonneg n (by omega)]
    exact digitish_head _ (natToStr_ne_nil _) (natToStr_digits _)
  · simp only [serialize_field, Except.ok.injEq] at hser
    subst hser
    rw [intToStr_nonneg a (by omega)]
    obtain ⟨c, t, hct, h1, h2⟩ :=
      digitish_head (natToStr a.toNat) (natToStr_ne_nil _) (natToStr_digits _)
    refine ⟨c, t ++ str "-" ++ intToStr b, ?_, h1, h2⟩
    rw [hct]
    simp only [List.cons_append]
  · simp only [serialize_field, Except.ok.injEq] at hser
    subst hser
    rw [intToStr_nonneg a (by omega)]
    obtain ⟨c, t, hct, h1, h2⟩ :=
      digitish_head (natToStr a.toNat) (natToStr_ne_nil _) (natToStr_digits _)
    refine ⟨c, t ++ str "." ++ intToStr b, ?_, h1, h2⟩
    rw [hct]
    simp only [List.cons_append]

theorem last_nonws_of_all (s : Str) (hne : s ≠ []) (h : ∀ c ∈ s, isPyWS c = false) :
    s ≠ [] ∧ ∀ c, s.getLast? = some c → isPyWS c = false :=
  ⟨hne, fun c hc => h c (mem_of_getLast s c hc)⟩

theorem pdict_ser_last (es : List (Str × Option Str))
    (hne : es ≠ [])
    (hdo : ∀ e ∈ es, ∀ s2, e.2 = some s2 → s2 ≠ [] ∧ isPyWS (s2.getLastD ' ') = false) :
    joinSep ['|'] (es.map (fun kv => kv.1 ++ ['='] ++ kv.2.getD ['_'])) ≠ [] ∧
    ∀ c, (joinSep ['|'] (es.map (fun kv => kv.1 ++ ['='] ++ kv.2.getD ['_']))).getLast? = some c →
      isPyWS c = false := by
  have hpne : ∀ kv : Str × Option Str, kv.1 ++ ['='] ++ kv.2.getD ['_'] ≠ [] := by
    intro kv
    rw [pieceOf_shape]
    simp
  constructor
  · cases hes : es with
    | nil => exact absurd hes hne
    | cons e0 rest =>
      obtain ⟨v, hv, -⟩ := joinSep_append_part '|' (e0.1 ++ ['='] ++ e0.2.getD ['_'])
        (rest.map (fun kv => kv.1 ++ ['='] ++ kv.2.getD ['_']))
      rw [List.map_cons, hv]
      intro hnil
      exact hpne e0 (List.append_eq_nil.mp hnil).1
  · intro c hc
    rcases List.eq_nil_or_concat es with rfl | ⟨init, lst, hsplit⟩
    · exact absurd rfl hne
    · rw [List.concat_eq_append] at hsplit
      subst hsplit
      rw [List.map_append, List.map_cons, List.map_nil] at hc
      rw [joinSep_snoc_getLast '|' _ _ (hpne lst)] at hc
      rw [pieceOf_shape, getLast?_append_ne lst.1 _ (by simp)] at hc
      cases hv : lst.2 with
      | none =>
        rw [hv] at hc
        simp only [Option.getD_none] at hc
        simp only [List.getLast?_cons_cons, List.getLast?_singleton] at hc
        injection hc with hc
        subst hc
        decide
      | some s2 =>
        obtain ⟨hs2ne, hs2l⟩ := hdo lst (List.mem_append_right init (List.mem_cons_self _ _)) s2 hv
        rw [hv] at hc
        simp only [Option.getD_some] at hc
        rw [getLast?_cons_of_ne '=' s2 hs2ne] at hc
        have : s2.getLastD ' ' = c := by
          rw [List.getLastD_eq_getLast?, hc]
          rfl
        rw [← this]
        exact hs2l

theorem fieldSer_last (f : Str) (v : PyVal) (hwf : WFfieldVal f v)
    (hdo : dictFieldOk v = true)
    (hps : ∀ s2, v = .pstr s2 → s2 ≠ [] ∧ ∀ c, s2.getLast? = some c → isPyWS c = false)
    (s : Str) (hser : serialize_field v = .ok s) :
    s ≠ [] ∧ ∀ c, s.getLast? = some c → isPyWS c = false := by
  cases v with
  | pnone =>
    simp only [serialize_field, Except.ok.injEq] at hser
    subst hser
    refine ⟨by simp, ?_⟩
    intro c hc
    simp only [List.getLast?_singleton] at hc
    injection hc with hc
    subst hc
    decide
  | pstr s2 =>
    simp only [serialize_field, Except.ok.injEq] at hser
    subst hser
    exact hps s2 rfl
  | pint n =>
    simp only [serialize_field, Except.ok.injEq] at hser
    subst hser
    exact last_nonws_of_all _ (intToStr_ne_nil n) (fun c hc => (intToStr_char_clean n c hc).1)
  | ptup a sep b =>
    simp only [serialize_field, Except.ok.injEq] at hser
    subst hser
    constructor
    · intro hnil
      exact intToStr_ne_nil b (List.append_eq_nil.mp hnil).2
    · intro c hc
      rw [getLast?_append_ne _ _ (intToStr_ne_nil b)] at hc
      exact (intToStr_char_clean b c (mem_of_getLast _ c hc)).1
  | pdict es =>
    unfold dictFieldOk at hdo
    simp only [Bool.and_eq_true, List.all_eq_true] at hdo
    have hne : es ≠ [] := by
      intro hnil
      rw [hnil] at hdo
      simp at hdo
    have hvals : ∀ e ∈ es, ∀ s2, e.2 = some s2 → s2 ≠ [] ∧ isPyWS (s2.getLastD ' ') = false := by
      intro e he s2 hv
      have h2 := hdo.2 e he
      rw [hv] at h2
      simp only [Bool.and_eq_true] at h2
      constructor
      · intro hnil
        rw [hnil] at h2
        simp at h2
      · simpa using h2.2
    simp only [serialize_field, Except.ok.injEq] at hser
    subst hser
    exact pdict_ser_last es hne hvals
  | plist ps =>
    cases ps with
    | nil => simp [serialize_field] at hser
    | cons p0 rest =>
      have hfacts : ∀ p ∈ p0 :: rest, matchRelFull p.1 = true ∧ WFidVal p.2 ∧ p.2 ≠ .pnone := by
        unfold WFfieldVal at hwf
        split_ifs at hwf with h1 h2 h3 h4 h5
        · rcases hwf with h | ⟨n, h, -⟩ | ⟨a, b, h, -⟩ | ⟨a, b, h, -⟩ <;> cases h
        · rcases hwf with h | ⟨n, h⟩ <;> cases h
        · rcases hwf with h | ⟨s2, h, -⟩ <;> cases h
        · rcases hwf with h | ⟨es, h, -⟩ <;> cases h
        · rcases hwf with h | ⟨s2, h, -⟩ | ⟨ps2, h, -, hp⟩
          · cases h
          · cases h
          · injection h with h
            subst h
            exact hp
        · obtain ⟨s2, h, -⟩ := hwf
          cases h
      obtain ⟨d, hserd, -, hdne, hdch⟩ := serialize_plist_replay p0 rest hfacts
      rw [hser] at hserd
      injection hserd with hserd
      subst hserd
      exact last_nonws_of_all _ hdne hdch

theorem zip_take_left (fs : List α) : ∀ ps : List β, fs.zip ps = (fs.take ps.length).zip ps := by
  induction fs with
  | nil =>
    intro ps
    simp
  | cons f fs' ih =>
    intro ps
    cases ps with
    | nil => simp
    | cons p ps' =>
      simp only [List.zip_cons_cons, List.length_cons, List.take_succ_cons]
      rw [← ih ps']

theorem exSeqFields_len (t : Token) : ∀ ss, exSeqFields t = .ok ss → ss.length = t.length := by
  induction t with
  | nil =>
    intro ss h
    simp only [exSeqFields, Except.ok.injEq] at h
    subst h
    rfl
  | cons e rest ih =>
    intro ss h
    obtain ⟨k, v⟩ := e
    simp only [exSeqFields] at h
    cases hsv : serialize_field v with
    | error er =>
      rw [hsv] at h
      cases h
    | ok s1 =>
      rw [hsv] at h
      cases hrest : exSeqFields rest with
      | error er =>
        rw [hrest] at h
        cases h
      | ok ss' =>
        rw [hrest] at h
        injection h with h
        subst h
        simp [ih ss' hrest]

theorem exSeqFields_mem (t : Token) : ∀ ss, exSeqFields t = .ok ss →
    ∀ s ∈ ss, ∃ e, e ∈ t ∧ serialize_field e.2 = .ok s := by
  induction t with
  | nil =>
    intro ss h s hs
    simp only [exSeqFields, Except.ok.injEq] at h
    subst h
    simp at hs
  | cons e rest ih =>
    intro ss h s hs
    obtain ⟨k, v⟩ := e
    simp only [exSeqFields] at h
    cases hsv : serialize_field v with
    | error er =>
      rw [hsv] at h
      cases h
    | ok s1 =>
      rw [hsv] at h
      cases hrest : exSeqFields rest with
      | error er =>
        rw [hrest] at h
        cases h
      | ok ss' =>
        rw [hrest] at h
        injection h with h
        subst h
        rcases List.mem_cons.mp hs with rfl | hs
        · exact ⟨(k, v), List.mem_cons_self _ _, hsv⟩
        · obtain ⟨e2, he2, hse2⟩ := ih ss' hrest s hs
          exact ⟨e2, List.mem_cons_of_mem _ he2, hse2⟩

theorem exSeqFields_last (t : Token) : ∀ ss, exSeqFields t = .ok ss →
    ∀ s, ss.getLast? = some s → ∃ e, t.getLast? = some e ∧ serialize_field e.2 = .ok s := by
  induction t with
  | nil =>
    intro ss h s hs
    simp only [exSeqFields, Except.ok.injEq] at h
    subst h
    simp at hs
  | cons e rest ih =>
    intro ss h s hs
    obtain ⟨k, v⟩ := e
    simp only [exSeqFields] at h
    cases hsv : serialize_field v with
    | error er =>
      rw [hsv] at h
      cases h
    | ok s1 =>
      rw [hsv] at h
      cases hrest : exSeqFields rest with
      | error er =>
        rw [hrest] at h
        cases h
      | ok ss' =>
        rw [hrest] at h
        injection h with h
        subst h
        cases hr2 : rest with
        | nil =>
          have : ss' = [] := by
            have := exSeqFields_len rest ss' hrest
            rw [hr2] at this
            simpa using this
          subst this
          simp only [List.getLast?_singleton] at hs
          injection hs with hs
          subst hs
          exact ⟨(k, v), rfl, hsv⟩
        | cons r0 rrest =>
          have hlenss : ss'.length = rest.length := exSeqFields_len rest ss' hrest
          obtain ⟨q0, qrest, hq⟩ : ∃ q0 qrest, ss' = q0 :: qrest := by
            cases hss : ss' with
            | nil =>
              rw [hss, hr2] at hlenss
              simp at hlenss
            | cons a b => exact ⟨a, b, rfl⟩
          subst hq
          rw [List.getLast?_cons_cons] at hs
          obtain ⟨e2, he2, hse2⟩ := ih (q0 :: qrest) hrest s hs
          refine ⟨e2, ?_, hse2⟩
          subst hr2
          rw [getLast?_cons_of_ne (k, v) (r0 :: rrest) (by simp)]
          exact he2

theorem exSeqFields_total (t : Token)
    (h : ∀ e ∈ t, ∃ s, serialize_field e.2 = .ok s) : ∃ ss, exSeqFields t = .ok ss := by
  induction t with
  | nil => exact ⟨[], rfl⟩
  | cons e rest ih =>
    obtain ⟨k, v⟩ := e
    obtain ⟨s1, hs1⟩ := h (k, v) (List.mem_cons_self _ _)
    obtain ⟨ss', hss'⟩ := ih (fun x hx => h x (List.mem_cons_of_mem _ hx))
    refine ⟨s1 :: ss', ?_⟩
    simp only [exSeqFields, hs1, hss']

theorem plLoop_replay (t : Token) : ∀ (ss : List Str) (acc : Token),
    exSeqFields t = .ok ss →
    (∀ e ∈ t, ∀ s, serialize_field e.2 = .ok s → fieldValueParse e.1 s = .ok e.2) →
    (∀ e ∈ t, e.1 ∉ acc.map Prod.fst) →
    ((t.map Prod.fst).Nodup) →
    plLoop ((t.map Prod.fst).zip ss) acc = .ok (acc ++ t) := by
  induction t with
  | nil =>
    intro ss acc hex _ _ _
    simp only [exSeqFields, Except.ok.injEq] at hex
    subst hex
    simp [plLoop]
  | cons e rest ih =>
    intro ss acc hex hrt hfr hnd
    obtain ⟨k, v⟩ := e
    rw [List.map_cons, List.nodup_cons] at hnd
    simp only [exSeqFields] at hex
    cases hsv : serialize_field v with
    | error er =>
      rw [hsv] at hex
      cases hex
    | ok s1 =>
      rw [hsv] at hex
      cases hrest : exSeqFields rest with
      | error er =>
        rw [hrest] at hex
        cases hex
      | ok ss' =>
        rw [hrest] at hex
        injection hex with hex
        subst hex
        have hpv := hrt (k, v) (List.mem_cons_self _ _) s1 hsv
        simp only [List.map_cons, List.zip_cons_cons, plLoop, hpv]
        rw [odInsert_fresh k v acc (hfr (k, v) (List.mem_cons_self _ _))]
        have hrec := ih ss' (acc ++ [(k, v)]) hrest
          (fun x hx s hs => hrt x (List.mem_cons_of_mem _ hx) s hs)
          ?fresh hnd.2
        rw [show List.zipWith Prod.mk (List.map Prod.fst rest) ss' =
          (List.map Prod.fst rest).zip ss' from rfl]
        rw [hrec]
        simp
        case fresh =>
          intro x hx
          simp only [List.map_append, List.mem_append]
          push_neg
          refine ⟨hfr x (List.mem_cons_of_mem _ hx), ?_⟩
          simp only [List.map_cons, List.map_nil, List.mem_singleton]
          intro hcon
          refine hnd.1 ?_
          have hm : x.1 ∈ List.map Prod.fst rest := List.mem_map_of_mem Prod.fst hx
          rwa [hcon] at hm

theorem mem_of_head (l : List α) (a : α) (h : l.head? = some a) : a ∈ l := by
  cases l with
  | nil => simp at h
  | cons x t =>
    simp only [List.head?_cons] at h
    injection h with h
    subst h
    exact List.mem_cons_self x t

theorem exSeqFields_head (t : Token) : ∀ ss, exSeqFields t = .ok ss →
    ∀ s, ss.head? = some s → ∃ e, t.head? = some e ∧ serialize_field e.2 = .ok s := by
  intro ss hex s hs
  cases t with
  | nil =>
    simp only [exSeqFields, Except.ok.injEq] at hex
    subst hex
    simp at hs
  | cons e rest =>
    obtain ⟨k, v⟩ := e
    simp only [exSeqFields] at hex
    cases hsv : serialize_field v with
    | error er =>
      rw [hsv] at hex
      cases hex
    | ok s1 =>
      rw [hsv] at hex
      cases hrest : exSeqFields rest with
      | error er =>
        rw [hrest] at hex
        cases hex
      | ok ss' =>
        rw [hrest] at hex
        injection hex with hex
        subst hex
        simp only [List.head?_cons] at hs
        injection hs with hs
        subst hs
        exact ⟨(k, v), rfl, hsv⟩

theorem token_line_replay (t : Token) (hwf : WFtoken t)
    (hdo : ∀ fv ∈ t, dictFieldOk fv.2 = true) :
    ∃ ss, exSeqFields t = .ok ss ∧
      strip (joinSep ['\t'] ss) = joinSep ['\t'] ss ∧
      joinSep ['\t'] ss ≠ [] ∧
      (joinSep ['\t'] ss).headD ' ' ≠ '#' ∧
      '\n' ∉ joinSep ['\t'] ss ∧
      parse_line (joinSep ['\t'] ss) DEFAULT_FIELDS = .ok t := by
  obtain ⟨hkeys, hlen2, hvals, hlast⟩ := hwf
  have hfield : ∀ e ∈ t, ∃ s, serialize_field e.2 = .ok s ∧
      fieldValueParse e.1 s = .ok e.2 ∧ '\t' ∉ s ∧ '\n' ∉ s ∧ noDbl s = true := by
    intro e he
    exact fieldSer_replay e.1 e.2 (hvals e he) (hdo e he)
  have htotal : ∀ e ∈ t, ∃ s, serialize_field e.2 = .ok s := by
    intro e he
    obtain ⟨s, hs, -⟩ := hfield e he
    exact ⟨s, hs⟩
  obtain ⟨ss, hex⟩ := exSeqFields_total t htotal
  have hrt : ∀ e ∈ t, ∀ s, serialize_field e.2 = .ok s → fieldValueParse e.1 s = .ok e.2 := by
    intro e he s hs
    obtain ⟨s0, hs0, hp0, -⟩ := hfield e he
    rw [hs0] at hs
    injection hs with hs
    subst hs
    exact hp0
  have hclean : ∀ s ∈ ss, '\t' ∉ s ∧ noDbl s = true ∧ '\n' ∉ s := by
    intro s hs
    obtain ⟨e, he, hse⟩ := exSeqFields_mem t ss hex s hs
    obtain ⟨s0, hs0, -, ht0, hn0, hdb0⟩ := hfield e he
    rw [hs0] at hse
    injection hse with hse
    subst hse
    exact ⟨ht0, hdb0, hn0⟩
  have hlen : ss.length = t.length := exSeqFields_len t ss hex
  have hssne : ss ≠ [] := by
    intro hnil
    rw [hnil] at hlen
    simp only [List.length_nil] at hlen
    omega
  have hsplit : resplitFields (joinSep ['\t'] ss) = ss :=
    resplit_joinSep ss hssne (fun p hp => ⟨(hclean p hp).1, (hclean p hp).2.1⟩)
  -- the head of the line is the head of the id serialization
  have hk0 : ∀ e0, t.head? = some e0 → e0.1 = str "id" := by
    intro e0 he0
    cases t with
    | nil => simp at he0
    | cons e1 trest =>
      simp only [List.head?_cons] at he0
      injection he0 with he0
      subst he0
      rw [List.map_cons, List.length_cons] at hkeys
      rw [show DEFAULT_FIELDS = str "id" :: [str "form", str "lemma", str "upostag",
        str "xpostag", str "feats", str "head", str "deprel", str "deps", str "misc"] from rfl,
        List.take_succ_cons] at hkeys
      injection hkeys with h1 h2
  have hheadfact : ∃ c0 u, joinSep ['\t'] ss = c0 :: u ∧ isPyWS c0 = false ∧ c0 ≠ '#' := by
    cases hss : ss with
    | nil => exact absurd hss hssne
    | cons s0 ssrest =>
      obtain ⟨e0, he0, hse0⟩ := exSeqFields_head t ss hex s0 (by rw [hss]; rfl)
      have hwfe := hvals e0 (mem_of_head t e0 he0)
      rw [hk0 e0 he0] at hwfe
      unfold WFfieldVal at hwfe
      rw [if_pos rfl] at hwfe
      obtain ⟨c0, t0, hs0eq, hc0ws, hc0sharp⟩ := idSer_head e0.2 hwfe s0 hse0
      obtain ⟨v, hv, -⟩ := joinSep_append_part '\t' s0 ssrest
      refine ⟨c0, t0 ++ v, ?_, hc0ws, hc0sharp⟩
      rw [hv, hs0eq]
      simp only [List.cons_append]
  have hlastfact : ∀ c, (joinSep ['\t'] ss).getLast? = some c → isPyWS c = false := by
    intro c hc
    rcases List.eq_nil_or_concat ss with hnil | ⟨init, lst, hconc⟩
    · exact absurd hnil hssne
    · rw [List.concat_eq_append] at hconc
      obtain ⟨el, hel, hsel⟩ := exSeqFields_last t ss hex lst
        (by
          rw [hconc, getLast?_append_ne init [lst] (by simp)]
          rfl)
      have hmem : el ∈ t := mem_of_getLast t el hel
      have hps : ∀ s2, el.2 = .pstr s2 → s2 ≠ [] ∧
          ∀ c2, s2.getLast? = some c2 → isPyWS c2 = false := by
        intro s2 hv
        have := hlast el.1 el.2 (by simpa using hel) s2 hv
        exact this
      obtain ⟨hlstne, hlstlast⟩ :=
        fieldSer_last el.1 el.2 (hvals el hmem) (hdo el hmem) hps lst hsel
      rw [hconc, joinSep_snoc_getLast '\t' init lst hlstne] at hc
      exact hlstlast c hc
  obtain ⟨c0, u0, hline, hc0ws, hc0sharp⟩ := hheadfact
  have hstrip : strip (joinSep ['\t'] ss) = joinSep ['\t'] ss := by
    apply strip_eq_self_of_ends
    · intro c hc
      rw [hline] at hc
      simp only [List.head?_cons] at hc
      injection hc with hc
      subst hc
      exact hc0ws
    · exact hlastfact
  refine ⟨ss, hex, hstrip, ?_, ?_, ?_, ?_⟩
  · rw [hline]
    simp
  · rw [hline]
    simpa using hc0sharp
  · intro hm
    rcases mem_joinSep '\t' ss '\n' hm with h | ⟨p, hp, hcp⟩
    · exact absurd h (by decide)
    · exact (hclean p hp).2.2 hcp
  · unfold parse_line
    rw [hsplit]
    rw [if_neg (by rw [hlen]; omega)]
    rw [zip_take_left DEFAULT_FIELDS ss, hlen, ← hkeys]
    have hnd : (t.map Prod.fst).Nodup := by
      rw [hkeys]
      exact List.Nodup.sublist (List.take_sublist _ _)
        (by decide : DEFAULT_FIELDS.Nodup)
    have := plLoop_replay t ss [] hex hrt (by simp) hnd
    simpa using this

theorem takeDrop_self (p : α → Bool) (l : List α) : l.takeWhile p ++ l.dropWhile p = l := by
  induction l with
  | nil => rfl
  | cons a t ih =>
    by_cases hp : p a = true
    · rw [List.takeWhile_cons_of_pos hp, List.dropWhile_cons_of_pos hp, List.cons_append, ih]
    · rw [List.takeWhile_cons_of_neg hp, List.dropWhile_cons_of_neg hp]
      rfl

theorem dropWhile_head_not (p : α → Bool) (l : List α) :
    ∀ c, (l.dropWhile p).head? = some c → p c = false := by
  induction l with
  | nil =>
    intro c hc
    simp at hc
  | cons a t ih =>
    intro c hc
    by_cases hp : p a = true
    · rw [List.dropWhile_cons_of_pos hp] at hc
      exact ih c hc
    · rw [List.dropWhile_cons_of_neg hp] at hc
      simp only [List.head?_cons] at hc
      injection hc with hc
      subst hc
      exact Bool.eq_false_iff.mpr hp

theorem rstrip_decomp (y : Str) : ∃ w, y = rstrip y ++ w := by
  refine ⟨(y.reverse.takeWhile isPyWS).reverse, ?_⟩
  have h2 : rstrip y ++ (y.reverse.takeWhile isPyWS).reverse
      = ((y.reverse.takeWhile isPyWS) ++ (y.reverse.dropWhile isPyWS)).reverse := by
    unfold rstrip
    rw [List.reverse_append]
  rw [h2, takeDrop_self, List.reverse_reverse]

theorem rstrip_last_not (y : Str) : ∀ c, (rstrip y).getLast? = some c → isPyWS c = false := by
  intro c hc
  unfold rstrip at hc
  rw [List.getLast?_reverse] at hc
  exact dropWhile_head_not isPyWS y.reverse c hc

theorem strip_head_nonws (s : Str) : ∀ c, (strip s).head? = some c → isPyWS c = false := by
  intro c hc
  unfold strip at hc
  obtain ⟨w, hw⟩ := rstrip_decomp (lstrip s)
  have hls : (lstrip s).head? = some c := by
    rw [hw]
    cases hrs : rstrip (lstrip s) with
    | nil =>
      rw [hrs] at hc
      simp at hc
    | cons a u =>
      rw [hrs] at hc
      simp only [List.head?_cons] at hc
      simpa using hc
  exact dropWhile_head_not isPyWS s c hls

theorem strip_last_nonws (s : Str) : ∀ c, (strip s).getLast? = some c → isPyWS c = false :=
  fun c hc => rstrip_last_not (lstrip s) c hc

theorem strip_idem (s : Str) : strip (strip s) = strip s :=
  strip_eq_self_of_ends (strip s) (strip_head_nonws s) (strip_last_nonws s)

theorem meta_line_replay (k v : Str) (hwf : WFmetaEntry (k, some v)) :
    ∃ l, strip (str "# " ++ k ++ str " = " ++ v) = l ∧ l ≠ [] ∧ l.headD ' ' = '#' ∧
      parse_comment_line l = .ok [(k, some v)] := by
  obtain ⟨hkne, hkstrip, hknl, hkeq, hval⟩ := hwf
  obtain ⟨hvstrip, hvnl, hvempty⟩ := hval v rfl
  have hnosep : '=' ∉ ' ' :: (k ++ [' ']) := by
    intro hm
    rcases List.mem_cons.mp hm with h | h
    · exact absurd h (by decide)
    · rcases List.mem_append.mp h with h | h
      · exact hkeq h
      · simp only [List.mem_singleton] at h
        exact absurd h (by decide)
  have hkv1 : strip (' ' :: (k ++ [' '])) = k := strip_space_sandwich k hkstrip hkne
  by_cases hv : v = []
  · subst hv
    have hhand : k = str "newdoc" ∨ k = str "newpar" := hvempty rfl
    have hnf : str "# " ++ k ++ str " = " ++ ([] : Str) =
        ('#' :: ' ' :: (k ++ [' ', '='])) ++ [' '] := by
      simp [str]
    have hXself : strip ('#' :: ' ' :: (k ++ [' ', '='])) = '#' :: ' ' :: (k ++ [' ', '=']) := by
      apply strip_eq_self_of_ends
      · intro c hc
        simp only [List.head?_cons] at hc
        injection hc with hc
        subst hc
        decide
      · intro c hc
        rw [show '#' :: ' ' :: (k ++ [' ', '=']) =
          ('#' :: ' ' :: (k ++ [' '])) ++ ['='] from by simp] at hc
        rw [getLast?_append_ne _ _ (by simp)] at hc
        simp only [List.getLast?_singleton] at hc
        injection hc with hc
        subst hc
        decide
    have hlst : strip (('#' :: ' ' :: (k ++ [' ', '='])) ++ [' ']) =
        '#' :: ' ' :: (k ++ [' ', '=']) := by
      unfold strip
      rw [show lstrip (('#' :: ' ' :: (k ++ [' ', '='])) ++ [' ']) =
          ('#' :: ' ' :: (k ++ [' ', '='])) ++ [' '] from
        (lstrip_eq_self_iff_head _).mpr (by
          intro c hc
          simp only [List.cons_append, List.head?_cons] at hc
          injection hc with hc
          subst hc
          decide)]
      rw [rstrip_snoc_ws ' ' _ (by decide)]
      have := hXself
      unfold strip at this
      rw [show lstrip ('#' :: ' ' :: (k ++ [' ', '='])) = '#' :: ' ' :: (k ++ [' ', '=']) from
        (lstrip_eq_self_iff_head _).mpr (by
          intro c hc
          simp only [List.head?_cons] at hc
          injection hc with hc
          subst hc
          decide)] at this
      exact this
    have hpv : parse_pair_value (' ' :: (k ++ [' ', '='])) = (k, some []) := by
      have hshape : ' ' :: (k ++ [' ', '=']) = (' ' :: (k ++ [' '])) ++ '=' :: [] := by simp
      unfold parse_pair_value
      rw [hshape, splitFirst_with_sep '=' _ _ hnosep]
      show (strip (' ' :: (k ++ [' '])), Option.map strip (some ([] : Str))) = (k, some [])
      rw [hkv1]
      rfl
    refine ⟨'#' :: ' ' :: (k ++ [' ', '=']), by rw [hnf, hlst], by simp, by simp, ?_⟩
    simp only [parse_comment_line, hXself]
    rw [if_neg (show ¬('#' ≠ '#') by simp)]
    rw [hpv]
    rw [if_pos hhand]
  · have hnf : str "# " ++ k ++ str " = " ++ v =
        '#' :: ((' ' :: (k ++ [' '])) ++ '=' :: (' ' :: v)) := by
      simp [str]
    have hself : strip ('#' :: ((' ' :: (k ++ [' '])) ++ '=' :: (' ' :: v))) =
        '#' :: ((' ' :: (k ++ [' '])) ++ '=' :: (' ' :: v)) := by
      apply strip_eq_self_of_ends
      · intro c hc
        simp only [List.head?_cons] at hc
        injection hc with hc
        subst hc
        decide
      · intro c hc
        rw [getLast?_cons_of_ne _ _ (by simp)] at hc
        rw [getLast?_append_ne _ _ (by simp)] at hc
        rw [getLast?_cons_of_ne '=' _ (by simp)] at hc
        rw [getLast?_cons_of_ne ' ' _ hv] at hc
        exact strip_last_not_ws v hvstrip c hc
    have hpv : parse_pair_value ((' ' :: (k ++ [' '])) ++ '=' :: (' ' :: v)) = (k, some v) := by
      unfold parse_pair_value
      rw [splitFirst_with_sep '=' _ _ hnosep]
      show (strip (' ' :: (k ++ [' '])), Option.map strip (some (' ' :: v))) = (k, some v)
      rw [hkv1]
      show (k, some (strip (' ' :: v))) = (k, some v)
      rw [strip_space_cons v hvstrip]
    refine ⟨'#' :: ((' ' :: (k ++ [' '])) ++ '=' :: (' ' :: v)), by rw [hnf, hself],
      by simp, by simp, ?_⟩
    simp only [parse_comment_line, hself]
    rw [if_neg (show ¬('#' ≠ '#') by simp)]
    rw [hpv]
    by_cases hhand : k = str "newdoc" ∨ k = str "newpar"
    · rw [if_pos hhand]
    · rw [if_neg hhand]
      rw [if_neg (by
        push_neg
        refine ⟨hkne, by simp, ?_⟩
        intro hcon
        injection hcon with hcon
        exact hv hcon)]

theorem joinSep_append_two (d : α) (L : List (List α)) (hne : L ≠ []) :
    joinSep [d] L ++ [d, d] = joinSep [d] (L ++ [[], []]) := by
  induction L with
  | nil => exact absurd rfl hne
  | cons x t ih =>
    cases t with
    | nil => simp [joinSep]
    | cons y t' =>
      have h2 : joinSep [d] (x :: y :: t') = x ++ d :: joinSep [d] (y :: t') := by
        simp [joinSep]
      have h1 : joinSep [d] ((x :: y :: t') ++ [[], []]) =
          x ++ d :: joinSep [d] ((y :: t') ++ [[], []]) := by
        simp [joinSep]
      rw [h2, h1, ← ih (by simp)]
      simp

theorem split_serialized (L : List Str) (hne : L ≠ []) (hnl : ∀ l ∈ L, '\n' ∉ l) :
    splitChar '\n' (joinSep ['\n'] L ++ ['\n', '\n']) = L ++ [[], []] := by
  rw [joinSep_append_two '\n' L hne]
  apply splitOnP_joinSep
  · simp
  · simp
  · intro pt hpt x hx
    show (x == '\n') = false
    apply beq_eq_false_iff_ne.mpr
    intro hxe
    subst hxe
    rcases List.mem_append.mp hpt with h | h
    · exact hnl pt h hx
    · rcases List.mem_cons.mp h with rfl | h
      · simp at hx
      · simp only [List.mem_singleton] at h
        subst h
        simp at hx

theorem ptmLoop_blanks (toks : List Token) (md : Metadata) :
    ptmLoop DEFAULT_FIELDS [[], []] toks md = .ok (toks, md) := by
  simp [ptmLoop, strip, lstrip, rstrip]

theorem metaLines_replay (md : Metadata) : ∀ (mls : List Str),
    serializeMetaLines md = .ok mls →
    ((md.map Prod.fst).Nodup) →
    (∀ e ∈ md, WFmetaEntry e) →
    ∀ (rest : List Str) (toks : List Token) (acc : Metadata),
      (∀ e ∈ md, e.1 ∉ acc.map Prod.fst) →
      ptmLoop DEFAULT_FIELDS (mls ++ rest) toks acc =
        ptmLoop DEFAULT_FIELDS rest toks (acc ++ md) := by
  induction md with
  | nil =>
    intro mls hser _ _ rest toks acc _
    simp only [serializeMetaLines, Except.ok.injEq] at hser
    subst hser
    simp
  | cons e md' ih =>
    intro mls hser hnd hwf rest toks acc hfr
    obtain ⟨k, vo⟩ := e
    cases vo with
    | none =>
      simp only [serializeMetaLines] at hser
      cases hser
    | some v =>
      simp only [serializeMetaLines] at hser
      cases hrest : serializeMetaLines md' with
      | error er =>
        rw [hrest] at hser
        cases hser
      | ok mls' =>
        rw [hrest] at hser
        injection hser with hser
        subst hser
        obtain ⟨l, hstrip, hlne, hlhead, hpcl⟩ :=
          meta_line_replay k v (hwf (k, some v) (List.mem_cons_self _ _))
        rw [List.cons_append]
        rw [List.map_cons, List.nodup_cons] at hnd
        simp only [ptmLoop, hstrip, if_neg hlne, if_pos hlhead, hpcl,
          List.foldl_cons, List.foldl_nil]
        rw [odInsert_fresh k (some v) acc (hfr (k, some v) (List.mem_cons_self _ _))]
        rw [ih mls' hrest hnd.2 (fun x hx => hwf x (List.mem_cons_of_mem _ hx))
          rest toks (acc ++ [(k, some v)]) ?fresh]
        · simp
        case fresh =>
          intro x hx
          simp only [List.map_append, List.mem_append]
          push_neg
          refine ⟨hfr x (List.mem_cons_of_mem _ hx), ?_⟩
          simp only [List.map_cons, List.map_nil, List.mem_singleton]
          intro hcon
          refine hnd.1 ?_
          have hm : x.1 ∈ List.map Prod.fst md' := List.mem_map_of_mem Prod.fst hx
          rwa [hcon] at hm

theorem tokenLines_replay (toks : List Token) : ∀ (tls : List Str),
    serializeTokenLines toks = .ok tls →
    (∀ t ∈ toks, WFtoken t ∧ ∀ fv ∈ t, dictFieldOk fv.2 = true) →
    ∀ (rest : List Str) (tacc : List Token) (md0 : Metadata),
      ptmLoop DEFAULT_FIELDS (tls ++ rest) tacc md0 =
        ptmLoop DEFAULT_FIELDS rest (tacc ++ toks) md0 := by
  induction toks with
  | nil =>
    intro tls hser _ rest tacc md0
    simp only [serializeTokenLines, Except.ok.injEq] at hser
    subst hser
    simp
  | cons t toks' ih =>
    intro tls hser hwf rest tacc md0
    simp only [serializeTokenLines] at hser
    cases hex : exSeqFields t with
    | error er =>
      rw [hex] at hser
      cases hser
    | ok fs =>
      rw [hex] at hser
      cases hrest : serializeTokenLines toks' with
      | error er =>
        rw [hrest] at hser
        cases hser
      | ok tls' =>
        rw [hrest] at hser
        injection hser with hser
        subst hser
        obtain ⟨ss, hex2, hstrip, hlne, hlnh, hnl2, hpl⟩ :=
          token_line_replay t (hwf t (List.mem_cons_self _ _)).1 (hwf t (List.mem_cons_self _ _)).2
        rw [hex] at hex2
        injection hex2 with hex2
        subst hex2
        rw [List.cons_append]
        simp only [ptmLoop, hstrip, if_neg hlne, if_neg hlnh, hpl]
        rw [ih tls' hrest (fun x hx => hwf x (List.mem_cons_of_mem _ hx)) rest (tacc ++ [t]) md0]
        simp

theorem serializeMetaLines_total (md : Metadata) (h : metaValuesPresent md = true) :
    ∃ mls, serializeMetaLines md = .ok mls := by
  induction md with
  | nil => exact ⟨[], rfl⟩
  | cons e md' ih =>
    obtain ⟨k, vo⟩ := e
    unfold metaValuesPresent at h
    simp only [List.all_cons, Bool.and_eq_true] at h
    cases vo with
    | none => simp at h
    | some v =>
      obtain ⟨mls', hmls'⟩ := ih (by
        unfold metaValuesPresent
        exact h.2)
      exact ⟨(str "# " ++ k ++ str " = " ++ v) :: mls', by simp only [serializeMetaLines, hmls']⟩

theorem serializeTokenLines_total (toks : List Token)
    (h : ∀ t ∈ toks, ∀ e ∈ t, ∃ s, serialize_field e.2 = .ok s) :
    ∃ tls, serializeTokenLines toks = .ok tls := by
  induction toks with
  | nil => exact ⟨[], rfl⟩
  | cons t toks' ih =>
    obtain ⟨fs, hfs⟩ := exSeqFields_total t (h t (List.mem_cons_self _ _))
    obtain ⟨tls', htls'⟩ := ih (fun x hx => h x (List.mem_cons_of_mem _ hx))
    exact ⟨joinSep ['\t'] fs :: tls', by simp only [serializeTokenLines, hfs, htls']⟩

theorem serializeMetaLines_nonl (md : Metadata) : ∀ mls,
    serializeMetaLines md = .ok mls →
    (∀ e ∈ md, WFmetaEntry e) →
    ∀ l ∈ mls, '\n' ∉ l := by
  induction md with
  | nil =>
    intro mls hser _ l hl
    simp only [serializeMetaLines, Except.ok.injEq] at hser
    subst hser
    simp at hl
  | cons e md' ih =>
    intro mls hser hwf l hl
    obtain ⟨k, vo⟩ := e
    cases vo with
    | none =>
      simp only [serializeMetaLines] at hser
      cases hser
    | some v =>
      simp only [serializeMetaLines] at hser
      cases hrest : serializeMetaLines md' with
      | error er =>
        rw [hrest] at hser
        cases hser
      | ok mls' =>
        rw [hrest] at hser
        injection hser with hser
        subst hser
        rcases List.mem_cons.mp hl with rfl | hl
        · obtain ⟨-, -, hknl, -, hval⟩ := hwf (k, some v) (List.mem_cons_self _ _)
          obtain ⟨-, hvnl, -⟩ := hval v rfl
          intro hm
          rcases List.mem_append.mp hm with hm | hm
          · rcases List.mem_append.mp hm with hm | hm
            · rcases List.mem_append.mp hm with hm | hm
              · simp only [str] at hm
                simp at hm
              · exact hknl hm
            · simp only [str] at hm
              simp at hm
          · exact hvnl hm
        · exact ih mls' hrest (fun x hx => hwf x (List.mem_cons_of_mem _ hx)) l hl

theorem serializeTokenLines_nonl (toks : List Token) : ∀ tls,
    serializeTokenLines toks = .ok tls →
    (∀ t ∈ toks, WFtoken t ∧ ∀ fv ∈ t, dictFieldOk fv.2 = true) →
    ∀ l ∈ tls, '\n' ∉ l := by
  induction toks with
  | nil =>
    intro tls hser _ l hl
    simp only [serializeTokenLines, Except.ok.injEq] at hser
    subst hser
    simp at hl
  | cons t toks' ih =>
    intro tls hser hwf l hl
    simp only [serializeTokenLines] at hser
    cases hex : exSeqFields t with
    | error er =>
      rw [hex] at hser
      cases hser
    | ok fs =>
      rw [hex] at hser
      cases hrest : serializeTokenLines toks' with
      | error er =>
        rw [hrest] at hser
        cases hser
      | ok tls' =>
        rw [hrest] at hser
        injection hser with hser
        subst hser
        rcases List.mem_cons.mp hl with rfl | hl
        · obtain ⟨ss, hex2, -, -, -, hnl2, -⟩ :=
            token_line_replay t (hwf t (List.mem_cons_self _ _)).1
              (hwf t (List.mem_cons_self _ _)).2
          rw [hex] at hex2
          injection hex2 with hex2
          subst hex2
          exact hnl2
        · exact ih tls' hrest (fun x hx => hwf x (List.mem_cons_of_mem _ hx)) l hl

theorem lstrip_subset (s : Str) : ∀ c ∈ lstrip s, c ∈ s := by
  intro c hc
  induction s with
  | nil => simpa [lstrip] using hc
  | cons a t ih =>
    by_cases ha : isPyWS a = true
    · rw [lstrip_ws_cons a t ha] at hc
      exact List.mem_cons_of_mem a (ih hc)
    · unfold lstrip at hc
      rw [List.dropWhile_cons_of_neg ha] at hc
      exact hc

theorem rstrip_subset (s : Str) : ∀ c ∈ rstrip s, c ∈ s := by
  intro c hc
  obtain ⟨w, hw⟩ := rstrip_decomp s
  rw [hw]
  exact List.mem_append_left w hc

theorem strip_subset (s : Str) : ∀ c ∈ strip s, c ∈ s :=
  fun c hc => lstrip_subset s c (rstrip_subset (lstrip s) c hc)

theorem splitFirst_fst_subset (c : Char) (s : Str) : ∀ x ∈ (splitFirst c s).1, x ∈ s := by
  intro x hx
  have h := splitFirst_recover c s
  rw [h]
  exact List.mem_append_left _ hx

theorem splitFirst_snd_subset (c : Char) (s : Str) :
    ∀ r, (splitFirst c s).2 = some r → ∀ x ∈ r, x ∈ s := by
  intro r hr x hx
  have h := splitFirst_recover c s
  rw [h, hr]
  exact List.mem_append_right _ (List.mem_cons_of_mem c hx)

theorem parse_comment_wf (line : Str) (hnl : '\n' ∉ line) (prs : List (Str × Option Str))
    (h : parse_comment_line line = .ok prs) : ∀ e ∈ prs, WFmetaEntry e := by
  have hsub : ∀ x ∈ strip line, x ∈ line := strip_subset line
  unfold parse_comment_line at h
  cases hl : strip line with
  | nil =>
    simp only [hl] at h
    cases h
  | cons c rest =>
    simp only [hl] at h
    have hrsub : ∀ x ∈ rest, x ∈ line :=
      fun x hx => hsub x (by rw [hl]; exact List.mem_cons_of_mem c hx)
    by_cases hc : c = '#'
    case neg =>
      rw [if_pos hc] at h
      cases h
    case pos =>
      subst hc
      rw [if_neg (show ¬('#' ≠ '#') by simp)] at h
      have hk1 : strip (parse_pair_value rest).1 = (parse_pair_value rest).1 := by
        show strip (strip (splitFirst '=' rest).1) = _
        exact strip_idem _
      have hk2 : '\n' ∉ (parse_pair_value rest).1 := by
        intro hm
        exact hnl (hrsub '\n' (splitFirst_fst_subset '=' rest '\n'
          (strip_subset (splitFirst '=' rest).1 '\n' hm)))
      have hk3 : '=' ∉ (parse_pair_value rest).1 := by
        intro hm
        exact splitFirst_not_mem_fst '=' rest (strip_subset (splitFirst '=' rest).1 '=' hm)
      have hval : ∀ s, (parse_pair_value rest).2 = some s → strip s = s ∧ '\n' ∉ s := by
        intro s hs
        cases hr : (splitFirst '=' rest).2 with
        | none =>
          rw [show (parse_pair_value rest).2 = ((splitFirst '=' rest).2).map strip from rfl,
            hr] at hs
          cases hs
        | some r =>
          have hs2 : some (strip r) = some s := by
            rw [show (parse_pair_value rest).2 = ((splitFirst '=' rest).2).map strip from rfl,
              hr] at hs
            exact hs
          injection hs2 with hs2
          subst hs2
          refine ⟨strip_idem r, ?_⟩
          intro hm
          exact hnl (hrsub '\n' (splitFirst_snd_subset '=' rest r hr '\n'
            (strip_subset r '\n' hm)))
      by_cases hhand : (parse_pair_value rest).1 = str "newdoc" ∨
          (parse_pair_value rest).1 = str "newpar"
      · rw [if_pos hhand] at h
        injection h with h
        subst h
        intro e he
        simp only [List.mem_singleton] at he
        subst he
        refine ⟨?_, hk1, hk2, hk3, ?_⟩
        · rcases hhand with h2 | h2 <;> (rw [h2]; decide)
        · intro s hs
          exact ⟨(hval s hs).1, (hval s hs).2, fun _ => hhand⟩
      · rw [if_neg hhand] at h
        by_cases hguard : (parse_pair_value rest).1 = [] ∨ (parse_pair_value rest).2 = none ∨
            (parse_pair_value rest).2 = some []
        · rw [if_pos hguard] at h
          injection h with h
          subst h
          intro e he
          simp at he
        · rw [if_neg hguard] at h
          injection h with h
          subst h
          intro e he
          simp only [List.mem_singleton] at he
          subst he
          push_neg at hguard
          refine ⟨hguard.1, hk1, hk2, hk3, ?_⟩
          intro s hs
          refine ⟨(hval s hs).1, (hval s hs).2, ?_⟩
          intro hse
          exact absurd (by rw [hs, hse]) hguard.2.2

theorem parse_id_wf (raw : Str) (v : PyVal) (h : parse_id_value raw = .ok v) : WFidVal v := by
  unfold parse_id_value at h
  split_ifs at h with h1 h2 h3 h4
  · injection h with h
    subst h
    exact Or.inl rfl
  · injection h with h
    subst h
    refine Or.inr (Or.inl ⟨strToInt raw, rfl, ?_⟩)
    rw [strToInt_of_digits raw (matchPos_all_digits raw h2)]
    exact_mod_cast strToNat_pos raw h2
  · obtain ⟨a, b, hab, hpa, hpb⟩ := matchRange_shape raw h3
    rw [hab] at h
    dsimp only at h
    split_ifs at h with hgt
    injection h with h
    subst h
    refine Or.inr (Or.inr (Or.inl ⟨strToInt a, strToInt b, rfl, ?_, hgt⟩))
    rw [strToInt_of_digits a (matchPos_all_digits a hpa)]
    exact_mod_cast strToNat_pos a hpa
  · obtain ⟨a, b, hab, hane, hadig, hpb⟩ := matchDot_shape raw h4
    rw [hab] at h
    dsimp only at h
    injection h with h
    subst h
    refine Or.inr (Or.inr (Or.inr ⟨strToInt a, strToInt b, rfl, ?_, ?_⟩))
    · rw [strToInt_of_digits a hadig]
      exact_mod_cast Nat.zero_le _
    · rw [strToInt_of_digits b (matchPos_all_digits b hpb)]
      exact_mod_cast strToNat_pos b hpb

theorem parse_id_not_pnone (raw : Str) (v : PyVal)
    (hne : ¬(raw = [] ∨ raw = ['_'])) (h : parse_id_value raw = .ok v) : v ≠ .pnone := by
  unfold parse_id_value at h
  rw [if_neg hne] at h
  split_ifs at h with h2 h3 h4
  · injection h with h
    subst h
    simp
  · cases hsp : splitChar '-' raw with
    | nil =>
      rw [hsp] at h
      cases h
    | cons a t =>
      rw [hsp] at h
      cases t with
      | nil => cases h
      | cons b t2 =>
        cases t2 with
        | nil =>
          dsimp only at h
          split_ifs at h with hgt
          injection h with h
          subst h
          simp
        | cons z t3 => cases h
  · cases hsp : splitChar '.' raw with
    | nil =>
      rw [hsp] at h
      cases h
    | cons a t =>
      rw [hsp] at h
      cases t with
      | nil => cases h
      | cons b t2 =>
        cases t2 with
        | nil =>
          injection h with h
          subst h
          simp
        | cons z t3 => cases h

theorem nullable_some_inv (x s : Str) (h : parse_nullable_value x = some s) :
    s = x ∧ ¬(x = [] ∨ x = ['_']) := by
  unfold parse_nullable_value at h
  split_ifs at h with h1
  injection h with h
  exact ⟨h.symm, h1⟩

theorem dictPairOf_wf (part : Str)
    (hcl : '\t' ∉ part ∧ '\n' ∉ part ∧ noDbl part = true) (hpipe : '|' ∉ part)
    (e : Str × Option Str) (h : dictPairOf part = some e) : WFdictEntry e := by
  have hsegsub : ∀ x ∈ splitChar '=' part, ∀ a ∈ x, a ∈ part :=
    splitOnP_mem_subset _ part
  have hsegfree : ∀ x ∈ splitChar '=' part, '=' ∉ x := by
    intro x hx hm
    have := splitOnP_sepFree (fun a => a == '=') part x hx '=' hm
    simp at this
  have hsegdbl : ∀ x ∈ splitChar '=' part, noDbl x = true := by
    intro x hx
    obtain ⟨u, w, huw⟩ := splitOnP_infix (fun a => a == '=') part x hx
    exact noDbl_of_infix part u x w huw hcl.2.2
  have hheadmem : (splitChar '=' part).headD [] ∈ splitChar '=' part := by
    cases hq : splitChar '=' part with
    | nil => exact absurd hq (splitOnP_ne_nil _ part)
    | cons y t => exact List.mem_cons_self y t
  have hmem2 : (splitChar '=' part).getD 1 [] ∈ splitChar '=' part ∨
      (splitChar '=' part).getD 1 [] = [] := by
    cases hq : splitChar '=' part with
    | nil => exact Or.inr rfl
    | cons y t =>
      cases t with
      | nil => exact Or.inr rfl
      | cons y1 t2 => exact Or.inl (by simp)
  unfold dictPairOf at h
  by_cases hkn : parse_nullable_value ((splitChar '=' part).headD []) = none
  · rw [if_pos hkn] at h
    cases h
  · rw [if_neg hkn] at h
    injection h with h
    subst h
    rw [nullable_none_iff] at hkn
    push_neg at hkn
    have hkcl : CleanStr ((splitChar '=' part).headD []) := by
      refine ⟨?_, ?_, hsegdbl _ hheadmem⟩
      · intro hm
        exact hcl.1 (hsegsub _ hheadmem '\t' hm)
      · intro hm
        exact hcl.2.1 (hsegsub _ hheadmem '\n' hm)
    refine ⟨hkcl, hkn.1, hkn.2, hsegfree _ hheadmem, ?_, ?_⟩
    · intro hm
      exact hpipe (hsegsub _ hheadmem '|' hm)
    · intro s hs
      by_cases hin : '=' ∈ part
      · rw [if_pos hin] at hs
        obtain ⟨hsval, hsnn⟩ := nullable_some_inv _ s hs
        push_neg at hsnn
        subst hsval
        rcases hmem2 with hmem2 | hmem2
        · exact ⟨⟨fun hm => hcl.1 (hsegsub _ hmem2 '\t' hm),
            fun hm => hcl.2.1 (hsegsub _ hmem2 '\n' hm), hsegdbl _ hmem2⟩,
            hsnn.2, hsegfree _ hmem2, fun hm => hpipe (hsegsub _ hmem2 '|' hm)⟩
        · exact absurd hmem2 hsnn.1
      · rw [if_neg hin] at hs
        injection hs with hs
        subst hs
        exact ⟨⟨by simp, by simp, rfl⟩, by decide, by simp, by simp⟩

theorem parse_dict_shape (raw : Str) (v : PyVal) (h : parse_dict_value raw = .ok v) :
    v = .pnone ∨ ∃ es, v = .pdict es := by
  unfold parse_dict_value at h
  split_ifs at h
  · injection h with h
    subst h
    exact Or.inl rfl
  · injection h with h
    subst h
    exact Or.inr ⟨_, rfl⟩

theorem parse_int_shape (raw : Str) (v : PyVal) (h : parse_int_value raw = .ok v) :
    v = .pnone ∨ ∃ n, v = .pint n := by
  unfold parse_int_value at h
  split_ifs at h
  · injection h with h
    subst h
    exact Or.inl rfl
  · injection h with h
    subst h
    exact Or.inr ⟨_, rfl⟩

theorem parse_dict_wf (raw : Str) (v : PyVal)
    (hcl : '\t' ∉ raw ∧ '\n' ∉ raw ∧ noDbl raw = true)
    (h : parse_dict_value raw = .ok v) :
    v = .pnone ∨ ∃ es, v = .pdict es ∧ (es.map Prod.fst).Nodup ∧ ∀ e ∈ es, WFdictEntry e := by
  unfold parse_dict_value at h
  split_ifs at h with h1
  · injection h with h
    subst h
    exact Or.inl rfl
  · injection h with h
    subst h
    refine Or.inr ⟨_, rfl, odOfList_nodup _, ?_⟩
    intro e he
    have he2 := odOfList_mem _ e he
    obtain ⟨part, hpart, hdp⟩ := List.mem_filterMap.mp he2
    have hpcl : '\t' ∉ part ∧ '\n' ∉ part ∧ noDbl part = true := by
      obtain ⟨u, w, huw⟩ := splitOnP_infix (fun a => a == '|') raw part hpart
      exact ⟨fun hm => hcl.1 (splitOnP_mem_subset _ raw part hpart '\t' hm),
        fun hm => hcl.2.1 (splitOnP_mem_subset _ raw part hpart '\n' hm),
        noDbl_of_infix raw u part w huw hcl.2.2⟩
    have hpipe : '|' ∉ part := by
      intro hm
      have := splitOnP_sepFree (fun a => a == '|') raw part hpart '|' hm
      simp at this
    exact dictPairOf_wf part hpcl hpipe e hdp

theorem pairedGroups_wf (gs : List Str) : ∀ ps, (∀ g ∈ gs, matchDepsGroup g = true) →
    pairedGroups gs = .ok ps →
    ps.length = gs.length ∧
      ∀ p ∈ ps, matchRelFull p.1 = true ∧ WFidVal p.2 ∧ p.2 ≠ .pnone := by
  induction gs with
  | nil =>
    intro ps _ h
    simp only [pairedGroups, Except.ok.injEq] at h
    subst h
    exact ⟨rfl, by simp⟩
  | cons g rest ih =>
    intro ps hall h
    have hg := hall g (List.mem_cons_self g rest)
    unfold matchDepsGroup at hg
    simp only [pairedGroups] at h
    cases hsf : splitFirst ':' g with
    | mk idp orel =>
      cases orel with
      | none =>
        rw [hsf] at hg
        dsimp only at hg
        exact absurd hg (by decide)
      | some rel =>
        rw [hsf] at h hg
        dsimp only at h hg
        simp only [Bool.and_eq_true] at hg
        cases hpid : parse_id_value idp with
        | error er =>
          rw [hpid] at h
          cases h
        | ok vid =>
          rw [hpid] at h
          cases hrest : pairedGroups rest with
          | error er =>
            rw [hrest] at h
            cases h
          | ok pr =>
            rw [hrest] at h
            injection h with h
            subst h
            obtain ⟨hlen, hfacts⟩ := ih pr (fun x hx => hall x (List.mem_cons_of_mem g hx)) hrest
            refine ⟨by simp [hlen], ?_⟩
            intro p hp
            rcases List.mem_cons.mp hp with rfl | hp
            · refine ⟨hg.2, parse_id_wf idp vid hpid, ?_⟩
              apply parse_id_not_pnone idp vid ?_ hpid
              intro hcon
              have hg1 := hg.1
              rcases hcon with hcon | hcon <;>
                (rw [hcon] at hg1; revert hg1; decide)
            · exact hfacts p hp

theorem parse_paired_wf (raw : Str) (v : PyVal)
    (hcl : '\t' ∉ raw ∧ '\n' ∉ raw ∧ noDbl raw = true)
    (h : parse_paired_list_value raw = .ok v) :
    v = .pnone ∨
      (∃ s, v = .pstr s ∧ CleanStr s ∧ s ≠ [] ∧ s ≠ str "_" ∧ matchMulti s = false) ∨
      (∃ ps, v = .plist ps ∧ ps ≠ [] ∧
        ∀ p ∈ ps, matchRelFull p.1 = true ∧ WFidVal p.2 ∧ p.2 ≠ .pnone) := by
  unfold parse_paired_list_value at h
  split_ifs at h with hm
  · cases hpg : pairedGroups (splitChar '|' raw) with
    | error er =>
      rw [hpg] at h
      cases h
    | ok ps =>
      rw [hpg] at h
      injection h with h
      subst h
      unfold matchMulti at hm
      obtain ⟨hlen, hfacts⟩ := pairedGroups_wf (splitChar '|' raw) ps
        (List.all_eq_true.mp hm) hpg
      refine Or.inr (Or.inr ⟨ps, rfl, ?_, hfacts⟩)
      intro hnil
      rw [hnil] at hlen
      cases hq : splitChar '|' raw with
      | nil => exact splitOnP_ne_nil (fun a => a == '|') raw hq
      | cons y t =>
        rw [hq] at hlen
        simp at hlen
  · injection h with h
    subst h
    cases hn : parse_nullable_value raw with
    | none =>
      left
      unfold nullableVal
      rw [hn]
    | some t =>
      right
      left
      obtain ⟨hteq, htne⟩ := nullable_some_inv raw t hn
      push_neg at htne
      refine ⟨t, ?_, ?_, ?_, ?_, ?_⟩
      · unfold nullableVal
        rw [hn]
      · rw [hteq]
        exact ⟨hcl.1, hcl.2.1, hcl.2.2⟩
      · rw [hteq]
        exact htne.1
      · rw [hteq]
        exact htne.2
      · rw [hteq]
        simpa using hm

theorem fieldValueParse_ok_inv (f raw : Str) (v : PyVal) (h : fieldValueParse f raw = .ok v) :
    (if f = str "id" then parse_id_value raw
     else if f = str "xpostag" then .ok (nullableVal raw)
     else if f = str "feats" then parse_dict_value raw
     else if f = str "head" then parse_int_value raw
     else if f = str "deps" then parse_paired_list_value raw
     else if f = str "misc" then parse_dict_value raw
     else .ok (.pstr raw)) = .ok v := by
  simp only [fieldValueParse] at h
  cases hres : (if f = str "id" then parse_id_value raw
     else if f = str "xpostag" then .ok (nullableVal raw)
     else if f = str "feats" then parse_dict_value raw
     else if f = str "head" then parse_int_value raw
     else if f = str "deps" then parse_paired_list_value raw
     else if f = str "misc" then parse_dict_value raw
     else .ok (.pstr raw)) with
  | error er =>
    rw [hres] at h
    cases er with
    | parseException m =>
      dsimp only at h
      cases h
    | typeError =>
      dsimp only at h
      cases h
    | keyError =>
      dsimp only at h
      cases h
    | indexError =>
      dsimp only at h
      cases h
  | ok v2 =>
    rw [hres] at h
    dsimp only at h
    exact h

theorem parse_paired_pstr (raw s : Str) (h : parse_paired_list_value raw = .ok (.pstr s)) :
    s = raw := by
  unfold parse_paired_list_value at h
  split_ifs at h with hm
  · cases hpg : pairedGroups (splitChar '|' raw) with
    | error er =>
      rw [hpg] at h
      cases h
    | ok ps =>
      rw [hpg] at h
      injection h with h
      cases h
  · injection h with h
    unfold nullableVal at h
    cases hn : parse_nullable_value raw with
    | none =>
      rw [hn] at h
      cases h
    | some t =>
      rw [hn] at h
      injection h with h
      rw [← h]
      exact (nullable_some_inv raw t hn).1

theorem fieldValueParse_pstr (f raw s : Str) (h : fieldValueParse f raw = .ok (.pstr s)) :
    s = raw := by
  have h2 := fieldValueParse_ok_inv f raw (.pstr s) h
  split_ifs at h2 with h1 hx hfe hh hd hmc
  · rcases parse_id_wf raw _ h2 with hc | ⟨n, hc, -⟩ | ⟨a, b, hc, -⟩ | ⟨a, b, hc, -⟩ <;> cases hc
  · injection h2 with h2
    unfold nullableVal at h2
    cases hn : parse_nullable_value raw with
    | none =>
      rw [hn] at h2
      cases h2
    | some t =>
      rw [hn] at h2
      injection h2 with h2
      rw [← h2]
      exact (nullable_some_inv raw t hn).1
  · rcases parse_dict_shape raw _ h2 with hc | ⟨es, hc⟩ <;> cases hc
  · rcases parse_int_shape raw _ h2 with hc | ⟨n, hc⟩ <;> cases hc
  · exact parse_paired_pstr raw s h2
  · rcases parse_dict_shape raw _ h2 with hc | ⟨es, hc⟩ <;> cases hc
  · injection h2 with h2
    injection h2 with h2
    exact h2.symm

theorem fieldValueParse_wf (f raw : Str) (v : PyVal)
    (hcl : '\t' ∉ raw ∧ '\n' ∉ raw ∧ noDbl raw = true)
    (h : fieldValueParse f raw = .ok v) : WFfieldVal f v := by
  have h2 := fieldValueParse_ok_inv f raw v h
  unfold WFfieldVal
  by_cases hid : f = str "id"
  · rw [if_pos hid]
    rw [if_pos hid] at h2
    exact parse_id_wf raw v h2
  · rw [if_neg hid]
    rw [if_neg hid] at h2
    by_cases hh : f = str "head"
    · rw [if_pos hh]
      rw [if_neg (by rw [hh]; decide), if_neg (by rw [hh]; decide), if_pos hh] at h2
      exact parse_int_shape raw v h2
    · rw [if_neg hh]
      by_cases hxp : f = str "xpostag"
      · rw [if_pos hxp]
        rw [if_pos hxp] at h2
        injection h2 with h2
        subst h2
        cases hn : parse_nullable_value raw with
        | none =>
          left
          unfold nullableVal
          rw [hn]
        | some t =>
          right
          obtain ⟨hteq, htne⟩ := nullable_some_inv raw t hn
          push_neg at htne
          refine ⟨t, ?_, ?_, ?_, ?_⟩
          · unfold nullableVal
            rw [hn]
          · rw [hteq]
            exact ⟨hcl.1, hcl.2.1, hcl.2.2⟩
          · rw [hteq]
            exact htne.1
          · rw [hteq]
            exact htne.2
      · rw [if_neg hxp]
        rw [if_neg hxp] at h2
        by_cases hfm : f = str "feats" ∨ f = str "misc"
        · rw [if_pos hfm]
          have h3 : parse_dict_value raw = .ok v := by
            rcases hfm with rfl | rfl
            · rwa [if_pos rfl] at h2
            · rwa [if_neg (by decide : ¬ (str "misc") = str "feats"),
                if_neg (by decide : ¬ (str "misc") = str "head"),
                if_neg (by decide : ¬ (str "misc") = str "deps"), if_pos rfl] at h2
          exact parse_dict_wf raw v hcl h3
        · rw [if_neg hfm]
          by_cases hdp : f = str "deps"
          · rw [if_pos hdp]
            rw [if_neg (fun hc : f = str "feats" => hfm (Or.inl hc)),
              if_neg hh, if_pos hdp] at h2
            exact parse_paired_wf raw v hcl h2
          · rw [if_neg hdp]
            rw [if_neg (fun hc : f = str "feats" => hfm (Or.inl hc)),
              if_neg hh, if_neg hdp,
              if_neg (fun hc : f = str "misc" => hfm (Or.inr hc))] at h2
            injection h2 with h2
            subst h2
            exact ⟨raw, rfl, hcl.1, hcl.2.1, hcl.2.2⟩

theorem zip_map_fst (fs : List α) : ∀ ps : List β,
    (fs.zip ps).map Prod.fst = fs.take (min fs.length ps.length) := by
  induction fs with
  | nil =>
    intro ps
    simp
  | cons f fs' ih =>
    intro ps
    cases ps with
    | nil => simp
    | cons p ps' =>
      simp only [List.zip_cons_cons, List.map_cons, List.length_cons, ih ps']
      rw [Nat.succ_min_succ, List.take_succ_cons]

theorem zip_mem_right (fs : List α) : ∀ (ps : List β) pr, pr ∈ fs.zip ps → pr.2 ∈ ps := by
  induction fs with
  | nil =>
    intro ps pr h
    simp at h
  | cons f fs' ih =>
    intro ps pr h
    cases ps with
    | nil => simp at h
    | cons p ps' =>
      rw [List.zip_cons_cons] at h
      rcases List.mem_cons.mp h with rfl | h
      · exact List.mem_cons_self p ps'
      · exact List.mem_cons_of_mem p (ih ps' pr h)

theorem zip_getLast (fs : List α) : ∀ (ps : List β) pr, (fs.zip ps).getLast? = some pr →
    (ps.length ≤ fs.length → ps.getLast? = some pr.2) ∧
    (fs.length ≤ ps.length → fs.getLast? = some pr.1) := by
  induction fs with
  | nil =>
    intro ps pr h
    simp at h
  | cons f fs' ih =>
    intro ps pr h
    cases ps with
    | nil => simp at h
    | cons p ps' =>
      rw [List.zip_cons_cons] at h
      cases hz : fs'.zip ps' with
      | nil =>
        rw [hz] at h
        simp only [List.getLast?_singleton] at h
        injection h with h
        subst h
        have hmin : min fs'.length ps'.length = 0 := by
          have hlz := List.length_zip fs' ps'
          rw [hz] at hlz
          simpa using hlz.symm
        constructor
        · intro hle
          simp only [List.length_cons] at hle
          have hps' : ps' = [] := by
            rcases Nat.min_eq_zero_iff.mp hmin with h0 | h0
            · exact List.length_eq_zero.mp (by omega)
            · exact List.length_eq_zero.mp h0
          subst hps'
          simp
        · intro hle
          simp only [List.length_cons] at hle
          have hfs' : fs' = [] := by
            rcases Nat.min_eq_zero_iff.mp hmin with h0 | h0
            · exact List.length_eq_zero.mp h0
            · exact List.length_eq_zero.mp (by omega)
          subst hfs'
          simp
      | cons z zs =>
        rw [hz] at h
        rw [getLast?_cons_of_ne _ _ (by simp)] at h
        obtain ⟨h1, h2⟩ := ih ps' pr (by rw [hz]; exact h)
        have hps'ne : ps' ≠ [] := by
          intro hnil
          rw [hnil] at hz
          simp at hz
        have hfs'ne : fs' ≠ [] := by
          intro hnil
          rw [hnil] at hz
          simp at hz
        constructor
        · intro hle
          simp only [List.length_cons] at hle
          rw [getLast?_cons_of_ne p ps' hps'ne]
          exact h1 (by omega)
        · intro hle
          simp only [List.length_cons] at hle
          rw [getLast?_cons_of_ne f fs' hfs'ne]
          exact h2 (by omega)

theorem plLoop_shape (pairs : List (Str × Str)) : ∀ (acc t : Token),
    ((pairs.map Prod.fst).Nodup) →
    (∀ pr ∈ pairs, pr.1 ∉ acc.map Prod.fst) →
    plLoop pairs acc = .ok t →
    ∃ ents : Token, t = acc ++ ents ∧ ents.map Prod.fst = pairs.map Prod.fst ∧
      (∀ e ∈ ents, ∃ pr ∈ pairs, pr.1 = e.1 ∧ fieldValueParse pr.1 pr.2 = .ok e.2) ∧
      (∀ e, ents.getLast? = some e →
        ∃ pr, pairs.getLast? = some pr ∧ pr.1 = e.1 ∧ fieldValueParse pr.1 pr.2 = .ok e.2) := by
  induction pairs with
  | nil =>
    intro acc t _ _ h
    simp only [plLoop, Except.ok.injEq] at h
    subst h
    exact ⟨[], by simp, rfl, by simp, by simp⟩
  | cons pr pairs' ih =>
    intro acc t hnd hfr h
    obtain ⟨f, raw⟩ := pr
    simp only [plLoop] at h
    cases hfv : fieldValueParse f raw with
    | error er =>
      simp only [hfv] at h
      cases h
    | ok v =>
      simp only [hfv] at h
      rw [List.map_cons, List.nodup_cons] at hnd
      rw [odInsert_fresh f v acc (hfr (f, raw) (List.mem_cons_self _ _))] at h
      have hfr2 : ∀ pr2 ∈ pairs', pr2.1 ∉ (acc ++ [(f, v)]).map Prod.fst := by
        intro x hx
        simp only [List.map_append, List.mem_append]
        push_neg
        refine ⟨hfr x (List.mem_cons_of_mem _ hx), ?_⟩
        simp only [List.map_cons, List.map_nil, List.mem_singleton]
        intro hcon
        refine hnd.1 ?_
        have hm2 : x.1 ∈ List.map Prod.fst pairs' := List.mem_map_of_mem Prod.fst hx
        rwa [hcon] at hm2
      obtain ⟨ents, ht, hkeys, hmem, hlastp⟩ := ih (acc ++ [(f, v)]) t hnd.2 hfr2 h
      refine ⟨(f, v) :: ents, by rw [ht]; simp, by simp [hkeys], ?_, ?_⟩
      · intro e he
        rcases List.mem_cons.mp he with rfl | he
        · exact ⟨(f, raw), List.mem_cons_self _ _, rfl, hfv⟩
        · obtain ⟨pr2, hpr2, hk2, hv2⟩ := hmem e he
          exact ⟨pr2, List.mem_cons_of_mem _ hpr2, hk2, hv2⟩
      · intro e he
        cases hents : ents with
        | nil =>
          have hp' : pairs' = [] := by
            rw [hents] at hkeys
            cases hpp : pairs' with
            | nil => rfl
            | cons a b =>
              rw [hpp] at hkeys
              simp at hkeys
          subst hp'
          subst hents
          simp only [List.getLast?_singleton] at he
          injection he with he
          subst he
          exact ⟨(f, raw), rfl, rfl, hfv⟩
        | cons e1 ents' =>
          subst hents
          rw [getLast?_cons_of_ne (f, v) (e1 :: ents') (by simp)] at he
          obtain ⟨pr2, hpr2, hk2, hv2⟩ := hlastp e he
          have hp'ne : pairs' ≠ [] := by
            intro hnil
            rw [hnil] at hkeys
            simp at hkeys
          cases hpp : pairs' with
          | nil => exact absurd hpp hp'ne
          | cons q1 qs =>
            subst hpp
            refine ⟨pr2, ?_, hk2, hv2⟩
            rw [getLast?_cons_of_ne (f, raw) (q1 :: qs) (by simp)]
            exact hpr2

theorem parse_line_wf (line : Str) (t : Token)
    (hnl : '\n' ∉ line) (hstrip : strip line = line) (hlne : line ≠ [])
    (h : parse_line line DEFAULT_FIELDS = .ok t) : WFtoken t := by
  obtain ⟨⟨hA, hC, hD⟩, -⟩ := rsf_master line.length line le_rfl
  simp only [parse_line] at h
  split_ifs at h with hlen1
  have hpne : resplitFields line ≠ [] := rsfAux_ne_nil line
  have hndp : ((DEFAULT_FIELDS.zip (resplitFields line)).map Prod.fst).Nodup := by
    rw [zip_map_fst]
    exact List.Nodup.sublist (List.take_sublist _ _) (by decide : DEFAULT_FIELDS.Nodup)
  obtain ⟨ents, ht, hkeys, hmem, hlastp⟩ := plLoop_shape _ [] t hndp (by simp) h
  simp only [List.nil_append] at ht
  subst ht
  have hplen2 : 2 ≤ (resplitFields line).length := by
    cases hq : resplitFields line with
    | nil => exact absurd hq hpne
    | cons a b =>
      rw [hq] at hlen1
      simp only [List.length_cons] at hlen1 ⊢
      omega
  have hentlen : t.length = min 10 (resplitFields line).length := by
    have h2 := congrArg List.length hkeys
    simp only [List.length_map] at h2
    rw [h2, List.length_zip]
    rw [show DEFAULT_FIELDS.length = 10 from rfl]
  refine ⟨?_, ?_, ?_, ?_⟩
  · rw [hkeys, zip_map_fst, hentlen]
    rw [show DEFAULT_FIELDS.length = 10 from rfl]
  · rw [hentlen]
    omega
  · intro p hp
    obtain ⟨pr2, hpr2, hk2, hv2⟩ := hmem p hp
    have hraw : pr2.2 ∈ resplitFields line := zip_mem_right _ _ pr2 hpr2
    have hrawcl := hA pr2.2 hraw
    rw [← hk2]
    exact fieldValueParse_wf pr2.1 pr2.2 p.2
      ⟨hrawcl.1, fun hm => hnl (hrawcl.2.2 '\n' hm), hrawcl.2.1⟩ hv2
  · intro f v hlast s hv
    obtain ⟨pr2, hpr2, hk2, hv2⟩ := hlastp (f, v) hlast
    obtain ⟨hright, hleft⟩ := zip_getLast DEFAULT_FIELDS (resplitFields line) pr2 hpr2
    rw [hv] at hv2
    have hsraw : s = pr2.2 := fieldValueParse_pstr pr2.1 pr2.2 s hv2
    by_cases hple : (resplitFields line).length ≤ 10
    · have hlastpart := hright (by
        rw [show DEFAULT_FIELDS.length = 10 from rfl]
        exact hple)
      have hlc : ∀ c, line.getLast? = some c → isPyWS c = false := strip_last_not_ws line hstrip
      have hsome : line.getLast?.isSome := List.getLast?_isSome.mpr hlne
      cases hlchar : line.getLast? with
      | none =>
        rw [hlchar] at hsome
        cases hsome
      | some c =>
        obtain ⟨q, hq1, hq2, hq3⟩ := hD c hlchar (hlc c hlchar)
        have hqeq : q = pr2.2 := by
          have hlastpart2 : (rsfAux line).getLast? = some pr2.2 := hlastpart
          rw [hq1] at hlastpart2
          injection hlastpart2 with hlastpart2
        rw [hsraw, ← hqeq]
        refine ⟨hq2, ?_⟩
        intro c2 hc2
        rw [hq3] at hc2
        injection hc2 with hc2
        subst hc2
        exact hlc c hlchar
    · have hfld := hleft (by
        rw [show DEFAULT_FIELDS.length = 10 from rfl]
        omega)
      have hmisc : pr2.1 = str "misc" := by
        rw [show DEFAULT_FIELDS.getLast? = some (str "misc") from rfl] at hfld
        injection hfld with hfld
        exact hfld.symm
      rw [hmisc] at hv2
      have h3 := fieldValueParse_ok_inv (str "misc") pr2.2 (.pstr s) hv2
      rw [if_neg (by decide), if_neg (by decide), if_neg (by decide), if_neg (by decide),
        if_neg (by decide), if_pos rfl] at h3
      rcases parse_dict_shape pr2.2 _ h3 with hc | ⟨es, hc⟩ <;> cases hc

theorem ptm_wf (lines : List Str) : ∀ (toks : List Token) (md : Metadata) toks2 md2,
    (∀ l ∈ lines, '\n' ∉ l) →
    (∀ t ∈ toks, WFtoken t) → WFmeta md →
    ptmLoop DEFAULT_FIELDS lines toks md = .ok (toks2, md2) →
    (∀ t ∈ toks2, WFtoken t) ∧ WFmeta md2 := by
  induction lines with
  | nil =>
    intro toks md toks2 md2 _ htoks hmd h
    simp only [ptmLoop, Except.ok.injEq] at h
    injection h with h1 h2
    subst h1
    subst h2
    exact ⟨htoks, hmd⟩
  | cons line rest ih =>
    intro toks md toks2 md2 hnl htoks hmd h
    have hnlr : ∀ l ∈ rest, '\n' ∉ l := fun l hl => hnl l (List.mem_cons_of_mem line hl)
    have hnll : '\n' ∉ strip line :=
      fun hm => hnl line (List.mem_cons_self line rest) (strip_subset line '\n' hm)
    simp only [ptmLoop] at h
    by_cases hempty : strip line = []
    · rw [if_pos hempty] at h
      exact ih toks md toks2 md2 hnlr htoks hmd h
    · rw [if_neg hempty] at h
      by_cases hhash : (strip line).headD ' ' = '#'
      · rw [if_pos hhash] at h
        cases hpc : parse_comment_line (strip line) with
        | error er =>
          simp only [hpc] at h
          cases h
        | ok prs =>
          simp only [hpc] at h
          refine ih _ _ _ _ hnlr htoks ?_ h
          have hprs := parse_comment_wf (strip line) hnll prs hpc
          constructor
          · exact odFold_nodup prs md hmd.1
          · intro e he
            rcases odFold_mem prs md e he with h2 | h2
            · exact hmd.2 e h2
            · exact hprs e h2
      · rw [if_neg hhash] at h
        cases hpl : parse_line (strip line) DEFAULT_FIELDS with
        | error er =>
          simp only [hpl] at h
          cases h
        | ok tk =>
          simp only [hpl] at h
          refine ih _ _ _ _ hnlr ?_ hmd h
          intro t2 ht2
          rcases List.mem_append.mp ht2 with h2 | h2
          · exact htoks t2 h2
          · simp only [List.mem_singleton] at h2
            subst h2
            exact parse_line_wf (strip line) t2 hnll (strip_idem line) hempty hpl

theorem parse_block_wf (data : Str) (toks : List Token) (md : Metadata)
    (h : parse_block data = .ok (toks, md)) :
    (∀ t ∈ toks, WFtoken t) ∧ WFmeta md := by
  unfold parse_block parse_token_and_metadata at h
  split_ifs at h with hd
  exact ptm_wf (splitChar '\n' data) [] [] toks md
    (fun l hl hm => by
      have h2 := splitOnP_sepFree (fun x => x == '\n') data l hl '\n' hm
      simp at h2)
    (by simp) ⟨by simp, by simp⟩ h

/-- Claim C1 (as amended): for every `(token_records, metadata)` pair produced
by `parse_block`, provided no metadata value is the absent `None` and every
dict-valued field is a nonempty mapping whose values are neither the empty
string nor end in whitespace, `serialize` succeeds and parsing the serialized
text again yields exactly the original pair (the raw separator whitespace of
the source being replaced by single tabs). -/
theorem claim_C1_roundtrip (data : Str) (toks : List Token) (md : Metadata)
    (hparse : parse_block data = .ok (toks, md))
    (hmeta : metaValuesPresent md = true)
    (hdict : dictsOk toks = true) :
    ∃ out, serialize toks md = .ok out ∧ parse_block out = .ok (toks, md) := by
  obtain ⟨htoks, hmd⟩ := parse_block_wf data toks md hparse
  have hdo : ∀ t ∈ toks, ∀ fv ∈ t, dictFieldOk fv.2 = true := by
    unfold dictsOk at hdict
    simp only [List.all_eq_true] at hdict
    intro t ht fv hfv
    have h2 := hdict t ht
    simp only [List.all_eq_true] at h2
    exact h2 fv hfv
  obtain ⟨mls, hmls⟩ := serializeMetaLines_total md hmeta
  have hserfields : ∀ t ∈ toks, ∀ e ∈ t, ∃ s, serialize_field e.2 = .ok s := by
    intro t ht e he
    obtain ⟨s, hs, -⟩ := fieldSer_replay e.1 e.2 ((htoks t ht).2.2.1 e he) (hdo t ht e he)
    exact ⟨s, hs⟩
  obtain ⟨tls, htls⟩ := serializeTokenLines_total toks hserfields
  have hwfboth : ∀ t ∈ toks, WFtoken t ∧ ∀ fv ∈ t, dictFieldOk fv.2 = true :=
    fun t ht => ⟨htoks t ht, hdo t ht⟩
  refine ⟨joinSep ['\n'] (mls ++ tls) ++ ['\n', '\n'], ?_, ?_⟩
  · unfold serialize
    rw [hmls, htls]
  · by_cases hLnil : mls ++ tls = []
    · have hmls0 : mls = [] := (List.append_eq_nil.mp hLnil).1
      have htls0 : tls = [] := (List.append_eq_nil.mp hLnil).2
      have hmd0 : md = [] := by
        cases hmdc : md with
        | nil => rfl
        | cons e m2 =>
          rw [hmdc] at hmls
          obtain ⟨k, vo⟩ := e
          cases vo with
          | none =>
            simp only [serializeMetaLines] at hmls
            cases hmls
          | some v =>
            simp only [serializeMetaLines] at hmls
            cases hr : serializeMetaLines m2 with
            | error er =>
              rw [hr] at hmls
              cases hmls
            | ok r2 =>
              rw [hr] at hmls
              rw [hmls0] at hmls
              cases hmls
      have htk0 : toks = [] := by
        cases htc : toks with
        | nil => rfl
        | cons t t2 =>
          rw [htc] at htls
          simp only [serializeTokenLines] at htls
          cases hex : exSeqFields t with
          | error er =>
            rw [hex] at htls
            cases htls
          | ok fs =>
            rw [hex] at htls
            cases hr : serializeTokenLines t2 with
            | error er =>
              rw [hr] at htls
              cases htls
            | ok r2 =>
              rw [hr] at htls
              rw [htls0] at htls
              cases htls
      subst hmd0
      subst htk0
      rw [hLnil]
      decide
    · have hnlm : ∀ l ∈ mls, '\n' ∉ l := serializeMetaLines_nonl md mls hmls hmd.2
      have hnlt : ∀ l ∈ tls, '\n' ∉ l := serializeTokenLines_nonl toks tls htls hwfboth
      have hnlall : ∀ l ∈ mls ++ tls, '\n' ∉ l := by
        intro l hl
        rcases List.mem_append.mp hl with h2 | h2
        · exact hnlm l h2
        · exact hnlt l h2
      unfold parse_block parse_token_and_metadata
      rw [if_neg (show ¬(joinSep ['\n'] (mls ++ tls) ++ ['\n', '\n']) = [] from by
        intro hnil
        have h2 := congrArg List.length hnil
        simp at h2)]
      rw [split_serialized (mls ++ tls) hLnil hnlall]
      rw [List.append_assoc]
      rw [metaLines_replay md mls hmls hmd.1 hmd.2 (tls ++ [[], []]) [] [] (by simp)]
      rw [List.nil_append]
      rw [tokenLines_replay toks tls htls hwfboth [[], []] [] md]
      rw [List.nil_append]
      exact ptmLoop_blanks toks md

/-- Claim C1 counterexample to the unconditional round trip: the block
`1<TAB>a<TAB>a<TAB>A<TAB>_<TAB>foo` parses to a record whose `feats` entry is
`foo` mapped to the empty string; `serialize` renders it as `foo=`, which
reparses as `foo` mapped to absent — so parse-serialize-parse does not
reproduce the original pair. -/
theorem claim_C1_cex :
    parse_block (str "1\ta\ta\tA\t_\tfoo") =
      .ok ([[(str "id", PyVal.pint 1), (str "form", PyVal.pstr (str "a")),
        (str "lemma", PyVal.pstr (str "a")), (str "upostag", PyVal.pstr (str "A")),
        (str "xpostag", PyVal.pnone), (str "feats", PyVal.pdict [(str "foo", some [])])]], []) ∧
    serialize [[(str "id", PyVal.pint 1), (str "form", PyVal.pstr (str "a")),
        (str "lemma", PyVal.pstr (str "a")), (str "upostag", PyVal.pstr (str "A")),
        (str "xpostag", PyVal.pnone), (str "feats", PyVal.pdict [(str "foo", some [])])]] []
      = .ok (str "1\ta\ta\tA\t_\tfoo=\n\n") ∧
    parse_block (str "1\ta\ta\tA\t_\tfoo=\n\n") =
      .ok ([[(str "id", PyVal.pint 1), (str "form", PyVal.pstr (str "a")),
        (str "lemma", PyVal.pstr (str "a")), (str "upostag", PyVal.pstr (str "A")),
        (str "xpostag", PyVal.pnone), (str "feats", PyVal.pdict [(str "foo", none)])]], []) ∧
    ([[(str "id", PyVal.pint 1), (str "form", PyVal.pstr (str "a")),
        (str "lemma", PyVal.pstr (str "a")), (str "upostag", PyVal.pstr (str "A")),
        (str "xpostag", PyVal.pnone), (str "feats", PyVal.pdict [(str "foo", some [])])]]
      : List Token) ≠
    [[(str "id", PyVal.pint 1), (str "form", PyVal.pstr (str "a")),
        (str "lemma", PyVal.pstr (str "a")), (str "upostag", PyVal.pstr (str "A")),
        (str "xpostag", PyVal.pnone), (str "feats", PyVal.pdict [(str "foo", none)])]] := by
  refine ⟨by decide, by decide, by decide, by decide⟩

/-- Witness for claim C1: the amended round trip applied to the concrete
block `# sent_id = 1` / `1 The the DET _ _ 2 det _ _`. -/
theorem claim_C1_witness :
    ∃ out,
      serialize [[(str "id", PyVal.pint 1), (str "form", PyVal.pstr (str "The")),
          (str "lemma", PyVal.pstr (str "the")), (str "upostag", PyVal.pstr (str "DET")),
          (str "xpostag", PyVal.pnone), (str "feats", PyVal.pnone),
          (str "head", PyVal.pint 2), (str "deprel", PyVal.pstr (str "det")),
          (str "deps", PyVal.pnone), (str "misc", PyVal.pnone)]]
        [(str "sent_id", some (str "1"))] = .ok out ∧
      parse_block out =
        .ok ([[(str "id", PyVal.pint 1), (str "form", PyVal.pstr (str "The")),
          (str "lemma", PyVal.pstr (str "the")), (str "upostag", PyVal.pstr (str "DET")),
          (str "xpostag", PyVal.pnone), (str "feats", PyVal.pnone),
          (str "head", PyVal.pint 2), (str "deprel", PyVal.pstr (str "det")),
          (str "deps", PyVal.pnone), (str "misc", PyVal.pnone)]],
          [(str "sent_id", some (str "1"))]) :=
  claim_C1_roundtrip (str "# sent_id = 1\n1\tThe\tthe\tDET\t_\t_\t2\tdet\t_\t_")
    _ _ (by decide) (by decide) (by decide)
